import Mathlib

/-!
Verification development for the ChrisB_Blog content-migration pipeline.

The definitions below are a shallow embedding of the Python sources:
  * `scripts/migrate_wordpress.py` (export parser, HTML→Markdown transcoder
    and the orchestrator over the Django models in `blog/models.py`),
  * `scripts/download_images.py` (image-URL extraction and body rewriting),
  * `scripts/extract_featured_images.py` (`find_existing_image`).

Python strings are modelled as `List Char`; the handful of regular
expressions used by the scripts are modelled by a small faithful
backtracking matcher over patterns whose quantifiers all range over
single-character classes (which is the case for every pattern in the
sources).  Recursions are fuelled where Lean's structural recursion does
not apply directly; each fuel value is chosen to provably dominate the
recursion depth, so the fuelled function agrees with the unfuelled
semantics of the Python original.
-/

set_option autoImplicit false

namespace Mig

/-! ## Python string helpers -/

/-- Characters stripped by Python's `str.strip()` (ASCII whitespace). -/
def isPySpace (c : Char) : Bool :=
  c = ' ' || c = '\t' || c = '\n' || c = '\r' || c = '\x0b' || c = '\x0c'

/-- Drop trailing characters satisfying `p` (right side of `str.strip()`). -/
def dropTrail (p : Char → Bool) (s : List Char) : List Char :=
  s.foldr (fun c acc => if acc.isEmpty && p c then [] else c :: acc) []

/-- Python `str.strip()` on a character list. -/
def stripPy (s : List Char) : List Char :=
  dropTrail isPySpace (s.dropWhile isPySpace)

/-- Match a literal list prefix; on success return the remainder. -/
def litPref : List Char → List Char → Option (List Char)
  | [], s => some s
  | _ :: _, [] => none
  | c :: cs, d :: ds => if c = d then litPref cs ds else none

/-- Fuelled worker for `pyReplace`. -/
def replAll (pat repl : List Char) : Nat → List Char → List Char
  | 0, s => s
  | _ + 1, [] => []
  | f + 1, c :: cs =>
    match litPref pat (c :: cs) with
    | some rest => repl ++ replAll pat repl f rest
    | none => c :: replAll pat repl f cs

/-- Python `str.replace(pat, repl)` (all non-overlapping occurrences,
left to right).  The fuel `s.length` suffices because `pat` is nonempty
in every use in the sources, so each step consumes at least one input
character. -/
def pyReplace (s pat repl : List Char) : List Char :=
  replAll pat repl s.length s

/-! ## A small regex engine

Every regular expression in the migration scripts is a sequence of
literals and quantified single-character classes (`[^>]*`, `(.*?)`,
`\s*`, `/?`, …), with capture groups wrapping exactly one quantified
class.  `Tok` transcribes such a pattern token by token, and `matchToks`
is a backtracking matcher with Python `re` semantics: greedy quantifiers
try the longest repetition first, lazy ones the shortest, and
backtracking decrements/increments the repetition count. -/

inductive Tok where
  | lit : List Char → Tok
  | quant : (Char → Bool) → Nat → Option Nat → Bool → Option Nat → Tok

/-- Greedy `cls*`, optionally capturing group `cap`. -/
def star (cls : Char → Bool) (cap : Option Nat) : Tok :=
  Tok.quant cls 0 none true cap

/-- Lazy `cls*?`, optionally capturing group `cap`. -/
def starL (cls : Char → Bool) (cap : Option Nat) : Tok :=
  Tok.quant cls 0 none false cap

/-- Greedy `cls+`, optionally capturing group `cap`. -/
def plus (cls : Char → Bool) (cap : Option Nat) : Tok :=
  Tok.quant cls 1 none true cap

/-- Greedy `cls?`. -/
def optC (cls : Char → Bool) : Tok :=
  Tok.quant cls 0 (some 1) true none

/-- Backtracking matcher.  Returns the captures and the unconsumed
remainder.  Fuel bounds the recursion depth: every call either consumes
a token or narrows a quantifier's repetition range by one, so depth is
at most `(#tokens) * (input length + 2)`. -/
def matchToks : Nat → List Tok → List Char → List (Nat × List Char) →
    Option (List (Nat × List Char) × List Char)
  | 0, _, _, _ => none
  | _ + 1, [], s, caps => some (caps, s)
  | f + 1, Tok.lit l :: ts, s, caps =>
    match litPref l s with
    | some rest => matchToks f ts rest caps
    | none => none
  | f + 1, Tok.quant cls mn mx gr cap :: ts, s, caps =>
    let run := (s.takeWhile cls).length
    let hi := match mx with | none => run | some m => Nat.min m run
    if hi < mn then none
    else
      let k := if gr then hi else mn
      let caps2 := match cap with | none => caps | some g => caps ++ [(g, s.take k)]
      match matchToks f ts (s.drop k) caps2 with
      | some r => some r
      | none =>
        if hi ≤ mn then none
        else if gr then matchToks f (Tok.quant cls mn (some (hi - 1)) gr cap :: ts) s caps
        else matchToks f (Tok.quant cls (mn + 1) mx gr cap :: ts) s caps

/-- Fuel dominating the depth of `matchToks` (see its docstring). -/
def mFuel (pat : List Tok) (s : List Char) : Nat :=
  (pat.length + 1) * (s.length + 2)

/-- Capture lookup (empty string for an unset group, as no pattern here
reads an unset group). -/
def capGet (caps : List (Nat × List Char)) (n : Nat) : List Char :=
  ((caps.find? (fun p => p.1 == n)).map Prod.snd).getD []

/-- Try to match `pat` at the current position; on success produce the
replacement text (from `tmpl`) and the remainder. -/
def subStep (pat : List Tok) (tmpl : List (Nat × List Char) → List Char)
    (s : List Char) : Option (List Char × List Char) :=
  match matchToks (mFuel pat s) pat s [] with
  | some (caps, rest) => some (tmpl caps, rest)
  | none => none

/-- Fuelled worker for `pyReSub`: scan left to right, replacing
non-overlapping matches, never rescanning replacement text — the
semantics of Python's `re.sub`. -/
def pysubGo (pat : List Tok) (tmpl : List (Nat × List Char) → List Char) :
    Nat → List Char → List Char
  | 0, s => s
  | _ + 1, [] => []
  | f + 1, c :: cs =>
    match subStep pat tmpl (c :: cs) with
    | some (rep, rest) => rep ++ pysubGo pat tmpl f rest
    | none => c :: pysubGo pat tmpl f cs

/-- Python `re.sub(pat, tmpl, s)`.  Fuel `s.length` suffices: every
pattern in the sources consumes at least one character per match. -/
def pyReSub (pat : List Tok) (tmpl : List (Nat × List Char) → List Char)
    (s : List Char) : List Char :=
  pysubGo pat tmpl s.length s

/-! ## The HTML→Markdown transcoder (`html_to_markdown`) -/

/-- DOTALL dot: any character. -/
def anyC : Char → Bool := fun _ => true

/-- The class `[^>]`. -/
def nonGt : Char → Bool := fun c => c ≠ '>'

/-- The class `[^"]`. -/
def nonQuot : Char → Bool := fun c => c ≠ '"'

/-- Pattern `<name[^>]*>(.*?)</name>` with the body as group 1. -/
def pairPat (name : String) : List Tok :=
  [Tok.lit ('<' :: name.data), star nonGt none, Tok.lit ['>'],
   starL anyC (some 1), Tok.lit ('<' :: '/' :: (name.data ++ ['>']))]

/-- Replacement template prefixing group 1 and appending a newline,
used for headings and list items. -/
def tplWrapNl (pre : String) (caps : List (Nat × List Char)) : List Char :=
  pre.data ++ capGet caps 1 ++ ['\n']

/-- Replacement template wrapping group 1, used for emphasis and code. -/
def tplWrap (l r : String) (caps : List (Nat × List Char)) : List Char :=
  l.data ++ capGet caps 1 ++ r.data

/-- Heading passes `<hN[^>]*>(.*?)</hN>` → `#… \1\n`. -/
def subH1 (s : List Char) : List Char := pyReSub (pairPat "h1") (tplWrapNl "# ") s

/-- See `subH1`. -/
def subH2 (s : List Char) : List Char := pyReSub (pairPat "h2") (tplWrapNl "## ") s

/-- See `subH1`. -/
def subH3 (s : List Char) : List Char := pyReSub (pairPat "h3") (tplWrapNl "### ") s

/-- See `subH1`. -/
def subH4 (s : List Char) : List Char := pyReSub (pairPat "h4") (tplWrapNl "#### ") s

/-- Bold: `<strong[^>]*>(.*?)</strong>` → `**\1**`. -/
def subStrong (s : List Char) : List Char := pyReSub (pairPat "strong") (tplWrap "**" "**") s

/-- Bold: `<b[^>]*>(.*?)</b>` → `**\1**`. -/
def subB (s : List Char) : List Char := pyReSub (pairPat "b") (tplWrap "**" "**") s

/-- Italic: `<em[^>]*>(.*?)</em>` → `*\1*`. -/
def subEm (s : List Char) : List Char := pyReSub (pairPat "em") (tplWrap "*" "*") s

/-- Italic: `<i[^>]*>(.*?)</i>` → `*\1*`. -/
def subI (s : List Char) : List Char := pyReSub (pairPat "i") (tplWrap "*" "*") s

/-- Pattern `<a[^>]*href="([^"]*)"[^>]*>(.*?)</a>`. -/
def aPat : List Tok :=
  [Tok.lit ('<' :: ['a']), star nonGt none, Tok.lit "href=\"".data, star nonQuot (some 1),
   Tok.lit ['"'], star nonGt none, Tok.lit ['>'], starL anyC (some 2),
   Tok.lit "</a>".data]

/-- Links → `[\2](\1)`. -/
def subA (s : List Char) : List Char :=
  pyReSub aPat (fun caps => '[' :: capGet caps 2 ++ ']' :: '(' :: capGet caps 1 ++ [')']) s

/-- Pattern `<img[^>]*src="([^"]*)"[^>]*alt="([^"]*)"[^>]*/?>`. -/
def imgAltPat : List Tok :=
  [Tok.lit ('<' :: "img".data), star nonGt none, Tok.lit "src=\"".data, star nonQuot (some 1),
   Tok.lit ['"'], star nonGt none, Tok.lit "alt=\"".data, star nonQuot (some 2),
   Tok.lit ['"'], star nonGt none, optC (fun c => c = '/'), Tok.lit ['>']]

/-- Images with alt text → `![\2](\1)`. -/
def subImgAlt (s : List Char) : List Char :=
  pyReSub imgAltPat
    (fun caps => '!' :: '[' :: capGet caps 2 ++ ']' :: '(' :: capGet caps 1 ++ [')']) s

/-- Pattern `<img[^>]*src="([^"]*)"[^>]*/?>`. -/
def imgPat : List Tok :=
  [Tok.lit ('<' :: "img".data), star nonGt none, Tok.lit "src=\"".data, star nonQuot (some 1),
   Tok.lit ['"'], star nonGt none, optC (fun c => c = '/'), Tok.lit ['>']]

/-- Images without alt text → `![](\1)`. -/
def subImg (s : List Char) : List Char :=
  pyReSub imgPat (fun caps => '!' :: '[' :: ']' :: '(' :: capGet caps 1 ++ [')']) s

/-- Pattern `<tag[^>]*>` for the list-container opening tags. -/
def openPat (name : String) : List Tok :=
  [Tok.lit ('<' :: name.data), star nonGt none, Tok.lit ['>']]

/-- List containers: opening tags deleted, closing tags become newlines. -/
def subUlOpen (s : List Char) : List Char := pyReSub (openPat "ul") (fun _ => []) s

/-- See `subUlOpen`. -/
def subUlClose (s : List Char) : List Char :=
  pyReSub [Tok.lit ('<' :: "/ul>".data)] (fun _ => ['\n']) s

/-- See `subUlOpen`. -/
def subOlOpen (s : List Char) : List Char := pyReSub (openPat "ol") (fun _ => []) s

/-- See `subUlOpen`. -/
def subOlClose (s : List Char) : List Char :=
  pyReSub [Tok.lit ('<' :: "/ol>".data)] (fun _ => ['\n']) s

/-- List items: `<li[^>]*>(.*?)</li>` → `- \1\n`. -/
def subLi (s : List Char) : List Char := pyReSub (pairPat "li") (tplWrapNl "- ") s

/-- Pattern `<pre[^>]*><code[^>]*>(.*?)</code></pre>`. -/
def prePat : List Tok :=
  [Tok.lit ('<' :: "pre".data), star nonGt none, Tok.lit ['>'],
   Tok.lit "<code".data, star nonGt none, Tok.lit ['>'],
   starL anyC (some 1), Tok.lit "</code></pre>".data]

/-- Fenced code blocks. -/
def subPre (s : List Char) : List Char :=
  pyReSub prePat (fun caps => "```\n".data ++ capGet caps 1 ++ "\n```\n".data) s

/-- Inline code: `<code[^>]*>(.*?)</code>` → `` `\1` ``. -/
def subCode (s : List Char) : List Char := pyReSub (pairPat "code") (tplWrap "`" "`") s

/-- Blockquotes: body stripped, each line prefixed with `> `. -/
def subBq (s : List Char) : List Char :=
  pyReSub (pairPat "blockquote")
    (fun caps =>
      "> ".data ++ pyReplace (stripPy (capGet caps 1)) ['\n'] "\n> ".data ++ ['\n']) s

/-- Paragraphs: `<p[^>]*>(.*?)</p>` → `\1\n\n`. -/
def subP (s : List Char) : List Char :=
  pyReSub (pairPat "p") (fun caps => capGet caps 1 ++ "\n\n".data) s

/-- Pattern `<name\s*/?>`, for `<br>` and `<hr>`. -/
def voidPat (name : String) : List Tok :=
  [Tok.lit ('<' :: name.data), star isPySpace none, optC (fun c => c = '/'), Tok.lit ['>']]

/-- Line breaks → newline. -/
def subBr (s : List Char) : List Char := pyReSub (voidPat "br") (fun _ => ['\n']) s

/-- Horizontal rules → `\n---\n`. -/
def subHr (s : List Char) : List Char := pyReSub (voidPat "hr") (fun _ => "\n---\n".data) s

/-- Remaining tags stripped: `<[^>]+>` → empty. -/
def stripTagsPat : List Tok := [Tok.lit ['<'], plus nonGt none, Tok.lit ['>']]

/-- See `stripTagsPat`. -/
def subStripTags (s : List Char) : List Char := pyReSub stripTagsPat (fun _ => []) s

/-- Worker for `collapseNL`: a newline is dropped exactly when the two
previous kept characters are both newlines, which collapses every
maximal run of three or more newlines to two — the action of
`re.sub(r'\n{3,}', '\n\n', md)`. -/
def collapseGo : Char → Char → List Char → List Char
  | _, _, [] => []
  | p2, p1, c :: cs =>
    if p2 = '\n' && p1 = '\n' && c = '\n' then collapseGo p2 p1 cs
    else c :: collapseGo p1 c cs

/-- Collapse runs of three or more newlines to exactly two. -/
def collapseNL (s : List Char) : List Char :=
  collapseGo 'x' 'x' s

/-- All structural rewrite passes of `html_to_markdown`, in source order. -/
def applyPasses (s : List Char) : List Char :=
  subStripTags (subHr (subBr (subP (subBq (subCode (subPre (subLi (subOlClose
    (subOlOpen (subUlClose (subUlOpen (subImg (subImgAlt (subA (subI (subEm
      (subB (subStrong (subH4 (subH3 (subH2 (subH1 s))))))))))))))))))))))

/-- The transcoder `html_to_markdown` of `scripts/migrate_wordpress.py`:
the empty-input guard, the ordered structural regex passes, newline-run
collapsing, and a final `strip()`. -/
def html_to_markdown (s : String) : String :=
  if s = "" then ""
  else String.mk (stripPy (collapseNL (applyPasses s.data)))

/-! ## Lemmas about the transcoder -/

/-- A pattern whose first token is a literal beginning with `<`.  Every
structural pass of the transcoder has this shape. -/
def ltHeaded (pat : List Tok) : Prop :=
  ∃ l ts, pat = Tok.lit ('<' :: l) :: ts

/-- Scanner for a run of three or more consecutive newlines. -/
def hasTriple : List Char → Bool
  | a :: b :: c :: r => (a = '\n' && b = '\n' && c = '\n') || hasTriple (b :: c :: r)
  | _ => false

/-! ## The target store (`blog/models.py`)

The Django ORM store is modelled as explicit lists of rows with an
allocation counter `nextPk` and a logical clock `clock`.  The clock
stands for wall-clock time: every `save()` of a `Post` and every insert
of a `Comment` reads the clock for its `auto_now` / `auto_now_add` /
`timezone.now()` fields and advances it, so later saves always get
strictly larger timestamps (all that the claims depend on).  Rendering
of `content_md` to `content_html` (`Post._render_markdown`, which pipes
through the external `markdown` and `bleach` libraries) is a parameter
`render`, quantified over in every theorem. -/

/-- The `PostStatus` text choices. -/
inductive PStatus where
  | draft
  | scheduled
  | published
deriving DecidableEq, Repr

/-- The `CommentStatus` text choices. -/
inductive CStatus where
  | pending
  | approved
  | spam
deriving DecidableEq, Repr

/-- A row of `django.contrib.auth.models.User` (the fields the importer
touches). -/
structure DUser where
  pk : Nat
  username : String
  email : String
  first_name : String
  last_name : String
deriving DecidableEq, Repr

/-- A row of `blog.models.Tag`. -/
structure DTag where
  pk : Nat
  name : String
  slug : String
  wp_term_id : Option Nat
deriving DecidableEq, Repr

/-- A row of `blog.models.Post` (fields the scripts touch). -/
structure DPost where
  pk : Nat
  title : String
  slug : String
  content_md : String
  content_html : String
  excerpt : String
  status : PStatus
  author : Nat
  published_at : Option Nat
  created_at : Nat
  updated_at : Nat
  wp_post_id : Option Nat
deriving DecidableEq, Repr

/-- A row of `blog.models.Comment`. -/
structure DComment where
  pk : Nat
  post : Nat
  parent : Option Nat
  author_name : String
  author_email : String
  content : String
  status : CStatus
  created_at : Nat
  wp_comment_id : Option Nat
deriving DecidableEq, Repr

/-- A row of `blog.models.Image` (fields the image scripts touch):
`name` is the storage path backing `file.url`. -/
structure DImage where
  pk : Nat
  name : String
  original_name : String
  alt_text : String
deriving DecidableEq, Repr

/-- The store: row lists, the `Post.tags` many-to-many through table,
a primary-key allocator and the logical clock. -/
structure DB where
  users : List DUser
  tags : List DTag
  posts : List DPost
  comments : List DComment
  postTags : List (Nat × Nat)
  images : List DImage
  nextPk : Nat
  clock : Nat
deriving DecidableEq, Repr

/-- ASCII `\w`. -/
def isWordC (c : Char) : Bool := c.isAlphanum || c = '_'

/-- Worker for `slugify`: collapse runs of dashes/whitespace to a single
dash (`re.sub(r'[-\s]+', '-', value)`); `prev` records whether the
previous character belonged to such a run. -/
def cdGo (prev : Bool) : List Char → List Char
  | [] => []
  | c :: cs =>
    if c = '-' || isPySpace c then
      if prev then cdGo true cs else '-' :: cdGo true cs
    else c :: cdGo false cs

/-- Django's `slugify` (ASCII path): lowercase, drop characters outside
`[\w\s-]`, collapse dash/space runs to `-`, strip `-`/`_` at both ends. -/
def slugify (s : String) : String :=
  let l1 := s.data.map Char.toLower
  let l2 := l1.filter (fun c => isWordC c || isPySpace c || c = '-')
  let l3 := cdGo false l2
  let edge := fun c => c = '-' || c = '_'
  String.mk (dropTrail edge (l3.dropWhile edge))

/-- Python `str.split()` (split on whitespace runs, no empties). -/
def wordsGo (acc : List Char) : List Char → List (List Char)
  | [] => if acc.isEmpty then [] else [acc.reverse]
  | c :: cs =>
    if isPySpace c then
      if acc.isEmpty then wordsGo [] cs else acc.reverse :: wordsGo [] cs
    else wordsGo (c :: acc) cs

/-- Join word lists with single spaces (`' '.join(...)`). -/
def joinSpace : List (List Char) → List Char
  | [] => []
  | [w] => w
  | w :: ws => w ++ ' ' :: joinSpace ws

/-- First component of `User.objects.get_or_create(username=...)`. -/
def findUser (db : DB) (username : String) : Option DUser :=
  db.users.find? (fun u => u.username == username)

/-- `User.objects.get_or_create(username=..., defaults=...)`. -/
def getOrCreateUser (db : DB) (username email fn ln : String) : DB × DUser × Bool :=
  match findUser db username with
  | some u => (db, u, false)
  | none =>
    let u : DUser := ⟨db.nextPk, username, email, fn, ln⟩
    ({ db with users := db.users ++ [u], nextPk := db.nextPk + 1 }, u, true)

/-- `Tag.objects.get_or_create(slug=..., defaults=...)`, including the
`Tag.save` fallback that slugs the name when `slug` is empty. -/
def getOrCreateTag (db : DB) (slug name : String) (wpId : Option Nat) : DB × DTag × Bool :=
  match db.tags.find? (fun t => t.slug == slug) with
  | some t => (db, t, false)
  | none =>
    let eff := if slug = "" then slugify name else slug
    let t : DTag := ⟨db.nextPk, name, eff, wpId⟩
    ({ db with tags := db.tags ++ [t], nextPk := db.nextPk + 1 }, t, true)

/-- The mutable fields written by `Post.objects.update_or_create`'s
`defaults`. -/
structure PostFields where
  title : String
  slug : String
  content_md : String
  excerpt : String
  status : PStatus
  author : Nat
  published_at : Option Nat
deriving DecidableEq, Repr

/-- `Post.objects.filter(slug=cand).exclude(pk=self.pk).exists()`; on the
insert path `self.pk` is still unset (`none`), and `exclude(pk=None)`
excludes nothing. -/
def slugTakenExcept (db : DB) (slug : String) (self : Option Nat) : Bool :=
  db.posts.any (fun q => q.slug == slug && self != some q.pk)

/-- The slug-uniqueness loop of `Post.save`: try `base`, `base-1`,
`base-2`, … until free.  Fuel `db.posts.length + 1` suffices: the
candidates are pairwise distinct and at most `db.posts.length` slugs are
taken. -/
def freshSlugGo (db : DB) (base : String) (self : Option Nat) : Nat → Nat → String
  | 0, k => base ++ "-" ++ toString k
  | f + 1, k =>
    let cand := if k = 0 then base else base ++ "-" ++ toString k
    if slugTakenExcept db cand self then freshSlugGo db base self f (k + 1) else cand

/-- `Post.save()` from `blog/models.py`: slug autofill with the
uniqueness loop, markdown rendering into `content_html`, stamping
`published_at` for published posts without one, `updated_at := now`
(`auto_now`), `created_at := now` on insert (`auto_now_add`); then the
row is inserted or replaced in place. -/
def postSave (render : String → String) (db : DB) (p : DPost) (isNew : Bool) : DB × DPost :=
  let now := db.clock
  let slug1 :=
    if p.slug = "" then
      freshSlugGo db (slugify p.title) (if isNew then none else some p.pk) (db.posts.length + 1) 0
    else p.slug
  let pub := if p.status = PStatus.published ∧ p.published_at = none then some now else p.published_at
  let p' := { p with slug := slug1, content_html := render p.content_md,
                     published_at := pub, updated_at := now,
                     created_at := if isNew then now else p.created_at }
  if isNew then
    ({ db with posts := db.posts ++ [p'], clock := db.clock + 1 }, p')
  else
    ({ db with posts := db.posts.map (fun q => if q.pk == p'.pk then p' else q),
               clock := db.clock + 1 }, p')

/-- `Post.objects.update_or_create(wp_post_id=..., defaults=...)`:
update every default field of the matching row and `save()`, or insert a
fresh row. -/
def postUpdateOrCreate (render : String → String) (db : DB) (wpId : Nat) (f : PostFields) :
    DB × DPost × Bool :=
  match db.posts.find? (fun q => q.wp_post_id == some wpId) with
  | some q =>
    let q1 := { q with title := f.title, slug := f.slug, content_md := f.content_md,
                       excerpt := f.excerpt, status := f.status, author := f.author,
                       published_at := f.published_at }
    let r := postSave render db q1 false
    (r.1, r.2, false)
  | none =>
    let q1 : DPost := { pk := db.nextPk, title := f.title, slug := f.slug,
                        content_md := f.content_md, content_html := "",
                        excerpt := f.excerpt, status := f.status, author := f.author,
                        published_at := f.published_at, created_at := 0, updated_at := 0,
                        wp_post_id := some wpId }
    let db1 := { db with nextPk := db.nextPk + 1 }
    let r := postSave render db1 q1 true
    (r.1, r.2, true)

/-- `post.tags.add(tag)`: the many-to-many add is idempotent. -/
def addPostTag (db : DB) (postPk tagPk : Nat) : DB :=
  if (postPk, tagPk) ∈ db.postTags then db
  else { db with postTags := db.postTags ++ [(postPk, tagPk)] }

/-- The fields written by `Comment.objects.update_or_create`'s `defaults`. -/
structure CommentFields where
  post : Nat
  parent : Option Nat
  author_name : String
  author_email : String
  content : String
  status : CStatus
deriving DecidableEq, Repr

/-- `Comment.objects.update_or_create(wp_comment_id=..., defaults=...)`;
`created_at` is `auto_now_add`, stamped only on insert. -/
def commentUpdateOrCreate (db : DB) (wpId : Nat) (f : CommentFields) :
    DB × DComment × Bool :=
  match db.comments.find? (fun c => c.wp_comment_id == some wpId) with
  | some c =>
    let c1 := { c with post := f.post, parent := f.parent, author_name := f.author_name,
                       author_email := f.author_email, content := f.content,
                       status := f.status }
    ({ db with comments := db.comments.map (fun d => if d.pk == c1.pk then c1 else d) },
     c1, false)
  | none =>
    let c1 : DComment := { pk := db.nextPk, post := f.post, parent := f.parent,
                           author_name := f.author_name, author_email := f.author_email,
                           content := f.content, status := f.status,
                           created_at := db.clock, wp_comment_id := some wpId }
    ({ db with comments := db.comments ++ [c1], nextPk := db.nextPk + 1,
               clock := db.clock + 1 }, c1, true)

/-- `Comment.objects.filter(pk=...).update(created_at=...)` — the
timestamp-correction queryset update, which bypasses `save()`. -/
def setCommentCreatedAt (db : DB) (pk : Nat) (t : Nat) : DB :=
  { db with comments :=
      db.comments.map (fun d => if d.pk == pk then { d with created_at := t } else d) }

/-! ## Parsed WordPress export data (the dicts built by the parser) -/

/-- An entry of `data['authors']`. -/
structure WPAuthor where
  login : String
  email : String
  display_name : String
deriving DecidableEq, Repr

/-- An entry of `data['tags']`. -/
structure WPTag where
  term_id : Nat
  slug : String
  name : String
deriving DecidableEq, Repr

/-- A comment dict inside a post dict.  `created_at` carries the already
parsed `wp:comment_date` (`none` for an unparsable date). -/
structure WPComment where
  id : Nat
  parent : Nat
  author_name : String
  author_email : String
  content : String
  status : String
  created_at : Option Nat
deriving DecidableEq, Repr

/-- A post dict.  `published_at` carries the already parsed `pubDate`.
`tags` holds the `nicename` attributes, which `category.get` may return
as `None`. -/
structure WPPost where
  id : Nat
  title : String
  slug : Option String
  content : String
  excerpt : String
  status : String
  author : String
  published_at : Option Nat
  tags : List (Option String)
  comments : List WPComment
deriving DecidableEq, Repr

/-- The dict returned by `parse_wordpress_xml`. -/
structure WPData where
  tags : List WPTag
  posts : List WPPost
  authors : List WPAuthor
deriving DecidableEq, Repr

/-- The `stats` dict of `import_data`. -/
structure Stats where
  tags_created : Nat
  posts_created : Nat
  comments_created : Nat
deriving DecidableEq, Repr

/-! ## The import orchestrator (`import_data`) -/

/-- The sort key order of `sorted(wp_post['comments'], key=lambda c: c['id'])`. -/
def commentLE (a b : WPComment) : Prop := a.id ≤ b.id

instance : DecidableRel commentLE := fun a b => Nat.decLe a.id b.id

instance : IsTotal WPComment commentLE := ⟨fun a b => Nat.le_total a.id b.id⟩

instance : IsTrans WPComment commentLE := ⟨fun _ _ _ => Nat.le_trans⟩

/-- Stable ascending sort by `id`, modelling Python's stable `sorted`
(insertion sort before the first element ≤-after it is stable, and any
two stable sorts agree). -/
def sortComments (l : List WPComment) : List WPComment :=
  List.insertionSort commentLE l

/-- Lookup in the Python-dict-as-association-list (latest binding wins). -/
def alGetU (m : List (String × DUser)) (k : String) : Option DUser :=
  (m.find? (fun p => p.1 == k)).map Prod.snd

/-- See `alGetU`. -/
def alGetT (m : List (String × DTag)) (k : String) : Option DTag :=
  (m.find? (fun p => p.1 == k)).map Prod.snd

/-- `display_name.split()[0]` behind the source's truthiness guard on
`display_name`. -/
def mkFirstName (a : WPAuthor) : String :=
  if a.display_name = "" then "" else String.mk ((wordsGo [] a.display_name.data).headD [])

/-- `' '.join(display_name.split()[1:])` behind the same guard. -/
def mkLastName (a : WPAuthor) : String :=
  if a.display_name = "" then "" else
    String.mk (joinSpace ((wordsGo [] a.display_name.data).drop 1))

/-- The user row created for an unknown login. -/
def mkUser (db : DB) (a : WPAuthor) : DUser :=
  ⟨db.nextPk, a.login, a.email, mkFirstName a, mkLastName a⟩

/-- The author loop of `import_data`: `get_or_create` each export author
by login (first/last name from `display_name.split()`) and record the
mapping `login → user`. -/
def importAuthors : List WPAuthor → DB → List (String × DUser) → DB × List (String × DUser)
  | [], db, m => (db, m)
  | a :: rest, db, m =>
    let r := getOrCreateUser db a.login a.email (mkFirstName a) (mkLastName a)
    importAuthors rest r.1 ((a.login, r.2.1) :: m)

/-- The tag loop of `import_data`: `get_or_create` by slug, counting
creations and recording `slug → tag`. -/
def importTags : List WPTag → DB → List (String × DTag) → Nat →
    DB × List (String × DTag) × Nat
  | [], db, m, n => (db, m, n)
  | t :: rest, db, m, n =>
    let r := getOrCreateTag db t.slug t.name (some t.term_id)
    importTags rest r.1 ((t.slug, r.2.1) :: m) (if r.2.2 then n + 1 else n)

/-- The comment status map of `import_data`. -/
def commentStatusOf (s : String) : CStatus :=
  if s = "approved" then CStatus.approved
  else if s = "pending" then CStatus.pending
  else if s = "spam" then CStatus.spam
  else CStatus.pending

/-- The parent resolution of the comment loop:
`if wp_comment['parent'] and wp_comment['parent'] in comment_map`. -/
def resolveParent (c : WPComment) (cmap : List (Nat × DComment)) : Option Nat :=
  if c.parent ≠ 0 then
    match (cmap.find? (fun p => p.1 == c.parent)).map Prod.snd with
    | some pc => some pc.pk
    | none => none
  else none

/-- One iteration of the comment loop: resolve the parent through the
`comment_map` built so far, upsert by `wp_comment_id`, and correct
`created_at` on creation when the source date is present. -/
def commentStep (db : DB) (c : WPComment) (postPk : Nat)
    (cmap : List (Nat × DComment)) : DB × DComment × Bool :=
  let r := commentUpdateOrCreate db c.id
    ⟨postPk, resolveParent c cmap, c.author_name, c.author_email, c.content,
     commentStatusOf c.status⟩
  let db2 :=
    if r.2.2 then
      match c.created_at with
      | some t => setCommentCreatedAt r.1 r.2.1.pk t
      | none => r.1
    else r.1
  (db2, r.2.1, r.2.2)

/-- The comment loop of `import_data` for one post, over the
already-sorted comment list, extending the `comment_map` and counting
creations. -/
def importComments : List WPComment → DB → Nat → List (Nat × DComment) → Nat →
    DB × List (Nat × DComment) × Nat
  | [], db, _, cmap, n => (db, cmap, n)
  | c :: rest, db, postPk, cmap, n =>
    let s := commentStep db c postPk cmap
    importComments rest s.1 postPk ((c.id, s.2.1) :: cmap) (if s.2.2 then n + 1 else n)

/-- The post status map of `import_data` (`.get(..., DRAFT)`). -/
def postStatusOf (s : String) : PStatus :=
  if s = "published" then PStatus.published
  else if s = "draft" then PStatus.draft
  else if s = "scheduled" then PStatus.scheduled
  else PStatus.draft

/-- The effective slug `wp_post['slug'] or slugify(wp_post['title'])`. -/
def effSlug (p : WPPost) : String :=
  match p.slug with
  | some s => if s = "" then slugify p.title else s
  | none => slugify p.title

/-- The tag-attachment loop: `if tag_slug in tag_map: post.tags.add(...)`. -/
def attachTags (postPk : Nat) (tm : List (String × DTag)) :
    List (Option String) → DB → DB
  | [], db => db
  | none :: rest, db => attachTags postPk tm rest db
  | some s :: rest, db =>
    match alGetT tm s with
    | some tg => attachTags postPk tm rest (addPostTag db postPk tg.pk)
    | none => attachTags postPk tm rest db

/-- The per-post work of the post loop before the comment loop: author
from the map (default author as fallback), transcode body, upsert by
`wp_post_id`, attach tags. -/
def postStep (render : String → String) (db : DB) (p : WPPost)
    (am : List (String × DUser)) (tm : List (String × DTag)) (da : DUser) :
    DB × DPost × Bool :=
  let author := (alGetU am p.author).getD da
  let r := postUpdateOrCreate render db p.id
    ⟨p.title, effSlug p, html_to_markdown p.content, p.excerpt,
     postStatusOf p.status, author.pk, p.published_at⟩
  (attachTags r.2.1.pk tm p.tags r.1, r.2.1, r.2.2)

/-- The post loop of `import_data`: per post, `postStep` and then the
comment loop on the sorted comment list. -/
def importPosts (render : String → String) : List WPPost → DB →
    List (String × DUser) → List (String × DTag) → DUser → Stats → DB × Stats
  | [], db, _, _, _, st => (db, st)
  | p :: rest, db, am, tm, da, st =>
    let s := postStep render db p am tm da
    let st1 := if s.2.2 then { st with posts_created := st.posts_created + 1 } else st
    let rc := importComments (sortComments p.comments) s.1 s.2.1.pk [] 0
    importPosts render rest rc.1 am tm da
      { st1 with comments_created := st1.comments_created + rc.2.2 }

/-- `import_data(data, default_author)` from
`scripts/migrate_wordpress.py`: author mapping, tag import, then the
post loop; returns the final store and the stats dict. -/
def import_data (render : String → String) (data : WPData) (default_author : DUser)
    (db : DB) : DB × Stats :=
  let r1 := importAuthors data.authors db []
  let r2 := importTags data.tags r1.1 [] 0
  let r3 := importPosts render data.posts r2.1 r1.2 r2.2.1 default_author ⟨r2.2.2, 0, 0⟩
  r3

/-! ## The export parser (`parse_wordpress_xml` and friends)

The XML tree is modelled post-extraction: an element's text is an
`Option String` (`None` for an empty element).  The two `strptime` calls
are modelled by carrying the already-parsed timestamp (`Option Nat`,
`none` for an unparsable date) — no claim depends on the date format
itself.  `wp:comment_parent` is carried as the `int(text or 0)` result. -/

/-- A `<category>` element (attributes may be absent). -/
structure XCat where
  domain : Option String
  nicename : Option String
deriving DecidableEq, Repr

/-- A `<wp:comment>` element. -/
structure XComment where
  id : Nat
  parent : Nat
  author : Option String
  author_email : Option String
  content : Option String
  approved : Option String
  created_at : Option Nat
deriving DecidableEq, Repr

/-- An `<item>` element. -/
structure XItem where
  post_type : Option String
  status : String
  post_id : Nat
  title : Option String
  post_name : Option String
  creator : String
  content : Option String
  excerpt : Option String
  pubDate : Option Nat
  categories : List XCat
  comments : List XComment
deriving DecidableEq, Repr

/-- A `<wp:tag>` element. -/
structure XTag where
  term_id : Nat
  slug : Option String
  name : Option String
deriving DecidableEq, Repr

/-- A `<wp:author>` element. -/
structure XAuthor where
  login : Option String
  email : Option String
  display_name : Option String
deriving DecidableEq, Repr

/-- The `<channel>` element. -/
structure XChannel where
  xtags : List XTag
  xauthors : List XAuthor
  items : List XItem
deriving DecidableEq, Repr

/-- Python `x or d` on an optional string (`None` and `""` are falsy). -/
def orDefault (o : Option String) (d : String) : String :=
  match o with
  | some s => if s = "" then d else s
  | none => d

/-- `parse_tags`: one dict per `wp:tag` element (an absent text is
carried as `""`; the import loop's claims assume nonempty slugs). -/
def parse_tags (ch : XChannel) : List WPTag :=
  ch.xtags.map (fun t => ⟨t.term_id, t.slug.getD "", t.name.getD ""⟩)

/-- `parse_authors`: login verbatim, email and display name with the
source's `or ''` defaults. -/
def parse_authors (ch : XChannel) : List WPAuthor :=
  ch.xauthors.map (fun a => ⟨a.login.getD "", orDefault a.email "", orDefault a.display_name ""⟩)

/-- The comment-dict construction inside `parse_posts`, including the
`wp:comment_approved` mapping (`'1' → approved`, `'spam' → spam`,
anything else → pending). -/
def parseXComment (c : XComment) : WPComment :=
  { id := c.id
    parent := c.parent
    author_name := orDefault c.author "Anonymous"
    author_email := orDefault c.author_email ""
    content := orDefault c.content ""
    status :=
      if c.approved = some "1" then "approved"
      else if c.approved = some "spam" then "spam"
      else "pending"
    created_at := c.created_at }

/-- The post-dict construction of `parse_posts` for a retained item with
mapped status `st`. -/
def mkWPPost (it : XItem) (st : String) : WPPost :=
  { id := it.post_id
    title := orDefault it.title "Untitled"
    slug := it.post_name
    content := orDefault it.content ""
    excerpt := orDefault it.excerpt ""
    status := st
    author := it.creator
    published_at := it.pubDate
    tags := (it.categories.filter (fun c => c.domain == some "post_tag")).map
      (fun c => c.nicename)
    comments := it.comments.map parseXComment }

/-- The per-item body of `parse_posts`: `None` for skipped items (wrong
`wp:post_type`, or a status outside `publish`/`draft`/`future`). -/
def parseXItem (it : XItem) : Option WPPost :=
  if it.post_type ≠ some "post" then none
  else
    let status :=
      if it.status = "publish" then some "published"
      else if it.status = "draft" then some "draft"
      else if it.status = "future" then some "scheduled"
      else none
    match status with
    | none => none
    | some st => some (mkWPPost it st)

/-- `parse_posts`: the `continue` statements make the item loop a
`filterMap` of `parseXItem`. -/
def parse_posts (items : List XItem) : List WPPost :=
  items.filterMap parseXItem

/-- `parse_wordpress_xml` minus the file I/O: assemble the data dict. -/
def parseChannel (ch : XChannel) : WPData :=
  ⟨parse_tags ch, parse_posts ch.items, parse_authors ch⟩

/-! ## Concrete scenarios -/

/-- The default author created by `main()` on an empty store. -/
def adminU : DUser := ⟨0, "admin", "", "", ""⟩

/-- An empty store holding only the default author. -/
def dbEmpty : DB := ⟨[adminU], [], [], [], [], [], 1, 0⟩

/-- The end-to-end export of claim C2: one post (`source_id` 1, status
`publish`, body `<h1>Hi</h1><p>World</p>`, tag `foo`), one root comment
(10) and one reply (11 → 10). -/
def chC2 : XChannel :=
  { xtags := [⟨1, some "foo", some "Foo"⟩]
    xauthors := []
    items := [{
      post_type := some "post", status := "publish", post_id := 1,
      title := some "Hello", post_name := some "hi", creator := "chris",
      content := some "<h1>Hi</h1><p>World</p>", excerpt := none, pubDate := some 100,
      categories := [⟨some "post_tag", some "foo"⟩],
      comments := [⟨10, 0, some "Al", some "a@x", some "hey", some "1", some 50⟩,
                   ⟨11, 10, some "Bo", some "b@x", some "yo", some "1", some 60⟩] }] }

/-- Parse and import the C2 export into the empty store. -/
def c2res (render : String → String) : DB × Stats :=
  import_data render (parseChannel chC2) adminU dbEmpty

/-- An item with status `publish`, used by the C4 witness. -/
def itPub : XItem :=
  { post_type := some "post", status := "publish", post_id := 7,
    title := some "T", post_name := some "t", creator := "alice",
    content := some "b", excerpt := none, pubDate := some 5,
    categories := [], comments := [] }

/-- An item with the unmapped status `trash`, used by the C4 witness. -/
def itTrash : XItem :=
  { post_type := some "post", status := "trash", post_id := 8,
    title := some "U", post_name := some "u", creator := "alice",
    content := some "c", excerpt := none, pubDate := none,
    categories := [], comments := [] }

/-- A pre-populated store for the C6 witness: one hand-tagged post. -/
def dbC6 : DB :=
  { users := [adminU]
    tags := [⟨60, "Old", "old", none⟩]
    posts := [⟨50, "P", "p", "", "", "", PStatus.draft, 0, none, 0, 0, some 1⟩]
    comments := []
    postTags := [(50, 60)]
    images := []
    nextPk := 100
    clock := 0 }

/-! ## Idempotence of `import_data` (C1) -/

/-- One import of the C2 export into the empty store. -/
def c1run1 : DB × Stats := c2res id

/-- A second import of the same export into the resulting store. -/
def c1run2 : DB × Stats := import_data id (parseChannel chC2) adminU c1run1.1

/-! ## Comment threading (C3) -/

/-- Find the stored comment carrying a given `wp_comment_id`. -/
def rowIn (l : List DComment) (i : Nat) : Option DComment :=
  l.find? (fun r => r.wp_comment_id == some i)

/-- The row inserted for a fresh comment, before the timestamp
correction. -/
def newCRow (db : DB) (c : WPComment) (pk : Nat) (m : List (Nat × DComment)) : DComment :=
  { pk := db.nextPk, post := pk, parent := resolveParent c m,
    author_name := c.author_name, author_email := c.author_email,
    content := c.content, status := commentStatusOf c.status,
    created_at := db.clock, wp_comment_id := some c.id }

/-- The inserted row after the optional `created_at` correction. -/
def stampedCRow (db : DB) (c : WPComment) (pk : Nat) (m : List (Nat × DComment)) : DComment :=
  match c.created_at with
  | some t => { newCRow db c pk m with created_at := t }
  | none => newCRow db c pk m

/-- The resolution condition of the comment loop, relative to a
`comment_map` key set `cmap` and the remaining (sorted) comments `suf`. -/
def parentCond (c : WPComment) (cmap : List (Nat × DComment)) (suf : List WPComment) : Prop :=
  c.parent ≠ 0 ∧ ((∃ e ∈ cmap, e.1 = c.parent) ∨ ∃ d ∈ suf, d.id = c.parent ∧ c.parent < c.id)

/-- The duplicate-id comment list refuting C3 as stated. -/
def dupComments : List WPComment :=
  [⟨10, 10, "a", "", "x", "approved", none⟩, ⟨10, 10, "a", "", "x", "approved", none⟩]

/-- The two-comment thread used by the C3 witness. -/
def thrComments : List WPComment :=
  [⟨11, 10, "b", "", "y", "approved", none⟩, ⟨10, 0, "a", "", "x", "approved", none⟩]

/-- Find the stored post carrying a given `wp_post_id`. -/
def postIn (l : List DPost) (i : Nat) : Option DPost :=
  l.find? (fun q => q.wp_post_id == some i)

/-- Strip the volatile `auto_now` timestamp. -/
def eraseUpd (p : DPost) : DPost := { p with updated_at := 0 }

/-- Find the stored tag carrying a given slug. -/
def tagIn (l : List DTag) (s : String) : Option DTag :=
  l.find? (fun t => t.slug == s)

/-! ## The tag phase -/

/-- The tag row created for an unknown nonempty slug. -/
def mkTag (db : DB) (t : WPTag) : DTag := ⟨db.nextPk, t.name, t.slug, some t.term_id⟩

/-- The post row inserted on the create path of the post loop. -/
def newPRow (render : String → String) (db : DB) (p : WPPost) (apk : Nat) : DPost :=
  { pk := db.nextPk, title := p.title, slug := effSlug p,
    content_md := html_to_markdown p.content,
    content_html := render (html_to_markdown p.content),
    excerpt := p.excerpt, status := postStatusOf p.status, author := apk,
    published_at := p.published_at, created_at := db.clock, updated_at := db.clock,
    wp_post_id := some p.id }

/-- One post row of the store matches its export post after the run. -/
def postRowOk (render : String → String) (am : List (String × DUser)) (da : DUser)
    (p : WPPost) (row : DPost) : Prop :=
  row.title = p.title ∧ row.slug = effSlug p ∧
  row.content_md = html_to_markdown p.content ∧
  row.content_html = render (html_to_markdown p.content) ∧
  row.excerpt = p.excerpt ∧ row.status = postStatusOf p.status ∧
  row.author = ((alGetU am p.author).getD da).pk ∧
  row.published_at = p.published_at ∧
  row.wp_post_id = some p.id

/-- One comment row of the store matches its export comment. -/
def commentRowOk (S : DB) (sorted : List WPComment) (ppk : Nat) (c : WPComment) : Prop :=
  ∃ rc, rowIn S.comments c.id = some rc ∧ rc.post = ppk ∧
    rc.author_name = c.author_name ∧ rc.author_email = c.author_email ∧
    rc.content = c.content ∧ rc.status = commentStatusOf c.status ∧
    (parentCond c [] sorted →
      ∃ rp, rowIn S.comments c.parent = some rp ∧ rc.parent = some rp.pk) ∧
    (¬ parentCond c [] sorted → rc.parent = none)

/-- Everything the post loop guarantees about one export post. -/
def postOk (render : String → String) (am : List (String × DUser))
    (tm : List (String × DTag)) (da : DUser) (S : DB) (p : WPPost) : Prop :=
  ∃ row, postIn S.posts p.id = some row ∧ postRowOk render am da p row ∧
    (∀ c ∈ sortComments p.comments, commentRowOk S (sortComments p.comments) row.pk c) ∧
    (∀ s tg, some s ∈ p.tags → alGetT tm s = some tg → (row.pk, tg.pk) ∈ S.postTags)

/-! ## C9: identity resolution -/

/-- An export whose single post declares an author login (`alice`) that
is absent from the export's author list. -/
def chC9 : XChannel :=
  { xtags := []
    xauthors := []
    items := [{
      post_type := some "post", status := "publish", post_id := 1,
      title := some "T", post_name := some "t", creator := "alice",
      content := some "hi", excerpt := none, pubDate := some 5,
      categories := [], comments := [] }] }

/-- The witness export for C9: one listed author (`chris`) with a post,
plus a post by an unlisted login (`alice`). -/
def chC9w : XChannel :=
  { xtags := [⟨1, some "foo", some "Foo"⟩]
    xauthors := [⟨some "chris", some "c@x", some "Chris B"⟩]
    items := [
      { post_type := some "post", status := "publish", post_id := 1,
        title := some "A", post_name := some "a", creator := "chris",
        content := some "hi", excerpt := none, pubDate := some 5,
        categories := [], comments := [] },
      { post_type := some "post", status := "draft", post_id := 2,
        title := some "B", post_name := some "b", creator := "alice",
        content := some "yo", excerpt := none, pubDate := none,
        categories := [], comments := [] }] }

/-! ## The image scripts (`download_images.py`, `extract_featured_images.py`)

The network fetch, the md5 hash fallback for an empty basename, the
storage upload directory (`upload_to='images/%Y/%m/'`) and the
rendering pipeline are external effects and are passed as parameters
(`fetch`, `hashName`, `updir`, `render`).  Python's `set()` is modelled
as an insertion-ordered deduplicating list (`pySetAdd`): CPython's
iteration order over a string set is a hash-table artefact; the model
fixes insertion order, which is immaterial to every claim except the
ordering clause of C8 — and that clause already fails in the model
because the markdown pass runs to completion before the HTML pass. -/

/-- Scan with `re.finditer`, collecting `match.group(1)`; advances past
each match (non-overlapping), one character on failure. -/
def pyFindIter1 (pat : List Tok) : Nat → List Char → List (List Char)
  | 0, _ => []
  | _ + 1, [] => []
  | f + 1, c :: cs =>
    match matchToks (mFuel pat (c :: cs)) pat (c :: cs) [] with
    | some (caps, rest) => capGet caps 1 :: pyFindIter1 pat f rest
    | none => pyFindIter1 pat f cs

/-- `[m.group(1) for m in re.finditer(pat, s)]`; fuel `s.length`
suffices as both image patterns consume at least one character. -/
def pyFindAll1 (pat : List Tok) (s : List Char) : List (List Char) :=
  pyFindIter1 pat s.length s

/-- The class `["\x27]` (a double or single quote; 39 is the apostrophe). -/
def quoteC (c : Char) : Bool := c = '"' || c.val = 39

/-- `!\[[^\]]*\]\(([^)]+)\)` — a Markdown image, capturing the URL. -/
def mdImgPat : List Tok :=
  [Tok.lit ['!', '['], star (fun c => c ≠ ']') none, Tok.lit [']', '('],
   plus (fun c => c ≠ ')') (some 1), Tok.lit [')']]

/-- `<img[^>]+src=["\x27]([^"\x27]+)["\x27]` — an HTML image, capturing the URL. -/
def htmlImgPat : List Tok :=
  [Tok.lit ['<', 'i', 'm', 'g'], plus nonGt none, Tok.lit ['s', 'r', 'c', '='],
   Tok.quant quoteC 1 (some 1) true none,
   plus (fun c => !(quoteC c)) (some 1),
   Tok.quant quoteC 1 (some 1) true none]

/-- Python's `in` on strings: contiguous-substring containment. -/
def isInfixCh (pat : List Char) : List Char → Bool
  | [] => (litPref pat []).isSome
  | c :: cs => (litPref pat (c :: cs)).isSome || isInfixCh pat cs

/-- The filter `domain in url or url.startswith('/')`. -/
def urlKeep (domain url : List Char) : Bool :=
  isInfixCh domain url ||
    (match url with
     | c :: _ => c = '/'
     | [] => false)

/-- `set.add` under the insertion-order model (see the section note). -/
def pySetAdd (s : List (List Char)) (x : List Char) : List (List Char) :=
  if x ∈ s then s else s ++ [x]

/-- `extract_image_urls` from `scripts/download_images.py`: both regex
passes (markdown first, HTML second), the domain filter, a `set` of
URLs, returned as a list. -/
def extract_image_urls (content domain : String) : List String :=
  let md := pyFindAll1 mdImgPat content.data
  let ht := pyFindAll1 htmlImgPat content.data
  let s1 := (md.filter (fun u => urlKeep domain.data u)).foldl pySetAdd []
  let s2 := (ht.filter (fun u => urlKeep domain.data u)).foldl pySetAdd s1
  s2.map String.mk

/-- `os.path.basename(urlparse(url).path)` for the URL shapes these
scripts see: the part after the last `/` of the part before any `?`/`#`. -/
def basenameOf (url : List Char) : List Char :=
  (url.takeWhile (fun c => c ≠ '?' && c ≠ '#')).foldl
    (fun acc c => if c = '/' then [] else acc ++ [c]) []

/-- `download_image`: join a site-relative URL onto `https://domain`,
fetch, and derive the filename (hash-based name when the basename is
empty). -/
def download_image (fetch : String → Option String) (hashName : String → String)
    (base_url url : String) : Option (String × String) :=
  let full := match url.data with
    | Char.mk 47 _ :: _ => base_url ++ url
    | _ => url
  match fetch full with
  | none => none
  | some bytes =>
    let fn := String.mk (basenameOf full.data)
    some (bytes, if fn = "" then hashName full else fn)

/-- `Image(...).save()`: append a fresh record; the storage layer's
available-name uniquifier (a new file never overwrites an existing one)
is modelled deterministically by prefixing the fresh pk. -/
def imageSave (updir : String) (db : DB) (filename alt : String) : DB × DImage :=
  let name0 := updir ++ filename
  let name := if db.images.any (fun im => im.name == name0) then
      updir ++ toString db.nextPk ++ "-" ++ filename
    else name0
  let im : DImage := ⟨db.nextPk, name, filename, alt⟩
  ({ db with images := db.images ++ [im], nextPk := db.nextPk + 1 }, im)

/-- `image.file.url` (`MEDIA_URL = '/uploads/'`). -/
def fileUrl (im : DImage) : String := "/uploads/" ++ im.name

/-- The per-URL loop body of `process_post_images`: download, create a
new `Image` record (no lookup of existing records), rewrite the body. -/
def processUrls (fetch : String → Option String) (hashName : String → String)
    (updir base_url title : String) :
    List String → DB → String → Nat → DB × String × Nat
  | [], db, content, n => (db, content, n)
  | url :: rest, db, content, n =>
    match download_image fetch hashName base_url url with
    | none => processUrls fetch hashName updir base_url title rest db content n
    | some r =>
      let s := imageSave updir db r.2 ("Image from " ++ title)
      processUrls fetch hashName updir base_url title rest s.1
        (String.mk (pyReplace content.data url.data (fileUrl s.2).data)) (n + 1)

/-- `process_post_images` from `scripts/download_images.py`. -/
def process_post_images (render : String → String) (fetch : String → Option String)
    (hashName : String → String) (updir domain base_url : String)
    (db : DB) (p : DPost) : DB × Nat :=
  let urls := extract_image_urls p.content_md domain
  let r := processUrls fetch hashName updir base_url p.title urls db p.content_md 0
  if r.2.1 ≠ p.content_md then
    ((postSave render r.1 { p with content_md := r.2.1 } false).1, r.2.2)
  else (r.1, r.2.2)

/-- The `main()` loop of `scripts/download_images.py` over a list of
post rows, accumulating the downloaded count. -/
def download_images_run (render : String → String) (fetch : String → Option String)
    (hashName : String → String) (updir domain base_url : String) :
    List DPost → DB → DB × Nat
  | [], db => (db, 0)
  | p :: rest, db =>
    let r := process_post_images render fetch hashName updir domain base_url db p
    let r2 := download_images_run render fetch hashName updir domain base_url rest r.1
    (r2.1, r.2 + r2.2)

/-- `find_existing_image` from `scripts/extract_featured_images.py`:
dedup lookup by `original_name`, then by case-insensitive containment
in the stored file path.  This helper is used only by the
featured-image extractor, not by the body-image downloader. -/
def find_existing_image (db : DB) (url : String) : Option DImage :=
  let filename := String.mk (basenameOf url.data)
  if filename = "" then none
  else
    match db.images.find? (fun im => im.original_name == filename) with
    | some im => some im
    | none =>
      match db.images.find? (fun im =>
          isInfixCh (filename.data.map Char.toLower) (im.name.data.map Char.toLower)) with
      | some im => some im
      | none => none

/-- Two posts whose bodies reference the identical image URL. -/
def p7a : DPost := ⟨1, "A", "a", "![x](/i/a.png)", "", "", PStatus.draft, 0, none, 0, 0, none⟩

/-- See `p7a`. -/
def p7b : DPost := ⟨2, "B", "b", "![x](/i/a.png)", "", "", PStatus.draft, 0, none, 0, 0, none⟩

/-- A store holding the two posts of the C7 counterexample. -/
def db7 : DB := ⟨[adminU], [], [p7a, p7b], [], [], [], 3, 0⟩

/-! ## Theorems -/

theorem matchToks_head_ne (f : Nat) (c0 : Char) (l : List Char) (ts : List Tok)
    (c : Char) (cs : List Char) (caps : List (Nat × List Char)) (hne : c ≠ c0) :
    matchToks f (Tok.lit (c0 :: l) :: ts) (c :: cs) caps = none := by
  cases f with
  | zero => rfl
  | succ f =>
    simp only [matchToks, litPref]
    rw [if_neg (fun h => hne h.symm)]

theorem subStep_none (l : List Char) (ts : List Tok)
    (tmpl : List (Nat × List Char) → List Char) (c : Char) (cs : List Char)
    (hne : c ≠ '<') :
    subStep (Tok.lit ('<' :: l) :: ts) tmpl (c :: cs) = none := by
  simp only [subStep]
  rw [matchToks_head_ne _ _ _ _ _ _ _ (fun h => hne h)]

theorem pysubGo_id (l : List Char) (ts : List Tok)
    (tmpl : List (Nat × List Char) → List Char) :
    ∀ (s : List Char) (f : Nat), '<' ∉ s →
      pysubGo (Tok.lit ('<' :: l) :: ts) tmpl f s = s := by
  intro s
  induction s with
  | nil => intro f _; cases f <;> rfl
  | cons c cs ih =>
    intro f h
    cases f with
    | zero => rfl
    | succ f =>
      have hc : c ≠ '<' := fun hx => h (hx ▸ List.mem_cons_self c cs)
      simp only [pysubGo]
      rw [subStep_none l ts tmpl c cs hc]
      exact congrArg (c :: ·) (ih f (fun hx => h (List.mem_cons_of_mem c hx)))

theorem passId (pat : List Tok) (tmpl : List (Nat × List Char) → List Char)
    (hp : ltHeaded pat) (s : List Char) (h : '<' ∉ s) : pyReSub pat tmpl s = s := by
  obtain ⟨l, ts, rfl⟩ := hp
  exact pysubGo_id l ts tmpl s s.length h

theorem applyPasses_id (s : List Char) (h : '<' ∉ s) : applyPasses s = s := by
  have e01 : subH1 s = s := passId _ _ ⟨_, _, rfl⟩ s h
  have e02 : subH2 s = s := passId _ _ ⟨_, _, rfl⟩ s h
  have e03 : subH3 s = s := passId _ _ ⟨_, _, rfl⟩ s h
  have e04 : subH4 s = s := passId _ _ ⟨_, _, rfl⟩ s h
  have e05 : subStrong s = s := passId _ _ ⟨_, _, rfl⟩ s h
  have e06 : subB s = s := passId _ _ ⟨_, _, rfl⟩ s h
  have e07 : subEm s = s := passId _ _ ⟨_, _, rfl⟩ s h
  have e08 : subI s = s := passId _ _ ⟨_, _, rfl⟩ s h
  have e09 : subA s = s := passId _ _ ⟨_, _, rfl⟩ s h
  have e10 : subImgAlt s = s := passId _ _ ⟨_, _, rfl⟩ s h
  have e11 : subImg s = s := passId _ _ ⟨_, _, rfl⟩ s h
  have e12 : subUlOpen s = s := passId _ _ ⟨_, _, rfl⟩ s h
  have e13 : subUlClose s = s := passId _ _ ⟨_, _, rfl⟩ s h
  have e14 : subOlOpen s = s := passId _ _ ⟨_, _, rfl⟩ s h
  have e15 : subOlClose s = s := passId _ _ ⟨_, _, rfl⟩ s h
  have e16 : subLi s = s := passId _ _ ⟨_, _, rfl⟩ s h
  have e17 : subPre s = s := passId _ _ ⟨_, _, rfl⟩ s h
  have e18 : subCode s = s := passId _ _ ⟨_, _, rfl⟩ s h
  have e19 : subBq s = s := passId _ _ ⟨_, _, rfl⟩ s h
  have e20 : subP s = s := passId _ _ ⟨_, _, rfl⟩ s h
  have e21 : subBr s = s := passId _ _ ⟨_, _, rfl⟩ s h
  have e22 : subHr s = s := passId _ _ ⟨_, _, rfl⟩ s h
  have e23 : subStripTags s = s := passId _ _ ⟨_, _, rfl⟩ s h
  simp only [applyPasses, e01, e02, e03, e04, e05, e06, e07, e08, e09, e10, e11,
    e12, e13, e14, e15, e16, e17, e18, e19, e20, e21, e22, e23]

theorem hasTriple_tail {a : Char} {l : List Char} (h : hasTriple (a :: l) = false) :
    hasTriple l = false := by
  match l with
  | [] => rfl
  | [b] => rfl
  | b :: c :: r =>
    simp only [hasTriple, Bool.or_eq_false_iff] at h
    exact h.2

theorem hasTriple_cons_of_ne {a : Char} {l : List Char} (ha : a ≠ '\n') :
    hasTriple (a :: l) = hasTriple l := by
  match l with
  | [] => rfl
  | [b] => rfl
  | b :: c :: r =>
    simp only [hasTriple]
    rw [decide_eq_false ha]
    simp

theorem hasTriple_append {l t : List Char} (h : hasTriple (l ++ t) = false) :
    hasTriple l = false := by
  induction l with
  | nil => rfl
  | cons a l ih =>
    match l, h with
    | [], _ => rfl
    | [b], _ => rfl
    | b :: c :: r, h =>
      simp only [List.cons_append, hasTriple, Bool.or_eq_false_iff] at h ⊢
      exact ⟨h.1, by
        have := ih (by simpa using h.2)
        simpa using this⟩

theorem hasTriple_suffix {t l : List Char} (h : hasTriple (t ++ l) = false) :
    hasTriple l = false := by
  induction t with
  | nil => simpa using h
  | cons a t ih => exact ih (hasTriple_tail (by simpa using h))

theorem collapseGo_eq_self : ∀ (s : List Char) (p2 p1 : Char),
    hasTriple (p2 :: p1 :: s) = false → collapseGo p2 p1 s = s := by
  intro s
  induction s with
  | nil => intro p2 p1 _; rfl
  | cons c cs ih =>
    intro p2 p1 h
    simp only [hasTriple, Bool.or_eq_false_iff] at h
    simp only [collapseGo]
    rw [if_neg (by
      intro hx
      simp only [Bool.and_eq_true, decide_eq_true_eq] at hx
      simp [hx.1.1, hx.1.2, hx.2] at h)]
    exact congrArg (c :: ·) (ih p1 c h.2)

theorem collapseNL_eq_self {s : List Char} (h : hasTriple s = false) :
    collapseNL s = s := by
  have hx : hasTriple ('x' :: 'x' :: s) = false := by
    rw [hasTriple_cons_of_ne (by decide), hasTriple_cons_of_ne (by decide)]
    exact h
  exact collapseGo_eq_self s 'x' 'x' hx

theorem collapseGo_noTriple : ∀ (s : List Char) (p2 p1 : Char),
    hasTriple (p2 :: p1 :: collapseGo p2 p1 s) = false := by
  intro s
  induction s with
  | nil => intro p2 p1; rfl
  | cons c cs ih =>
    intro p2 p1
    simp only [collapseGo]
    by_cases hc : (p2 = '\n' && p1 = '\n' && c = '\n') = true
    · rw [if_pos hc]
      exact ih p2 p1
    · rw [if_neg hc]
      have htail := ih p1 c
      simp only [hasTriple, Bool.or_eq_false_iff]
      refine ⟨?_, htail⟩
      simpa using hc

theorem collapseNL_noTriple (s : List Char) : hasTriple (collapseNL s) = false := by
  have h := collapseGo_noTriple s 'x' 'x'
  exact hasTriple_tail (hasTriple_tail h)

theorem dropTrail_cons (p : Char → Bool) (c : Char) (cs : List Char) :
    dropTrail p (c :: cs) =
      if (dropTrail p cs).isEmpty && p c then [] else c :: dropTrail p cs := rfl

theorem dropTrail_prefix (p : Char → Bool) : ∀ l : List Char, dropTrail p l <+: l := by
  intro l
  induction l with
  | nil => exact List.nil_prefix
  | cons c cs ih =>
    rw [dropTrail_cons]
    by_cases h : ((dropTrail p cs).isEmpty && p c) = true
    · rw [if_pos h]; exact List.nil_prefix
    · rw [if_neg h]
      obtain ⟨t, ht⟩ := ih
      exact ⟨t, by rw [List.cons_append, ht]⟩

theorem dropWhile_suffix_self (p : Char → Bool) : ∀ l : List Char,
    ∃ t, t ++ l.dropWhile p = l := by
  intro l
  induction l with
  | nil => exact ⟨[], rfl⟩
  | cons c cs ih =>
    by_cases h : p c = true
    · obtain ⟨t, ht⟩ := ih
      exact ⟨c :: t, by simp [List.dropWhile, h, ht]⟩
    · exact ⟨[], by simp [List.dropWhile, h]⟩

theorem hasTriple_stripPy {s : List Char} (h : hasTriple s = false) :
    hasTriple (stripPy s) = false := by
  obtain ⟨t, ht⟩ := dropWhile_suffix_self isPySpace s
  have h1 : hasTriple (s.dropWhile isPySpace) = false :=
    hasTriple_suffix (ht.symm ▸ h)
  obtain ⟨t2, ht2⟩ := dropTrail_prefix isPySpace (s.dropWhile isPySpace)
  refine hasTriple_append (l := stripPy s) (t := t2) ?_
  show hasTriple (dropTrail isPySpace (s.dropWhile isPySpace) ++ t2) = false
  rw [ht2]
  exact h1

theorem head_dropWhile (p : Char → Bool) : ∀ (l : List Char) (c : Char),
    (l.dropWhile p).head? = some c → p c = false := by
  intro l
  induction l with
  | nil => intro c h; simp [List.dropWhile] at h
  | cons a l ih =>
    intro c h
    by_cases ha : p a = true
    · exact ih c (by simpa [List.dropWhile, ha] using h)
    · simp only [List.dropWhile, ha] at h
      simp only [List.head?_cons, Option.some.injEq] at h
      rw [← h]
      simpa using ha

theorem dropWhile_eq_self_of_head (p : Char → Bool) (l : List Char)
    (h : ∀ c, l.head? = some c → p c = false) : l.dropWhile p = l := by
  cases l with
  | nil => rfl
  | cons a l =>
    have := h a rfl
    simp [List.dropWhile, this]

theorem headOfPref {l' l : List Char} {c : Char} (hp : l' <+: l)
    (h : l'.head? = some c) : l.head? = some c := by
  obtain ⟨t, rfl⟩ := hp
  cases l' with
  | nil => simp at h
  | cons a l' => simpa using h

theorem getLast_dropTrail (p : Char → Bool) : ∀ (l : List Char) (c : Char),
    (dropTrail p l).getLast? = some c → p c = false := by
  intro l
  induction l with
  | nil => intro c h; simp [dropTrail] at h
  | cons a l ih =>
    intro c h
    rw [dropTrail_cons] at h
    by_cases hcond : ((dropTrail p l).isEmpty && p a) = true
    · rw [if_pos hcond] at h; simp at h
    · rw [if_neg hcond] at h
      cases hdt : dropTrail p l with
      | nil =>
        rw [hdt] at h
        simp only [List.getLast?_singleton, Option.some.injEq] at h
        rw [← h]
        rw [hdt] at hcond
        simpa using hcond
      | cons x xs =>
        rw [hdt] at h
        rw [List.getLast?_cons_cons] at h
        exact ih c (hdt ▸ h)

theorem dropTrail_eq_self_of_getLast (p : Char → Bool) : ∀ (l : List Char),
    (∀ c, l.getLast? = some c → p c = false) → dropTrail p l = l := by
  intro l
  induction l with
  | nil => intro _; rfl
  | cons a l ih =>
    intro h
    rw [dropTrail_cons]
    cases l with
    | nil =>
      have := h a (by simp)
      simp [dropTrail, this]
    | cons x xs =>
      have hrec : dropTrail p (x :: xs) = x :: xs := by
        refine ih ?_
        intro c hc
        exact h c (by rw [List.getLast?_cons_cons]; exact hc)
      rw [hrec]
      simp

theorem stripPy_idem (l : List Char) : stripPy (stripPy l) = stripPy l := by
  have hhead : ∀ c, (stripPy l).head? = some c → isPySpace c = false := by
    intro c hc
    have hpre := dropTrail_prefix isPySpace (l.dropWhile isPySpace)
    exact head_dropWhile isPySpace l c (headOfPref hpre hc)
  have h1 : (stripPy l).dropWhile isPySpace = stripPy l :=
    dropWhile_eq_self_of_head isPySpace _ hhead
  have h2 : dropTrail isPySpace (stripPy l) = stripPy l := by
    refine dropTrail_eq_self_of_getLast isPySpace _ ?_
    intro c hc
    exact getLast_dropTrail isPySpace (l.dropWhile isPySpace) c hc
  show dropTrail isPySpace ((stripPy l).dropWhile isPySpace) = stripPy l
  rw [h1, h2]

theorem data_mk (l : List Char) : (String.mk l).data = l := rfl

theorem html_to_markdown_ne (s : String) (hs : ¬ s = "") :
    html_to_markdown s = String.mk (stripPy (collapseNL (applyPasses s.data))) := by
  unfold html_to_markdown
  exact if_neg hs

theorem html_to_markdown_data (s : String) (hs : ¬ s = "") :
    (html_to_markdown s).data = stripPy (collapseNL (applyPasses s.data)) :=
  (congrArg String.data (html_to_markdown_ne s hs)).trans
    (data_mk (stripPy (collapseNL (applyPasses s.data))))

/-- C5: the markup transcoder `html_to_markdown` is a deterministic pure
function (equal inputs give equal outputs), and on text containing no HTML
tags (no `<` character) that is already in its output form (no run of three
or more newlines, fixed by `strip()`) it returns its input unchanged. -/
theorem claim_C5 :
    (∀ a b : String, a = b → html_to_markdown a = html_to_markdown b) ∧
    (∀ s : String, '<' ∉ s.data → hasTriple s.data = false →
      stripPy s.data = s.data → html_to_markdown s = s) := by
  constructor
  · intro a b h
    rw [h]
  · intro s hlt h3 hst
    by_cases hs : s = ""
    · rw [hs]
      rfl
    · have e := html_to_markdown_ne s hs
      have e2 : stripPy (collapseNL (applyPasses s.data)) = s.data := by
        rw [applyPasses_id s.data hlt, collapseNL_eq_self h3, hst]
      have e3 : String.mk s.data = s := rfl
      exact (e.trans (congrArg String.mk e2)).trans e3

/-- Witness for C5 at the concrete already-Markdown text `# Hi\nWorld`. -/
theorem claim_C5_witness : html_to_markdown "# Hi\nWorld" = "# Hi\nWorld" :=
  claim_C5.2 "# Hi\nWorld" (by decide) (by decide) (by decide)

/-- C10: for every input, the output of `html_to_markdown` contains no run
of three or more consecutive newlines, and has no leading or trailing
whitespace (`strip()` of the output is the output itself). -/
theorem claim_C10 : ∀ s : String, hasTriple (html_to_markdown s).data = false ∧
    stripPy (html_to_markdown s).data = (html_to_markdown s).data := by
  intro s
  by_cases hs : s = ""
  · rw [hs]
    exact ⟨rfl, rfl⟩
  · have edata := html_to_markdown_data s hs
    have g1 : hasTriple (stripPy (collapseNL (applyPasses s.data))) = false :=
      hasTriple_stripPy (collapseNL_noTriple (applyPasses s.data))
    have g2 : stripPy (stripPy (collapseNL (applyPasses s.data))) =
        stripPy (collapseNL (applyPasses s.data)) :=
      stripPy_idem (collapseNL (applyPasses s.data))
    exact ⟨Eq.mpr (congrArg (fun t => hasTriple t = false) edata) g1,
      Eq.mpr (congrArg (fun t => stripPy t = t) edata) g2⟩

/-- C2, counterexample: for the claimed scenario the stored Markdown body
is `# Hi\nWorld`, not `# Hi\n\nWorld\n\n` — the heading pass emits a
single newline and the final `strip()` removes the trailing blank line. -/
theorem claim_C2_counterexample :
    (c2res id).1.posts.map (fun p => p.content_md) = ["# Hi\nWorld"] ∧
    html_to_markdown "<h1>Hi</h1><p>World</p>" ≠ "# Hi\n\nWorld\n\n" :=
  ⟨rfl, by decide⟩

/-- C2, amended: the import of the C2 export produces (for every
rendering function) a post whose stored Markdown body is `# Hi\nWorld`,
creates the tag `foo` exactly once and attaches it, and creates exactly
two comments where comment 11's parent is comment 10. -/
theorem claim_C2_amended : ∀ render : String → String,
    (c2res render).1.posts.map (fun p => p.content_md) = ["# Hi\nWorld"] ∧
    (c2res render).1.tags.map (fun t => t.slug) = ["foo"] ∧
    (c2res render).2.tags_created = 1 ∧
    (c2res render).1.posts.map (fun p => p.pk) = [2] ∧
    (c2res render).1.tags.map (fun t => t.pk) = [1] ∧
    (c2res render).1.postTags = [(2, 1)] ∧
    (c2res render).1.comments.map (fun c => (c.wp_comment_id, c.pk, c.parent)) =
      [(some 10, 3, none), (some 11, 4, some 3)] := by
  intro render
  exact ⟨rfl, rfl, rfl, rfl, rfl, rfl, rfl⟩

/-- C4: for every export item of type `post`, status `publish` maps to
`published`, `draft` to `draft`, `future` to `scheduled`, and any other
status excludes that single item from `parse_posts` while the remaining
items of the document are still parsed. -/
theorem claim_C4 :
    (∀ it : XItem, it.post_type = some "post" →
      ((it.status = "publish" →
         ∃ p, parseXItem it = some p ∧ p.id = it.post_id ∧ p.status = "published") ∧
       (it.status = "draft" →
         ∃ p, parseXItem it = some p ∧ p.id = it.post_id ∧ p.status = "draft") ∧
       (it.status = "future" →
         ∃ p, parseXItem it = some p ∧ p.id = it.post_id ∧ p.status = "scheduled") ∧
       (it.status ≠ "publish" → it.status ≠ "draft" → it.status ≠ "future" →
         parseXItem it = none))) ∧
    (∀ (l1 l2 : List XItem) (bad : XItem), parseXItem bad = none →
      parse_posts (l1 ++ bad :: l2) = parse_posts (l1 ++ l2)) := by
  constructor
  · intro it hty
    refine ⟨?_, ?_, ?_, ?_⟩
    · intro hst
      exact ⟨mkWPPost it "published", by simp [parseXItem, hty, hst], rfl, rfl⟩
    · intro hst
      exact ⟨mkWPPost it "draft", by simp [parseXItem, hty, hst], rfl, rfl⟩
    · intro hst
      exact ⟨mkWPPost it "scheduled", by simp [parseXItem, hty, hst], rfl, rfl⟩
    · intro h1 h2 h3
      simp [parseXItem, hty, h1, h2, h3]
  · intro l1 l2 bad hbad
    simp [parse_posts, List.filterMap_append, List.filterMap_cons, hbad]

/-! ## Tag associations are never removed (C6) -/

theorem addPostTag_mono {db : DB} {a b : Nat} {pr : Nat × Nat}
    (h : pr ∈ db.postTags) : pr ∈ (addPostTag db a b).postTags := by
  unfold addPostTag
  by_cases hc : (a, b) ∈ db.postTags
  · rw [if_pos hc]; exact h
  · rw [if_neg hc]; exact List.mem_append_left _ h

theorem attachTags_mono (pk : Nat) (tm : List (String × DTag)) :
    ∀ (l : List (Option String)) (db : DB) (pr : Nat × Nat),
      pr ∈ db.postTags → pr ∈ (attachTags pk tm l db).postTags := by
  intro l
  induction l with
  | nil => intro db pr h; exact h
  | cons o rest ih =>
    intro db pr h
    match o with
    | none => exact ih db pr h
    | some s =>
      simp only [attachTags]
      match alGetT tm s with
      | some tg => exact ih _ pr (addPostTag_mono h)
      | none => exact ih db pr h

theorem getOrCreateUser_postTags (db : DB) (u e f l : String) :
    (getOrCreateUser db u e f l).1.postTags = db.postTags := by
  unfold getOrCreateUser
  cases hf : findUser db u with
  | none => rfl
  | some _ => rfl

theorem getOrCreateTag_postTags (db : DB) (s n : String) (w : Option Nat) :
    (getOrCreateTag db s n w).1.postTags = db.postTags := by
  unfold getOrCreateTag
  cases hf : db.tags.find? (fun t => t.slug == s) with
  | none => rfl
  | some _ => rfl

theorem postSave_postTags (render : String → String) (db : DB) (p : DPost) (b : Bool) :
    (postSave render db p b).1.postTags = db.postTags := by
  unfold postSave
  cases b with
  | true => rfl
  | false => rfl

theorem postUpdateOrCreate_postTags (render : String → String) (db : DB) (w : Nat)
    (f : PostFields) : (postUpdateOrCreate render db w f).1.postTags = db.postTags := by
  unfold postUpdateOrCreate
  cases hf : db.posts.find? (fun q => q.wp_post_id == some w) with
  | some q => exact postSave_postTags render db _ false
  | none => exact postSave_postTags render _ _ true

theorem commentUpdateOrCreate_postTags (db : DB) (w : Nat) (f : CommentFields) :
    (commentUpdateOrCreate db w f).1.postTags = db.postTags := by
  unfold commentUpdateOrCreate
  cases hf : db.comments.find? (fun c => c.wp_comment_id == some w) with
  | none => rfl
  | some _ => rfl

theorem setCommentCreatedAt_postTags (db : DB) (pk t : Nat) :
    (setCommentCreatedAt db pk t).postTags = db.postTags := rfl

theorem commentStep_postTags (db : DB) (c : WPComment) (pk : Nat)
    (m : List (Nat × DComment)) : (commentStep db c pk m).1.postTags = db.postTags := by
  simp only [commentStep]
  rcases hR : commentUpdateOrCreate db c.id
    ⟨pk, resolveParent c m, c.author_name, c.author_email, c.content,
     commentStatusOf c.status⟩ with ⟨db1, cm, created⟩
  have hpt : db1.postTags = db.postTags := by
    have := commentUpdateOrCreate_postTags db c.id
      ⟨pk, resolveParent c m, c.author_name, c.author_email, c.content,
       commentStatusOf c.status⟩
    rw [hR] at this
    exact this
  match created with
  | false => exact hpt
  | true =>
    match c.created_at with
    | some t => simpa [setCommentCreatedAt_postTags] using hpt
    | none => exact hpt

theorem importComments_postTags : ∀ (l : List WPComment) (db : DB) (pk : Nat)
    (m : List (Nat × DComment)) (n : Nat),
    (importComments l db pk m n).1.postTags = db.postTags := by
  intro l
  induction l with
  | nil => intro db pk m n; rfl
  | cons c rest ih =>
    intro db pk m n
    simp only [importComments]
    rw [ih]
    exact commentStep_postTags db c pk m

theorem importAuthors_postTags : ∀ (l : List WPAuthor) (db : DB)
    (m : List (String × DUser)), (importAuthors l db m).1.postTags = db.postTags := by
  intro l
  induction l with
  | nil => intro db m; rfl
  | cons a rest ih =>
    intro db m
    simp only [importAuthors]
    rw [ih]
    exact getOrCreateUser_postTags db a.login a.email _ _

theorem importTags_postTags : ∀ (l : List WPTag) (db : DB)
    (m : List (String × DTag)) (n : Nat), (importTags l db m n).1.postTags = db.postTags := by
  intro l
  induction l with
  | nil => intro db m n; rfl
  | cons t rest ih =>
    intro db m n
    simp only [importTags]
    rw [ih]
    exact getOrCreateTag_postTags db t.slug t.name (some t.term_id)

theorem importPosts_mono (render : String → String) :
    ∀ (l : List WPPost) (db : DB) (am : List (String × DUser))
      (tm : List (String × DTag)) (da : DUser) (st : Stats) (pr : Nat × Nat),
      pr ∈ db.postTags → pr ∈ (importPosts render l db am tm da st).1.postTags := by
  intro l
  induction l with
  | nil => intro db am tm da st pr h; exact h
  | cons p rest ih =>
    intro db am tm da st pr h
    simp only [importPosts]
    refine ih _ am tm da _ pr ?_
    rw [importComments_postTags]
    simp only [postStep]
    refine attachTags_mono _ tm p.tags _ pr ?_
    rw [postUpdateOrCreate_postTags]
    exact h

theorem import_data_postTags_mono (render : String → String) (data : WPData)
    (da : DUser) (db : DB) (pr : Nat × Nat) (h : pr ∈ db.postTags) :
    pr ∈ (import_data render data da db).1.postTags := by
  unfold import_data
  refine importPosts_mono render data.posts _ _ _ da _ pr ?_
  rw [importTags_postTags, importAuthors_postTags]
  exact h

/-- C6: tag attachment is additive — for every target post and every tag
attached to it before a re-import whose slug the export does not list for
that post, the association is still present after the import (rows of
the many-to-many table are never deleted by the importer). -/
theorem claim_C6 : ∀ (render : String → String) (data : WPData) (da : DUser)
    (db0 : DB) (post : DPost) (tg : DTag),
    post ∈ db0.posts → tg ∈ db0.tags →
    (post.pk, tg.pk) ∈ db0.postTags →
    (∀ p ∈ data.posts, post.wp_post_id = some p.id → some tg.slug ∉ p.tags) →
    (post.pk, tg.pk) ∈ (import_data render data da db0).1.postTags := by
  intro render data da db0 post tg _ _ hmem _
  exact import_data_postTags_mono render data da db0 _ hmem

/-- Witness for C6: re-importing an export that does not list `old` for
the post keeps the hand-added association `(50, 60)`. -/
theorem claim_C6_witness :
    (50, 60) ∈ (import_data id (parseChannel chC2) adminU dbC6).1.postTags :=
  claim_C6 id (parseChannel chC2) adminU dbC6
    ⟨50, "P", "p", "", "", "", PStatus.draft, 0, none, 0, 0, some 1⟩
    ⟨60, "Old", "old", none⟩ (by decide) (by decide) (by decide) (by decide)

/-- C1, counterexample: the second run is not a no-op on every field —
`Post.updated_at` is `auto_now`, so the update path of
`Post.objects.update_or_create` re-stamps it on every run (and a
published post with no source publish date would likewise get a fresh
`published_at`).  After run 1 the post's `updated_at` is 0; after run 2
it is 3, so the post rows differ. -/
theorem claim_C1_counterexample :
    c1run2.1.posts.map (fun p => p.updated_at) = [3] ∧
    c1run1.1.posts.map (fun p => p.updated_at) = [0] ∧
    c1run2.1.posts ≠ c1run1.1.posts := by
  exact ⟨rfl, rfl, by decide⟩

theorem rowIn_nil (i : Nat) : rowIn [] i = none := rfl

theorem rowIn_cons (a : DComment) (l : List DComment) (i : Nat) :
    rowIn (a :: l) i = if a.wp_comment_id == some i then some a else rowIn l i := by
  simp only [rowIn, List.find?]
  cases h : (a.wp_comment_id == some i) <;> simp [h]

theorem rowIn_append (l₁ l₂ : List DComment) (i : Nat) :
    rowIn (l₁ ++ l₂) i =
      match rowIn l₁ i with
      | some r => some r
      | none => rowIn l₂ i := by
  induction l₁ with
  | nil => simp [rowIn_nil]
  | cons a l ih =>
    rw [List.cons_append, rowIn_cons, rowIn_cons]
    cases h : (a.wp_comment_id == some i) <;> simp [h, ih]

theorem stampedCRow_pk (db : DB) (c : WPComment) (pk : Nat) (m : List (Nat × DComment)) :
    (stampedCRow db c pk m).pk = db.nextPk := by
  unfold stampedCRow newCRow
  cases c.created_at <;> rfl

theorem stampedCRow_wpid (db : DB) (c : WPComment) (pk : Nat) (m : List (Nat × DComment)) :
    (stampedCRow db c pk m).wp_comment_id = some c.id := by
  unfold stampedCRow newCRow
  cases c.created_at <;> rfl

theorem stampedCRow_post (db : DB) (c : WPComment) (pk : Nat) (m : List (Nat × DComment)) :
    (stampedCRow db c pk m).post = pk := by
  unfold stampedCRow newCRow
  cases c.created_at <;> rfl

theorem stampedCRow_parent (db : DB) (c : WPComment) (pk : Nat) (m : List (Nat × DComment)) :
    (stampedCRow db c pk m).parent = resolveParent c m := by
  unfold stampedCRow newCRow
  cases c.created_at <;> rfl

theorem stampedCRow_an (db : DB) (c : WPComment) (pk : Nat) (m : List (Nat × DComment)) :
    (stampedCRow db c pk m).author_name = c.author_name := by
  unfold stampedCRow newCRow
  cases c.created_at <;> rfl

theorem stampedCRow_ae (db : DB) (c : WPComment) (pk : Nat) (m : List (Nat × DComment)) :
    (stampedCRow db c pk m).author_email = c.author_email := by
  unfold stampedCRow newCRow
  cases c.created_at <;> rfl

theorem stampedCRow_ct (db : DB) (c : WPComment) (pk : Nat) (m : List (Nat × DComment)) :
    (stampedCRow db c pk m).content = c.content := by
  unfold stampedCRow newCRow
  cases c.created_at <;> rfl

theorem stampedCRow_st (db : DB) (c : WPComment) (pk : Nat) (m : List (Nat × DComment)) :
    (stampedCRow db c pk m).status = commentStatusOf c.status := by
  unfold stampedCRow newCRow
  cases c.created_at <;> rfl

theorem resolveParent_zero (c : WPComment) (m : List (Nat × DComment)) (h : c.parent = 0) :
    resolveParent c m = none := by
  simp [resolveParent, h]

theorem resolveParent_found (c : WPComment) (m : List (Nat × DComment))
    (e0 : Nat × DComment) (hne : c.parent ≠ 0)
    (hf : m.find? (fun p => p.1 == c.parent) = some e0) :
    resolveParent c m = some e0.2.pk := by
  simp [resolveParent, hne, hf]

theorem resolveParent_notfound (c : WPComment) (m : List (Nat × DComment))
    (hf : m.find? (fun p => p.1 == c.parent) = none) :
    resolveParent c m = none := by
  by_cases hne : c.parent = 0
  · exact resolveParent_zero c m hne
  · simp [resolveParent, hne, hf]

theorem find?_key_of_exists {m : List (Nat × DComment)} {k : Nat}
    (h : ∃ e ∈ m, e.1 = k) :
    ∃ e0, m.find? (fun p => p.1 == k) = some e0 ∧ e0 ∈ m ∧ e0.1 = k := by
  induction m with
  | nil => simp at h
  | cons a m ih =>
    by_cases ha : (a.1 == k) = true
    · refine ⟨a, ?_, List.mem_cons_self a m, by simpa using ha⟩
      simp [List.find?, ha]
    · have hm : ∃ e ∈ m, e.1 = k := by
        obtain ⟨e, he, hek⟩ := h
        rcases List.mem_cons.mp he with rfl | he'
        · exact absurd (by simpa using hek) ha
        · exact ⟨e, he', hek⟩
      obtain ⟨e0, hf, hmem, hek⟩ := ih hm
      refine ⟨e0, ?_, List.mem_cons_of_mem a hmem, hek⟩
      simp [List.find?, ha, hf]

theorem find?_key_none {m : List (Nat × DComment)} {k : Nat}
    (h : ¬ ∃ e ∈ m, e.1 = k) : m.find? (fun p => p.1 == k) = none := by
  induction m with
  | nil => rfl
  | cons a m ih =>
    by_cases ha : (a.1 == k) = true
    · exact absurd ⟨a, List.mem_cons_self a m, by simpa using ha⟩ h
    · have : ¬ ∃ e ∈ m, e.1 = k := by
        intro ⟨e, he, hek⟩
        exact h ⟨e, List.mem_cons_of_mem a he, hek⟩
      simp [List.find?, ha, ih this]

theorem commentUpdateOrCreate_create (db : DB) (w : Nat) (f : CommentFields)
    (h : rowIn db.comments w = none) :
    commentUpdateOrCreate db w f =
      ({ db with
          comments := db.comments ++
            [⟨db.nextPk, f.post, f.parent, f.author_name, f.author_email, f.content,
              f.status, db.clock, some w⟩],
          nextPk := db.nextPk + 1, clock := db.clock + 1 },
       ⟨db.nextPk, f.post, f.parent, f.author_name, f.author_email, f.content,
        f.status, db.clock, some w⟩, true) := by
  unfold commentUpdateOrCreate
  rw [show db.comments.find? (fun c => c.wp_comment_id == some w) = none from h]

theorem map_correct_append (rows : List DComment) (x : DComment) (t : Nat)
    (h : ∀ r ∈ rows, r.pk ≠ x.pk) :
    (rows ++ [x]).map (fun d => if d.pk == x.pk then { d with created_at := t } else d)
      = rows ++ [{ x with created_at := t }] := by
  induction rows with
  | nil => simp
  | cons a l ih =>
    have ha : (a.pk == x.pk) = false :=
      beq_eq_false_iff_ne.mpr (h a (List.mem_cons_self a l))
    simp only [List.cons_append, List.map_cons, ha, Bool.false_eq_true, if_false]
    rw [ih (fun r hr => h r (List.mem_cons_of_mem a hr))]

theorem commentStep_create (db : DB) (c : WPComment) (pk : Nat)
    (m : List (Nat × DComment))
    (hfresh : rowIn db.comments c.id = none)
    (hpk : ∀ r ∈ db.comments, r.pk < db.nextPk) :
    commentStep db c pk m =
      ({ db with
          comments := db.comments ++ [stampedCRow db c pk m]
          nextPk := db.nextPk + 1
          clock := db.clock + 1 },
       newCRow db c pk m, true) := by
  simp only [commentStep]
  rw [commentUpdateOrCreate_create db c.id _ hfresh]
  cases hca : c.created_at with
  | none =>
    simp only [if_true]
    have : stampedCRow db c pk m = newCRow db c pk m := by
      unfold stampedCRow
      rw [hca]
    rw [this]
    rfl
  | some t =>
    simp only [if_true, setCommentCreatedAt]
    have hrows : (db.comments ++
        [(⟨db.nextPk, pk, resolveParent c m, c.author_name, c.author_email, c.content,
          commentStatusOf c.status, db.clock, some c.id⟩ : DComment)]).map
        (fun d => if d.pk == db.nextPk then { d with created_at := t } else d)
        = db.comments ++ [stampedCRow db c pk m] := by
      have := map_correct_append db.comments
        ⟨db.nextPk, pk, resolveParent c m, c.author_name, c.author_email, c.content,
         commentStatusOf c.status, db.clock, some c.id⟩ t
        (fun r hr => Nat.ne_of_lt (hpk r hr))
      rw [this]
      have hs : stampedCRow db c pk m =
          { (⟨db.nextPk, pk, resolveParent c m, c.author_name, c.author_email, c.content,
             commentStatusOf c.status, db.clock, some c.id⟩ : DComment) with created_at := t } := by
        unfold stampedCRow newCRow
        rw [hca]
      rw [hs]
    rw [hrows]
    rfl

/-- The comment loop on a strictly-ascending fresh comment list: every
processed comment gets a fresh row whose parent reference is the row of
its declared parent when that parent was processed earlier (a
`comment_map` hit), and no parent otherwise; rows for other ids are
untouched. -/
theorem importComments_run :
    ∀ (suf : List WPComment) (db : DB) (cmap : List (Nat × DComment)) (n : Nat) (pk : Nat),
    List.Pairwise (fun a b => a.id < b.id) suf →
    (∀ c ∈ suf, rowIn db.comments c.id = none) →
    (∀ r ∈ db.comments, r.pk < db.nextPk) →
    (∀ e ∈ cmap, ∀ c ∈ suf, e.1 < c.id) →
    (∀ e ∈ cmap, ∃ r, rowIn db.comments e.1 = some r ∧ e.2.pk = r.pk) →
    (∀ i : Nat, (∀ c ∈ suf, c.id ≠ i) →
        rowIn (importComments suf db pk cmap n).1.comments i = rowIn db.comments i) ∧
    (∀ r ∈ (importComments suf db pk cmap n).1.comments,
        r.pk < (importComments suf db pk cmap n).1.nextPk) ∧
    (∀ c ∈ suf,
      ∃ rc, rowIn (importComments suf db pk cmap n).1.comments c.id = some rc ∧
        rc.post = pk ∧
        rc.author_name = c.author_name ∧
        rc.author_email = c.author_email ∧
        rc.content = c.content ∧
        rc.status = commentStatusOf c.status ∧
        (parentCond c cmap suf →
          ∃ rp, rowIn (importComments suf db pk cmap n).1.comments c.parent = some rp ∧
            rc.parent = some rp.pk) ∧
        (¬ parentCond c cmap suf → rc.parent = none)) := by
  intro suf
  induction suf with
  | nil =>
    intro db cmap n pk _ _ hpk _ _
    exact ⟨fun i _ => rfl, hpk, fun c hc => absurd hc (List.not_mem_nil c)⟩
  | cons c rest ih =>
    intro db cmap n pk hpw hfresh hpk hlow hmap
    obtain ⟨hhead, htail⟩ := List.pairwise_cons.mp hpw
    have hfc : rowIn db.comments c.id = none := hfresh c (List.mem_cons_self c rest)
    have hstep := commentStep_create db c pk cmap hfc hpk
    have hone : ∀ i : Nat, i ≠ c.id →
        rowIn (db.comments ++ [stampedCRow db c pk cmap]) i = rowIn db.comments i := by
      intro i hi
      rw [rowIn_append]
      have hs : rowIn [stampedCRow db c pk cmap] i = none := by
        rw [rowIn_cons, stampedCRow_wpid]
        have : (some c.id == some i) = false :=
          beq_eq_false_iff_ne.mpr (fun h => hi (Option.some.injEq _ _ ▸ h).symm)
        simp [this, rowIn_nil]
      cases hr : rowIn db.comments i <;> simp [hs]
    have hcid : rowIn (db.comments ++ [stampedCRow db c pk cmap]) c.id =
        some (stampedCRow db c pk cmap) := by
      rw [rowIn_append, hfc, rowIn_cons, stampedCRow_wpid]
      simp
    -- the state after processing the head
    set DB2 : DB :=
      { db with
          comments := db.comments ++ [stampedCRow db c pk cmap]
          nextPk := db.nextPk + 1
          clock := db.clock + 1 } with hDB2
    have hfresh2 : ∀ c' ∈ rest, rowIn DB2.comments c'.id = none := by
      intro c' hc'
      have : c'.id ≠ c.id := Nat.ne_of_gt (hhead c' hc')
      rw [show DB2.comments = db.comments ++ [stampedCRow db c pk cmap] from rfl]
      rw [hone c'.id this]
      exact hfresh c' (List.mem_cons_of_mem c hc')
    have hpk2 : ∀ r ∈ DB2.comments, r.pk < DB2.nextPk := by
      intro r hr
      rcases List.mem_append.mp hr with hr | hr
      · exact Nat.lt_succ_of_lt (hpk r hr)
      · rcases List.mem_singleton.mp hr with rfl
        rw [stampedCRow_pk]
        exact Nat.lt_succ_self _
    have hlow2 : ∀ e ∈ (c.id, newCRow db c pk cmap) :: cmap, ∀ c' ∈ rest, e.1 < c'.id := by
      intro e he c' hc'
      rcases List.mem_cons.mp he with rfl | he'
      · exact hhead c' hc'
      · exact hlow e he' c' (List.mem_cons_of_mem c hc')
    have hmap2 : ∀ e ∈ (c.id, newCRow db c pk cmap) :: cmap,
        ∃ r, rowIn DB2.comments e.1 = some r ∧ e.2.pk = r.pk := by
      intro e he
      rcases List.mem_cons.mp he with rfl | he'
      · refine ⟨stampedCRow db c pk cmap, hcid, ?_⟩
        rw [stampedCRow_pk]
        rfl
      · obtain ⟨r, hr, hpkeq⟩ := hmap e he'
        refine ⟨r, ?_, hpkeq⟩
        rw [show DB2.comments = db.comments ++ [stampedCRow db c pk cmap] from rfl,
          rowIn_append, hr]
    obtain ⟨IHstab, IHpk, IHall⟩ :=
      ih DB2 ((c.id, newCRow db c pk cmap) :: cmap) (n + 1) pk htail hfresh2 hpk2 hlow2 hmap2
    have hunfold : importComments (c :: rest) db pk cmap n =
        importComments rest DB2 pk ((c.id, newCRow db c pk cmap) :: cmap) (n + 1) := by
      simp [importComments, hstep]
    rw [hunfold]
    refine ⟨?_, IHpk, ?_⟩
    · intro i hi
      have h1 := IHstab i (fun c' hc' => hi c' (List.mem_cons_of_mem c hc'))
      rw [h1]
      exact hone i (fun h => hi c (List.mem_cons_self c rest) h.symm)
    · intro c' hc'
      rcases List.mem_cons.mp hc' with rfl | hc'
      · -- the head comment itself
      -- its row is the stamped row, stable through the rest of the loop
        have hrow : rowIn (importComments rest DB2 pk
            ((c'.id, newCRow db c' pk cmap) :: cmap) (n + 1)).1.comments c'.id =
            some (stampedCRow db c' pk cmap) := by
          rw [IHstab c'.id (fun d hd => Nat.ne_of_gt (hhead d hd))]
          exact hcid
        refine ⟨stampedCRow db c' pk cmap, hrow, stampedCRow_post db c' pk cmap,
          stampedCRow_an db c' pk cmap, stampedCRow_ae db c' pk cmap,
          stampedCRow_ct db c' pk cmap, stampedCRow_st db c' pk cmap, ?_, ?_⟩
        · intro hcond
          have hK : ∃ e ∈ cmap, e.1 = c'.parent := by
            rcases hcond.2 with hK | ⟨d, hd, hdid, hlt⟩
            · exact hK
            · rcases List.mem_cons.mp hd with rfl | hd'
              · exact absurd (hdid ▸ hlt) (Nat.lt_irrefl _)
              · exact absurd (hdid ▸ hhead d hd') (Nat.lt_asymm hlt)
          obtain ⟨e0, hf, he0mem, he0key⟩ := find?_key_of_exists hK
          have hpar : (stampedCRow db c' pk cmap).parent = some e0.2.pk := by
            rw [stampedCRow_parent]
            exact resolveParent_found c' cmap e0 hcond.1 hf
          obtain ⟨r, hrdb, hpkeq⟩ := hmap e0 he0mem
          have hlt : c'.parent < c'.id := he0key ▸ hlow e0 he0mem c' (List.mem_cons_self c' rest)
          have hrdb' : rowIn db.comments c'.parent = some r := he0key ▸ hrdb
          have hr2 : rowIn DB2.comments c'.parent = some r := by
            rw [show DB2.comments = db.comments ++ [stampedCRow db c' pk cmap] from rfl,
              rowIn_append, hrdb']
          have hrF : rowIn (importComments rest DB2 pk
              ((c'.id, newCRow db c' pk cmap) :: cmap) (n + 1)).1.comments c'.parent =
              some r := by
            rw [IHstab c'.parent (fun d hd => Nat.ne_of_gt (Nat.lt_trans hlt (hhead d hd)))]
            exact hr2
          exact ⟨r, hrF, by rw [hpar, hpkeq]⟩
        · intro hneg
          rw [stampedCRow_parent]
          by_cases hz : c'.parent = 0
          · exact resolveParent_zero c' cmap hz
          · refine resolveParent_notfound c' cmap (find?_key_none ?_)
            intro ⟨e, he, hek⟩
            exact hneg ⟨hz, Or.inl ⟨e, he, hek⟩⟩
      · -- a comment of the tail: transport the IH conclusion
        obtain ⟨rc, hrow, hpost, han, hae, hct, hst, hposi, hnegi⟩ := IHall c' hc'
        have hiff : parentCond c' cmap (c :: rest) ↔
            parentCond c' ((c.id, newCRow db c pk cmap) :: cmap) rest := by
          unfold parentCond
          constructor
          · rintro ⟨hz, hK | ⟨d, hd, hdid, hlt⟩⟩
            · exact ⟨hz, Or.inl (by
                obtain ⟨e, he, hek⟩ := hK
                exact ⟨e, List.mem_cons_of_mem _ he, hek⟩)⟩
            · rcases List.mem_cons.mp hd with rfl | hd'
              · exact ⟨hz, Or.inl ⟨(d.id, newCRow db d pk cmap),
                  List.mem_cons_self _ _, hdid⟩⟩
              · exact ⟨hz, Or.inr ⟨d, hd', hdid, hlt⟩⟩
          · rintro ⟨hz, hK | ⟨d, hd, hdid, hlt⟩⟩
            · obtain ⟨e, he, hek⟩ := hK
              rcases List.mem_cons.mp he with rfl | he'
              · refine ⟨hz, Or.inr ⟨c, List.mem_cons_self c rest, hek, ?_⟩⟩
                rw [← hek]
                exact hhead c' hc'
              · exact ⟨hz, Or.inl ⟨e, he', hek⟩⟩
            · exact ⟨hz, Or.inr ⟨d, List.mem_cons_of_mem c hd, hdid, hlt⟩⟩
        exact ⟨rc, hrow, hpost, han, hae, hct, hst,
          fun h => hposi (hiff.mp h), fun h => hnegi (fun h' => h (hiff.mpr h'))⟩

theorem sortComments_perm (l : List WPComment) : List.Perm (sortComments l) l :=
  List.perm_insertionSort commentLE l

theorem sortComments_pairwise_lt (l : List WPComment)
    (h : (l.map (fun c => c.id)).Nodup) :
    List.Pairwise (fun a b => a.id < b.id) (sortComments l) := by
  have hsorted : List.Pairwise commentLE (sortComments l) :=
    List.sorted_insertionSort commentLE l
  have hnd : ((sortComments l).map (fun c => c.id)).Nodup :=
    (((sortComments_perm l).map (fun c => c.id)).nodup_iff).mpr h
  have hne : List.Pairwise (fun a b : WPComment => a.id ≠ b.id) (sortComments l) :=
    List.pairwise_map.mp hnd
  exact (hsorted.and hne).imp (fun h => Nat.lt_of_le_of_ne h.1 h.2)

/-- C3, amended: for a comment list with pairwise-distinct positive
source ids, fresh with respect to the store: a comment whose declared
parent id belongs to a sibling with a strictly smaller id is linked to
that sibling's imported row; in every other case it is imported as a
root comment; and the result does not depend on the input ordering of
the list. -/
theorem claim_C3_amended : ∀ (l : List WPComment) (db : DB) (pk n : Nat),
    (l.map (fun c => c.id)).Nodup →
    (∀ c ∈ l, 1 ≤ c.id) →
    (∀ c ∈ l, rowIn db.comments c.id = none) →
    (∀ r ∈ db.comments, r.pk < db.nextPk) →
    (∀ c ∈ l, (∃ d ∈ l, d.id = c.parent ∧ d.id < c.id) →
      ∃ rc rp,
        rowIn (importComments (sortComments l) db pk [] n).1.comments c.id = some rc ∧
        rowIn (importComments (sortComments l) db pk [] n).1.comments c.parent = some rp ∧
        rc.parent = some rp.pk) ∧
    (∀ c ∈ l, ¬ (∃ d ∈ l, d.id = c.parent ∧ d.id < c.id) →
      ∃ rc,
        rowIn (importComments (sortComments l) db pk [] n).1.comments c.id = some rc ∧
        rc.parent = none) ∧
    (∀ l' : List WPComment, List.Perm l' l →
      importComments (sortComments l') db pk [] n =
        importComments (sortComments l) db pk [] n) := by
  intro l db pk n hnd hpos hfresh hpk
  have hperm := sortComments_perm l
  have hpw := sortComments_pairwise_lt l hnd
  have hfresh' : ∀ c ∈ sortComments l, rowIn db.comments c.id = none :=
    fun c hc => hfresh c (hperm.mem_iff.mp hc)
  obtain ⟨_, _, hall⟩ := importComments_run (sortComments l) db [] n pk hpw hfresh' hpk
    (fun e he => absurd he (List.not_mem_nil e))
    (fun e he => absurd he (List.not_mem_nil e))
  have hcondiff : ∀ c ∈ l, (parentCond c [] (sortComments l) ↔
      ∃ d ∈ l, d.id = c.parent ∧ d.id < c.id) := by
    intro c _
    unfold parentCond
    constructor
    · rintro ⟨hz, he | ⟨d, hd, hdid, hlt⟩⟩
      · obtain ⟨e, he, _⟩ := he
        exact absurd he (List.not_mem_nil e)
      · exact ⟨d, hperm.mem_iff.mp hd, hdid, hdid ▸ hlt⟩
    · rintro ⟨d, hd, hdid, hlt⟩
      refine ⟨?_, Or.inr ⟨d, hperm.mem_iff.mpr hd, hdid, hdid ▸ hlt⟩⟩
      intro h0
      have := hpos d hd
      rw [hdid, h0] at this
      exact absurd this (by decide)
  refine ⟨?_, ?_, ?_⟩
  · intro c hc hcond
    obtain ⟨rc, hrow, _, _, _, _, _, hposi, _⟩ := hall c (hperm.mem_iff.mpr hc)
    obtain ⟨rp, hrp, hpar⟩ := hposi ((hcondiff c hc).mpr hcond)
    exact ⟨rc, rp, hrow, hrp, hpar⟩
  · intro c hc hcond
    obtain ⟨rc, hrow, _, _, _, _, _, _, hnegi⟩ := hall c (hperm.mem_iff.mpr hc)
    exact ⟨rc, hrow, hnegi (fun h => hcond ((hcondiff c hc).mp h))⟩
  · intro l' hl'
    have : sortComments l' = sortComments l := by
      haveI : IsAntisymm WPComment (fun a b => a.id < b.id) :=
        ⟨fun a b h1 h2 => absurd h2 (Nat.lt_asymm h1)⟩
      have hnd' : (l'.map (fun c => c.id)).Nodup := ((hl'.map (fun c => c.id)).nodup_iff).mpr hnd
      exact List.eq_of_perm_of_sorted
        (((sortComments_perm l').trans hl').trans (sortComments_perm l).symm)
        (sortComments_pairwise_lt l' hnd') (sortComments_pairwise_lt l hnd)
    rw [this]

/-- C3, counterexample: with a duplicated source id 10 whose declared
parent is also 10, the claim (`P = C.source_id` → root) fails — the
second occurrence finds id 10 in the `comment_map` and the stored
comment 10 becomes its own parent instead of a root comment. -/
theorem claim_C3_counterexample :
    (importComments (sortComments dupComments) dbEmpty 99 [] 0).1.comments.map
      (fun r => (r.wp_comment_id, r.pk, r.parent)) = [(some 10, 1, some 1)] := by
  decide

/-- Witness for C3 at a concrete thread (given out of order): the reply
11 is linked to comment 10's row. -/
theorem claim_C3_witness :
    ∃ rc rp,
      rowIn (importComments (sortComments thrComments) dbEmpty 99 [] 0).1.comments 11 =
        some rc ∧
      rowIn (importComments (sortComments thrComments) dbEmpty 99 [] 0).1.comments 10 =
        some rp ∧
      rc.parent = some rp.pk :=
  (claim_C3_amended thrComments dbEmpty 99 0 (by decide) (by decide) (by decide)
    (by decide)).1 ⟨11, 10, "b", "", "y", "approved", none⟩ (by decide) (by decide)

/-! ## Generic lookup lemmas and store-operation characterizations -/

theorem find?_append_some {α : Type} {p : α → Bool} {l1 : List α} (l2 : List α) {x : α}
    (h : l1.find? p = some x) : (l1 ++ l2).find? p = some x := by
  induction l1 with
  | nil => simp [List.find?] at h
  | cons a l ih =>
    rw [List.cons_append]
    cases ha : p a with
    | true =>
      simp only [List.find?, ha] at h ⊢
      exact h
    | false =>
      simp only [List.find?, ha] at h ⊢
      exact ih h

theorem find?_append_none {α : Type} {p : α → Bool} {l1 : List α} (l2 : List α)
    (h : l1.find? p = none) : (l1 ++ l2).find? p = l2.find? p := by
  induction l1 with
  | nil => rfl
  | cons a l ih =>
    rw [List.cons_append]
    cases ha : p a with
    | true => simp [List.find?, ha] at h
    | false =>
      simp only [List.find?, ha] at h ⊢
      exact ih h

theorem eraseUpd_pk (p : DPost) : (eraseUpd p).pk = p.pk := rfl

/-- Replacing a row by an equal row (up to pk-matching) is the identity. -/
theorem map_replace_id {α : Type} (pkf : α → Nat) (L : List α) (y : α)
    (h : ∀ d ∈ L, pkf d = pkf y → d = y) :
    L.map (fun d => if pkf d == pkf y then y else d) = L := by
  induction L with
  | nil => rfl
  | cons a L ih =>
    simp only [List.map_cons]
    rw [ih (fun d hd => h d (List.mem_cons_of_mem a hd))]
    by_cases ha : pkf a = pkf y
    · rw [if_pos (by simpa using ha), h a (List.mem_cons_self a L) ha]
    · rw [if_neg (by simpa using ha)]

/-- Replacing a post row by one equal up to `updated_at` preserves the
store up to `updated_at`. -/
theorem map_replace_eraseUpd (L : List DPost) (x y : DPost)
    (hpk : y.pk = x.pk) (hy : eraseUpd y = eraseUpd x)
    (h : ∀ d ∈ L, d.pk = y.pk → eraseUpd d = eraseUpd x) :
    (L.map (fun d => if d.pk == y.pk then y else d)).map eraseUpd = L.map eraseUpd := by
  induction L with
  | nil => rfl
  | cons a L ih =>
    simp only [List.map_cons]
    rw [ih (fun d hd => h d (List.mem_cons_of_mem a hd))]
    by_cases ha : a.pk = y.pk
    · rw [if_pos (by simpa using ha), hy, ← h a (List.mem_cons_self a L) ha]
    · rw [if_neg (by simpa using ha)]

theorem getOrCreateUser_found (db : DB) (un e f l : String) (u : DUser)
    (h : findUser db un = some u) : getOrCreateUser db un e f l = (db, u, false) := by
  unfold getOrCreateUser
  rw [h]

theorem getOrCreateUser_new (db : DB) (un e f l : String)
    (h : findUser db un = none) :
    getOrCreateUser db un e f l =
      ({ db with
          users := db.users ++ [⟨db.nextPk, un, e, f, l⟩]
          nextPk := db.nextPk + 1 }, ⟨db.nextPk, un, e, f, l⟩, true) := by
  unfold getOrCreateUser
  rw [h]

theorem getOrCreateTag_found (db : DB) (s n : String) (w : Option Nat) (t : DTag)
    (h : tagIn db.tags s = some t) : getOrCreateTag db s n w = (db, t, false) := by
  unfold getOrCreateTag
  rw [show db.tags.find? (fun t => t.slug == s) = some t from h]

theorem getOrCreateTag_new (db : DB) (s n : String) (w : Option Nat)
    (h : tagIn db.tags s = none) :
    getOrCreateTag db s n w =
      ({ db with
          tags := db.tags ++ [⟨db.nextPk, n, if s = "" then slugify n else s, w⟩]
          nextPk := db.nextPk + 1 },
       (⟨db.nextPk, n, if s = "" then slugify n else s, w⟩ : DTag), true) := by
  unfold getOrCreateTag
  rw [show db.tags.find? (fun t => t.slug == s) = none from h]

/-- `Post.save` when the slug is nonempty and no publish-stamping fires. -/
theorem postSave_tame (render : String → String) (db : DB) (p : DPost) (isNew : Bool)
    (hs : ¬ p.slug = "")
    (hp : ¬ (p.status = PStatus.published ∧ p.published_at = none)) :
    postSave render db p isNew =
      (if isNew then
        { db with
            posts := db.posts ++
              [{ p with
                  content_html := render p.content_md
                  updated_at := db.clock
                  created_at := db.clock }]
            clock := db.clock + 1 }
       else
        { db with
            posts := db.posts.map (fun q =>
              if q.pk == p.pk then
                { p with
                  content_html := render p.content_md
                  updated_at := db.clock }
              else q)
            clock := db.clock + 1 },
       if isNew then
        { p with
            content_html := render p.content_md
            updated_at := db.clock
            created_at := db.clock }
       else
        { p with
            content_html := render p.content_md
            updated_at := db.clock }) := by
  simp only [postSave]
  rw [if_neg hs, if_neg hp]
  cases isNew with
  | true => simp
  | false => simp

theorem commentUpdateOrCreate_update (db : DB) (w : Nat) (f : CommentFields)
    (C : DComment) (h : rowIn db.comments w = some C) :
    commentUpdateOrCreate db w f =
      ({ db with comments := db.comments.map (fun d =>
          if d.pk == C.pk then
            { C with
                post := f.post
                parent := f.parent
                author_name := f.author_name
                author_email := f.author_email
                content := f.content
                status := f.status }
          else d) },
       { C with
          post := f.post
          parent := f.parent
          author_name := f.author_name
          author_email := f.author_email
          content := f.content
          status := f.status },
       false) := by
  unfold commentUpdateOrCreate
  rw [show db.comments.find? (fun c => c.wp_comment_id == some w) = some C from h]

/-! ## The author phase: characterization and idempotence -/

theorem getOrCreateUser_newA (db : DB) (a : WPAuthor) (h : findUser db a.login = none) :
    getOrCreateUser db a.login a.email (mkFirstName a) (mkLastName a) =
      ({ db with
          users := db.users ++ [mkUser db a]
          nextPk := db.nextPk + 1 }, mkUser db a, true) := by
  unfold getOrCreateUser mkUser
  rw [h]

theorem mkUser_username (db : DB) (a : WPAuthor) : (mkUser db a).username = a.login := rfl

theorem importAuthors_frame : ∀ (l : List WPAuthor) (db : DB) (m : List (String × DUser)),
    (∃ ext, (importAuthors l db m).1.users = db.users ++ ext) ∧
    (importAuthors l db m).1.tags = db.tags ∧
    (importAuthors l db m).1.posts = db.posts ∧
    (importAuthors l db m).1.comments = db.comments ∧
    (importAuthors l db m).1.postTags = db.postTags ∧
    (importAuthors l db m).1.images = db.images ∧
    (importAuthors l db m).1.clock = db.clock ∧
    db.nextPk ≤ (importAuthors l db m).1.nextPk := by
  intro l
  induction l with
  | nil =>
    intro db m
    exact ⟨⟨[], by simp [importAuthors]⟩, rfl, rfl, rfl, rfl, rfl, rfl, Nat.le_refl _⟩
  | cons a rest ih =>
    intro db m
    simp only [importAuthors]
    cases hf : findUser db a.login with
    | some u =>
      rw [getOrCreateUser_found db a.login a.email _ _ u hf]
      exact ih db _
    | none =>
      rw [getOrCreateUser_newA db a hf]
      obtain ⟨⟨ext, hu⟩, ht, hp, hc, hpt, hi, hcl, hn⟩ := ih
        { db with
            users := db.users ++ [mkUser db a]
            nextPk := db.nextPk + 1 }
        ((a.login, mkUser db a) :: m)
      refine ⟨⟨[mkUser db a] ++ ext, ?_⟩, ht, hp, hc, hpt, hi, hcl,
        Nat.le_trans (Nat.le_succ _) hn⟩
      rw [hu]
      show (db.users ++ [mkUser db a]) ++ ext = _
      rw [List.append_assoc]

theorem importAuthors_idem : ∀ (l : List WPAuthor) (db : DB) (m : List (String × DUser))
    (db1 : DB) (m1 : List (String × DUser)),
    importAuthors l db m = (db1, m1) →
    ∀ db' : DB, db'.users = db1.users → importAuthors l db' m = (db', m1) := by
  intro l
  induction l with
  | nil =>
    intro db m db1 m1 h db' hu
    simp only [importAuthors] at h ⊢
    have h2 : m = m1 := congrArg Prod.snd h
    rw [h2]
  | cons a rest ih =>
    intro db m db1 m1 h db' hu
    simp only [importAuthors] at h ⊢
    cases hf : findUser db a.login with
    | some u =>
      rw [getOrCreateUser_found db a.login a.email _ _ u hf] at h
      obtain ⟨⟨ext, hext⟩, -⟩ := importAuthors_frame rest db ((a.login, u) :: m)
      rw [h] at hext
      have hf' : findUser db' a.login = some u := by
        unfold findUser at hf ⊢
        rw [hu, hext]
        exact find?_append_some ext hf
      rw [getOrCreateUser_found db' a.login a.email _ _ u hf']
      exact ih db ((a.login, u) :: m) db1 m1 h db' hu
    | none =>
      rw [getOrCreateUser_newA db a hf] at h
      obtain ⟨⟨ext, hext⟩, -⟩ := importAuthors_frame rest
        { db with
            users := db.users ++ [mkUser db a]
            nextPk := db.nextPk + 1 }
        ((a.login, mkUser db a) :: m)
      rw [h] at hext
      have hf' : findUser db' a.login = some (mkUser db a) := by
        unfold findUser at hf ⊢
        rw [hu, hext]
        show ((db.users ++ [mkUser db a]) ++ ext).find? _ = _
        rw [List.append_assoc, find?_append_none _ hf]
        simp [List.find?, mkUser]
      rw [getOrCreateUser_found db' a.login a.email _ _ _ hf']
      exact ih _ _ db1 m1 h db' hu

theorem findUser_some {db : DB} {k : String} {u : DUser} (h : findUser db k = some u) :
    u ∈ db.users ∧ u.username = k := by
  refine ⟨List.mem_of_find?_eq_some h, ?_⟩
  have := List.find?_some h
  simpa using this

theorem importAuthors_char : ∀ (l : List WPAuthor) (db : DB) (m : List (String × DUser)),
    (∀ a ∈ l, ∃ u, alGetU (importAuthors l db m).2 a.login = some u ∧
       u.username = a.login ∧ u ∈ (importAuthors l db m).1.users) ∧
    (∀ k, alGetU (importAuthors l db m).2 k = alGetU m k ∨ ∃ a ∈ l, a.login = k) ∧
    ((db.users.map (fun u => u.username)).Nodup →
      ((importAuthors l db m).1.users.map (fun u => u.username)).Nodup) := by
  intro l
  induction l with
  | nil =>
    intro db m
    exact ⟨fun a ha => absurd ha (List.not_mem_nil a),
      fun k => Or.inl rfl, fun h => h⟩
  | cons a rest ih =>
    intro db m
    simp only [importAuthors]
    cases hf : findUser db a.login with
    | some u =>
      rw [getOrCreateUser_found db a.login a.email _ _ u hf]
      dsimp only
      obtain ⟨ih1, ih2, ih3⟩ := ih db ((a.login, u) :: m)
      refine ⟨?_, ?_, ih3⟩
      · intro a' ha'
        rcases List.mem_cons.mp ha' with rfl | ha'
        · rcases ih2 a'.login with heq | ⟨a2, ha2, hlog⟩
          · refine ⟨u, ?_, (findUser_some hf).2, ?_⟩
            · rw [heq]
              simp [alGetU]
            · obtain ⟨⟨ext, hext⟩, -⟩ := importAuthors_frame rest db ((a'.login, u) :: m)
              rw [hext]
              exact List.mem_append_left _ (findUser_some hf).1
          · obtain ⟨u2, h1, h2, h3⟩ := ih1 a2 ha2
            exact ⟨u2, hlog ▸ h1, hlog ▸ h2, h3⟩
        · exact ih1 a' ha'
      · intro k
        rcases ih2 k with heq | ⟨a2, ha2, hlog⟩
        · by_cases hk : a.login = k
          · exact Or.inr ⟨a, List.mem_cons_self a rest, hk⟩
          · refine Or.inl ?_
            rw [heq]
            simp [alGetU, hk]
        · exact Or.inr ⟨a2, List.mem_cons_of_mem a ha2, hlog⟩
    | none =>
      rw [getOrCreateUser_newA db a hf]
      dsimp only
      set db2 : DB :=
        { db with
            users := db.users ++ [mkUser db a]
            nextPk := db.nextPk + 1 } with hdb2
      obtain ⟨ih1, ih2, ih3⟩ := ih db2 ((a.login, mkUser db a) :: m)
      refine ⟨?_, ?_, ?_⟩
      · intro a' ha'
        rcases List.mem_cons.mp ha' with rfl | ha'
        · rcases ih2 a'.login with heq | ⟨a2, ha2, hlog⟩
          · refine ⟨mkUser db a', ?_, mkUser_username db a', ?_⟩
            · rw [heq]
              simp [alGetU]
            · obtain ⟨⟨ext, hext⟩, -⟩ := importAuthors_frame rest db2 ((a'.login, mkUser db a') :: m)
              rw [hext]
              exact List.mem_append_left _ (List.mem_append_right _ (List.mem_singleton.mpr rfl))
          · obtain ⟨u2, h1, h2, h3⟩ := ih1 a2 ha2
            exact ⟨u2, hlog ▸ h1, hlog ▸ h2, h3⟩
        · exact ih1 a' ha'
      · intro k
        rcases ih2 k with heq | ⟨a2, ha2, hlog⟩
        · by_cases hk : a.login = k
          · exact Or.inr ⟨a, List.mem_cons_self a rest, hk⟩
          · refine Or.inl ?_
            rw [heq]
            simp [alGetU, hk]
        · exact Or.inr ⟨a2, List.mem_cons_of_mem a ha2, hlog⟩
      · intro hnd
        refine ih3 ?_
        show ((db.users ++ [mkUser db a]).map (fun u => u.username)).Nodup
        rw [List.map_append]
        refine List.Nodup.append hnd (by simp) ?_
        intro x hx hx2
        rcases List.mem_map.mp hx with ⟨u', hu', rfl⟩
        have hne : ¬ (u'.username == a.login) = true :=
          List.find?_eq_none.mp hf u' hu'
        rcases List.mem_map.mp hx2 with ⟨u2, hu2, hx2e⟩
        rcases List.mem_singleton.mp hu2
        exact hne (by simp [← hx2e, mkUser])

theorem iteTrueBool {α : Type} (a b : α) : (if true = true then a else b) = a := rfl

theorem iteFalseBool {α : Type} (a b : α) : (if false = true then a else b) = b := rfl

theorem getOrCreateTag_newT (db : DB) (t : WPTag) (h : tagIn db.tags t.slug = none)
    (hs : t.slug ≠ "") :
    getOrCreateTag db t.slug t.name (some t.term_id) =
      ({ db with
          tags := db.tags ++ [mkTag db t]
          nextPk := db.nextPk + 1 }, mkTag db t, true) := by
  unfold getOrCreateTag mkTag
  rw [show db.tags.find? (fun x => x.slug == t.slug) = none from h]
  rw [if_neg hs]

theorem importTags_frame : ∀ (l : List WPTag) (db : DB) (m : List (String × DTag)) (n : Nat),
    (∃ ext, (importTags l db m n).1.tags = db.tags ++ ext) ∧
    (importTags l db m n).1.users = db.users ∧
    (importTags l db m n).1.posts = db.posts ∧
    (importTags l db m n).1.comments = db.comments ∧
    (importTags l db m n).1.postTags = db.postTags ∧
    (importTags l db m n).1.images = db.images ∧
    (importTags l db m n).1.clock = db.clock ∧
    db.nextPk ≤ (importTags l db m n).1.nextPk := by
  intro l
  induction l with
  | nil =>
    intro db m n
    exact ⟨⟨[], by simp [importTags]⟩, rfl, rfl, rfl, rfl, rfl, rfl, Nat.le_refl _⟩
  | cons t rest ih =>
    intro db m n
    simp only [importTags]
    cases hf : tagIn db.tags t.slug with
    | some tg =>
      rw [getOrCreateTag_found db t.slug t.name _ tg hf]
      dsimp only
      rw [iteFalseBool]
      exact ih db _ _
    | none =>
      cases hs : decide (t.slug = "") with
      | true =>
        have hs' : t.slug = "" := of_decide_eq_true hs
        rw [getOrCreateTag_new db t.slug t.name (some t.term_id) hf]
        dsimp only
        rw [iteTrueBool]
        obtain ⟨⟨ext, hu⟩, h2, h3, h4, h5, h6, h7, h8⟩ := ih
          { db with
              tags := db.tags ++ [⟨db.nextPk, t.name, if t.slug = "" then slugify t.name else t.slug, some t.term_id⟩]
              nextPk := db.nextPk + 1 } _ _
        refine ⟨⟨[(⟨db.nextPk, t.name, if t.slug = "" then slugify t.name else t.slug, some t.term_id⟩ : DTag)] ++ ext, ?_⟩, h2, h3, h4, h5, h6, h7,
          Nat.le_trans (Nat.le_succ _) h8⟩
        rw [hu]
        show (db.tags ++ [_]) ++ ext = _
        rw [List.append_assoc]
      | false =>
        have hs' : t.slug ≠ "" := of_decide_eq_false hs
        rw [getOrCreateTag_newT db t hf hs']
        dsimp only
        rw [iteTrueBool]
        obtain ⟨⟨ext, hu⟩, h2, h3, h4, h5, h6, h7, h8⟩ := ih
          { db with
              tags := db.tags ++ [mkTag db t]
              nextPk := db.nextPk + 1 } _ _
        refine ⟨⟨[mkTag db t] ++ ext, ?_⟩, h2, h3, h4, h5, h6, h7,
          Nat.le_trans (Nat.le_succ _) h8⟩
        rw [hu]
        show (db.tags ++ [mkTag db t]) ++ ext = _
        rw [List.append_assoc]

theorem importTags_idem : ∀ (l : List WPTag) (db : DB) (m : List (String × DTag)) (n : Nat)
    (db1 : DB) (m1 : List (String × DTag)) (n1 : Nat),
    importTags l db m n = (db1, m1, n1) →
    (∀ t ∈ l, t.slug ≠ "") →
    ∀ (db' : DB) (n' : Nat), db'.tags = db1.tags → importTags l db' m n' = (db', m1, n') := by
  intro l
  induction l with
  | nil =>
    intro db m n db1 m1 n1 h hs db' n' ht
    simp only [importTags] at h ⊢
    have h2 : m = m1 := congrArg (fun x => x.2.1) h
    rw [h2]
  | cons t rest ih =>
    intro db m n db1 m1 n1 h hs db' n' ht
    have hst : t.slug ≠ "" := hs t (List.mem_cons_self t rest)
    simp only [importTags] at h ⊢
    cases hf : tagIn db.tags t.slug with
    | some tg =>
      rw [getOrCreateTag_found db t.slug t.name _ tg hf] at h
      dsimp only at h
      rw [iteFalseBool] at h
      obtain ⟨⟨ext, hext⟩, -⟩ := importTags_frame rest db ((t.slug, tg) :: m) n
      rw [h] at hext
      have hf' : tagIn db'.tags t.slug = some tg := by
        unfold tagIn at hf ⊢
        rw [ht, hext]
        exact find?_append_some ext hf
      rw [getOrCreateTag_found db' t.slug t.name _ tg hf']
      dsimp only
      rw [iteFalseBool]
      exact ih db _ _ db1 m1 n1 h (fun x hx => hs x (List.mem_cons_of_mem t hx)) db' n' ht
    | none =>
      rw [getOrCreateTag_newT db t hf hst] at h
      dsimp only at h
      rw [iteTrueBool] at h
      obtain ⟨⟨ext, hext⟩, -⟩ := importTags_frame rest
        { db with
            tags := db.tags ++ [mkTag db t]
            nextPk := db.nextPk + 1 } ((t.slug, mkTag db t) :: m) (n + 1)
      rw [h] at hext
      have hf' : tagIn db'.tags t.slug = some (mkTag db t) := by
        unfold tagIn at hf ⊢
        rw [ht, hext]
        show ((db.tags ++ [mkTag db t]) ++ ext).find? _ = _
        rw [List.append_assoc, find?_append_none _ hf]
        simp [List.find?, mkTag]
      rw [getOrCreateTag_found db' t.slug t.name _ _ hf']
      dsimp only
      rw [iteFalseBool]
      exact ih _ _ _ db1 m1 n1 h (fun x hx => hs x (List.mem_cons_of_mem t hx)) db' n' ht

theorem findTag_some {db : DB} {k : String} {tg : DTag} (h : tagIn db.tags k = some tg) :
    tg ∈ db.tags ∧ tg.slug = k := by
  refine ⟨List.mem_of_find?_eq_some h, ?_⟩
  have := List.find?_some h
  simpa using this

theorem importTags_char : ∀ (l : List WPTag) (db : DB) (m : List (String × DTag)) (n : Nat),
    (∀ t ∈ l, t.slug ≠ "") →
    (∀ t ∈ l, ∃ tg, alGetT (importTags l db m n).2.1 t.slug = some tg ∧
       tg.slug = t.slug ∧ tg ∈ (importTags l db m n).1.tags) ∧
    (∀ k, alGetT (importTags l db m n).2.1 k = alGetT m k ∨ ∃ t ∈ l, t.slug = k) ∧
    ((db.tags.map (fun t => t.slug)).Nodup →
      ((importTags l db m n).1.tags.map (fun t => t.slug)).Nodup) := by
  intro l
  induction l with
  | nil =>
    intro db m n _
    exact ⟨fun t ht => absurd ht (List.not_mem_nil t), fun k => Or.inl rfl, fun h => h⟩
  | cons t rest ih =>
    intro db m n hs
    have hst : t.slug ≠ "" := hs t (List.mem_cons_self t rest)
    have hsrest : ∀ x ∈ rest, x.slug ≠ "" := fun x hx => hs x (List.mem_cons_of_mem t hx)
    simp only [importTags]
    cases hf : tagIn db.tags t.slug with
    | some tg =>
      rw [getOrCreateTag_found db t.slug t.name _ tg hf]
      dsimp only
      rw [iteFalseBool]
      obtain ⟨ih1, ih2, ih3⟩ := ih db ((t.slug, tg) :: m) n hsrest
      refine ⟨?_, ?_, ih3⟩
      · intro t' ht'
        rcases List.mem_cons.mp ht' with rfl | ht'
        · rcases ih2 t'.slug with heq | ⟨t2, ht2, hsl⟩
          · refine ⟨tg, ?_, (findTag_some hf).2, ?_⟩
            · rw [heq]
              simp [alGetT]
            · obtain ⟨⟨ext, hext⟩, -⟩ := importTags_frame rest db ((t'.slug, tg) :: m) n
              rw [hext]
              exact List.mem_append_left _ (findTag_some hf).1
          · obtain ⟨tg2, h1, h2, h3⟩ := ih1 t2 ht2
            exact ⟨tg2, hsl ▸ h1, hsl ▸ h2, h3⟩
        · exact ih1 t' ht'
      · intro k
        rcases ih2 k with heq | ⟨t2, ht2, hsl⟩
        · by_cases hk : t.slug = k
          · exact Or.inr ⟨t, List.mem_cons_self t rest, hk⟩
          · refine Or.inl ?_
            rw [heq]
            simp [alGetT, hk]
        · exact Or.inr ⟨t2, List.mem_cons_of_mem t ht2, hsl⟩
    | none =>
      rw [getOrCreateTag_newT db t hf hst]
      dsimp only
      rw [iteTrueBool]
      set db2 : DB :=
        { db with
            tags := db.tags ++ [mkTag db t]
            nextPk := db.nextPk + 1 } with hdb2
      obtain ⟨ih1, ih2, ih3⟩ := ih db2 ((t.slug, mkTag db t) :: m) (n + 1) hsrest
      refine ⟨?_, ?_, ?_⟩
      · intro t' ht'
        rcases List.mem_cons.mp ht' with rfl | ht'
        · rcases ih2 t'.slug with heq | ⟨t2, ht2, hsl⟩
          · refine ⟨mkTag db t', ?_, rfl, ?_⟩
            · rw [heq]
              simp [alGetT]
            · obtain ⟨⟨ext, hext⟩, -⟩ := importTags_frame rest db2 ((t'.slug, mkTag db t') :: m) (n + 1)
              rw [hext]
              exact List.mem_append_left _ (List.mem_append_right _ (List.mem_singleton.mpr rfl))
          · obtain ⟨tg2, h1, h2, h3⟩ := ih1 t2 ht2
            exact ⟨tg2, hsl ▸ h1, hsl ▸ h2, h3⟩
        · exact ih1 t' ht'
      · intro k
        rcases ih2 k with heq | ⟨t2, ht2, hsl⟩
        · by_cases hk : t.slug = k
          · exact Or.inr ⟨t, List.mem_cons_self t rest, hk⟩
          · refine Or.inl ?_
            rw [heq]
            simp [alGetT, hk]
        · exact Or.inr ⟨t2, List.mem_cons_of_mem t ht2, hsl⟩
      · intro hnd
        refine ih3 ?_
        show ((db.tags ++ [mkTag db t]).map (fun x => x.slug)).Nodup
        rw [List.map_append]
        refine List.Nodup.append hnd (by simp) ?_
        intro x hx hx2
        rcases List.mem_map.mp hx with ⟨t', ht', rfl⟩
        have hne : ¬ (t'.slug == t.slug) = true :=
          List.find?_eq_none.mp hf t' ht'
        rcases List.mem_map.mp hx2 with ⟨t2, ht2, hx2e⟩
        rcases List.mem_singleton.mp ht2
        exact hne (by simp [← hx2e, mkTag])

/-- Witness for C4: `publish` maps to `published` on a concrete item, and
a concrete `trash` item is dropped without dropping its siblings. -/
theorem claim_C4_witness :
    (∃ p, parseXItem itPub = some p ∧ p.id = itPub.post_id ∧ p.status = "published") ∧
    parse_posts [itPub, itTrash, itPub] = parse_posts [itPub, itPub] := by
  constructor
  · exact (claim_C4.1 itPub rfl).1 rfl
  · exact claim_C4.2 [itPub] [itPub] itTrash
      ((claim_C4.1 itTrash rfl).2.2.2 (by decide) (by decide) (by decide))

/-! ## Comment-phase frame, pk and rerun lemmas (towards C1) -/

theorem parentCond_shift (c c' : WPComment) (rest : List WPComment)
    (cmap : List (Nat × DComment)) (x : DComment)
    (hhead : ∀ d ∈ rest, c.id < d.id) (hc' : c' ∈ rest) :
    parentCond c' cmap (c :: rest) ↔ parentCond c' ((c.id, x) :: cmap) rest := by
  unfold parentCond
  constructor
  · rintro ⟨hz, hK | ⟨d, hd, hdid, hlt⟩⟩
    · exact ⟨hz, Or.inl (by
        obtain ⟨e, he, hek⟩ := hK
        exact ⟨e, List.mem_cons_of_mem _ he, hek⟩)⟩
    · rcases List.mem_cons.mp hd with rfl | hd'
      · exact ⟨hz, Or.inl ⟨(d.id, x), List.mem_cons_self _ _, hdid⟩⟩
      · exact ⟨hz, Or.inr ⟨d, hd', hdid, hlt⟩⟩
  · rintro ⟨hz, hK | ⟨d, hd, hdid, hlt⟩⟩
    · obtain ⟨e, he, hek⟩ := hK
      rcases List.mem_cons.mp he with rfl | he'
      · refine ⟨hz, Or.inr ⟨c, List.mem_cons_self c rest, hek, ?_⟩⟩
        rw [← hek]
        exact hhead c' hc'
      · exact ⟨hz, Or.inl ⟨e, he', hek⟩⟩
    · exact ⟨hz, Or.inr ⟨d, List.mem_cons_of_mem c hd, hdid, hlt⟩⟩

/-- At the head of a sorted comment list the sibling disjunct of
`parentCond` is impossible. -/
theorem parentCond_head (c : WPComment) (rest : List WPComment)
    (cmap : List (Nat × DComment)) (hhead : ∀ d ∈ rest, c.id < d.id) :
    parentCond c cmap (c :: rest) ↔ (c.parent ≠ 0 ∧ ∃ e ∈ cmap, e.1 = c.parent) := by
  unfold parentCond
  constructor
  · rintro ⟨hz, hK | ⟨d, hd, hdid, hlt⟩⟩
    · exact ⟨hz, hK⟩
    · rcases List.mem_cons.mp hd with rfl | hd'
      · exact absurd (hdid ▸ hlt) (Nat.lt_irrefl _)
      · exact absurd (hdid ▸ hhead d hd') (Nat.lt_asymm hlt)
  · rintro ⟨hz, hK⟩
    exact ⟨hz, Or.inl hK⟩

theorem commentUpdateOrCreate_frame (db : DB) (w : Nat) (f : CommentFields) :
    (commentUpdateOrCreate db w f).1.users = db.users ∧
    (commentUpdateOrCreate db w f).1.tags = db.tags ∧
    (commentUpdateOrCreate db w f).1.posts = db.posts ∧
    (commentUpdateOrCreate db w f).1.postTags = db.postTags ∧
    (commentUpdateOrCreate db w f).1.images = db.images ∧
    db.nextPk ≤ (commentUpdateOrCreate db w f).1.nextPk := by
  unfold commentUpdateOrCreate
  cases h : db.comments.find? (fun c => c.wp_comment_id == some w) with
  | some C => exact ⟨rfl, rfl, rfl, rfl, rfl, Nat.le_refl _⟩
  | none => exact ⟨rfl, rfl, rfl, rfl, rfl, Nat.le_succ _⟩

theorem commentStep_frame (db : DB) (c : WPComment) (pk : Nat)
    (cmap : List (Nat × DComment)) :
    (commentStep db c pk cmap).1.users = db.users ∧
    (commentStep db c pk cmap).1.tags = db.tags ∧
    (commentStep db c pk cmap).1.posts = db.posts ∧
    (commentStep db c pk cmap).1.postTags = db.postTags ∧
    (commentStep db c pk cmap).1.images = db.images ∧
    db.nextPk ≤ (commentStep db c pk cmap).1.nextPk := by
  obtain ⟨h1, h2, h3, h4, h5, h6⟩ := commentUpdateOrCreate_frame db c.id
    ⟨pk, resolveParent c cmap, c.author_name, c.author_email, c.content,
     commentStatusOf c.status⟩
  unfold commentStep
  dsimp only
  cases hb : (commentUpdateOrCreate db c.id
      ⟨pk, resolveParent c cmap, c.author_name, c.author_email, c.content,
       commentStatusOf c.status⟩).2.2 with
  | false => exact ⟨h1, h2, h3, h4, h5, h6⟩
  | true =>
    cases hca : c.created_at with
    | none => exact ⟨h1, h2, h3, h4, h5, h6⟩
    | some t => exact ⟨h1, h2, h3, h4, h5, h6⟩

theorem importComments_frame2 :
    ∀ (suf : List WPComment) (db : DB) (pk : Nat) (cmap : List (Nat × DComment)) (n : Nat),
    (importComments suf db pk cmap n).1.users = db.users ∧
    (importComments suf db pk cmap n).1.tags = db.tags ∧
    (importComments suf db pk cmap n).1.posts = db.posts ∧
    (importComments suf db pk cmap n).1.postTags = db.postTags ∧
    (importComments suf db pk cmap n).1.images = db.images ∧
    db.nextPk ≤ (importComments suf db pk cmap n).1.nextPk := by
  intro suf
  induction suf with
  | nil =>
    intro db pk cmap n
    exact ⟨rfl, rfl, rfl, rfl, rfl, Nat.le_refl _⟩
  | cons c rest ih =>
    intro db pk cmap n
    obtain ⟨s1, s2, s3, s4, s5, s6⟩ := commentStep_frame db c pk cmap
    obtain ⟨i1, i2, i3, i4, i5, i6⟩ := ih (commentStep db c pk cmap).1 pk
      ((c.id, (commentStep db c pk cmap).2.1) :: cmap)
      (if (commentStep db c pk cmap).2.2 then n + 1 else n)
    simp only [importComments]
    exact ⟨i1.trans s1, i2.trans s2, i3.trans s3, i4.trans s4, i5.trans s5,
      Nat.le_trans s6 i6⟩

theorem map_pk_pres {α : Type} (f : α → Nat) (g : α → α) (L : List α)
    (h : ∀ x ∈ L, f (g x) = f x) : (L.map g).map f = L.map f := by
  induction L with
  | nil => rfl
  | cons a l ih =>
    simp only [List.map_cons]
    rw [h a (List.mem_cons_self a l), ih (fun x hx => h x (List.mem_cons_of_mem a hx))]

theorem importComments_nodup :
    ∀ (suf : List WPComment) (db : DB) (cmap : List (Nat × DComment)) (n pk : Nat),
    List.Pairwise (fun a b => a.id < b.id) suf →
    (∀ c ∈ suf, rowIn db.comments c.id = none) →
    (∀ r ∈ db.comments, r.pk < db.nextPk) →
    (db.comments.map (fun r => r.pk)).Nodup →
    ((importComments suf db pk cmap n).1.comments.map (fun r => r.pk)).Nodup := by
  intro suf
  induction suf with
  | nil =>
    intro db cmap n pk _ _ _ hnd
    exact hnd
  | cons c rest ih =>
    intro db cmap n pk hpw hfresh hpk hnd
    obtain ⟨hhead, htail⟩ := List.pairwise_cons.mp hpw
    have hfc : rowIn db.comments c.id = none := hfresh c (List.mem_cons_self c rest)
    have hstep := commentStep_create db c pk cmap hfc hpk
    have hunfold : importComments (c :: rest) db pk cmap n =
        importComments rest
          { db with
              comments := db.comments ++ [stampedCRow db c pk cmap]
              nextPk := db.nextPk + 1
              clock := db.clock + 1 }
          pk ((c.id, newCRow db c pk cmap) :: cmap) (n + 1) := by
      simp [importComments, hstep]
    rw [hunfold]
    have hone : ∀ i : Nat, i ≠ c.id →
        rowIn (db.comments ++ [stampedCRow db c pk cmap]) i = rowIn db.comments i := by
      intro i hi
      rw [rowIn_append]
      have hs : rowIn [stampedCRow db c pk cmap] i = none := by
        rw [rowIn_cons, stampedCRow_wpid]
        have : (some c.id == some i) = false :=
          beq_eq_false_iff_ne.mpr (fun h => hi (Option.some.injEq _ _ ▸ h).symm)
        simp [this, rowIn_nil]
      cases hr : rowIn db.comments i <;> simp [hs]
    refine ih _ _ _ _ htail ?_ ?_ ?_
    · intro c' hc'
      have hne : c'.id ≠ c.id := Nat.ne_of_gt (hhead c' hc')
      show rowIn (db.comments ++ [stampedCRow db c pk cmap]) c'.id = none
      rw [hone c'.id hne]
      exact hfresh c' (List.mem_cons_of_mem c hc')
    · intro r hr
      rcases List.mem_append.mp hr with hr | hr
      · exact Nat.lt_succ_of_lt (hpk r hr)
      · rcases List.mem_singleton.mp hr with rfl
        rw [stampedCRow_pk]
        exact Nat.lt_succ_self _
    · show ((db.comments ++ [stampedCRow db c pk cmap]).map (fun r => r.pk)).Nodup
      rw [List.map_append]
      refine List.Nodup.append hnd (by simp) ?_
      intro x hx hx2
      rcases List.mem_map.mp hx with ⟨r, hr, rfl⟩
      rcases List.mem_map.mp hx2 with ⟨r2, hr2, hx2e⟩
      rcases List.mem_singleton.mp hr2
      rw [stampedCRow_pk] at hx2e
      exact Nat.ne_of_lt (hpk r hr) hx2e.symm

theorem postIn_append (l₁ l₂ : List DPost) (i : Nat) :
    postIn (l₁ ++ l₂) i =
      match postIn l₁ i with
      | some r => some r
      | none => postIn l₂ i := by
  induction l₁ with
  | nil => simp [postIn]
  | cons a l ih =>
    simp only [postIn, List.cons_append, List.find?] at ih ⊢
    cases h : (a.wp_post_id == some i) <;> simp [h, ih]

theorem find?_map_pres {α : Type} (g : α → α) (p : α → Bool) (L : List α)
    (h : ∀ x ∈ L, p (g x) = p x) : (L.map g).find? p = (L.find? p).map g := by
  induction L with
  | nil => rfl
  | cons a l ih =>
    simp only [List.map_cons, List.find?]
    rw [h a (List.mem_cons_self a l)]
    cases hp : p a with
    | true => rfl
    | false => exact ih (fun x hx => h x (List.mem_cons_of_mem a hx))

/-- Re-running the comment loop over comments whose rows are already
stored with exactly the incoming field values is a no-op on the store
and creates nothing. -/
theorem importComments_rerun :
    ∀ (suf : List WPComment) (db : DB) (cmap : List (Nat × DComment)) (n pk : Nat),
    List.Pairwise (fun a b => a.id < b.id) suf →
    (∀ d ∈ db.comments, ∀ d' ∈ db.comments, d.pk = d'.pk → d = d') →
    (∀ e ∈ cmap, ∃ r, rowIn db.comments e.1 = some r ∧ e.2.pk = r.pk) →
    (∀ c ∈ suf, ∃ rc, rowIn db.comments c.id = some rc ∧ rc.post = pk ∧
        rc.author_name = c.author_name ∧ rc.author_email = c.author_email ∧
        rc.content = c.content ∧ rc.status = commentStatusOf c.status ∧
        (parentCond c cmap suf →
          ∃ rp, rowIn db.comments c.parent = some rp ∧ rc.parent = some rp.pk) ∧
        (¬ parentCond c cmap suf → rc.parent = none)) →
    (importComments suf db pk cmap n).1 = db ∧
    (importComments suf db pk cmap n).2.2 = n := by
  intro suf
  induction suf with
  | nil =>
    intro db cmap n pk _ _ _ _
    exact ⟨rfl, rfl⟩
  | cons c rest ih =>
    intro db cmap n pk hpw hinj hmap hrows
    obtain ⟨hhead, htail⟩ := List.pairwise_cons.mp hpw
    obtain ⟨rc, hfound, hpost, han, hae, hct, hst, hcond, hncond⟩ :=
      hrows c (List.mem_cons_self c rest)
    have hres : resolveParent c cmap = rc.parent := by
      by_cases hpc : parentCond c cmap (c :: rest)
      · obtain ⟨hz, hK⟩ := (parentCond_head c rest cmap hhead).mp hpc
        obtain ⟨e0, hf, he0mem, he0key⟩ := find?_key_of_exists hK
        obtain ⟨r, hr, hpkeq⟩ := hmap e0 he0mem
        obtain ⟨rp, hrp, hparent⟩ := hcond hpc
        have hr' : rowIn db.comments c.parent = some r := he0key ▸ hr
        have hrrp : r = rp := by
          rw [hr'] at hrp
          exact Option.some.inj hrp
        rw [resolveParent_found c cmap e0 hz hf, hparent, hpkeq, hrrp]
      · rw [hncond hpc]
        by_cases hz : c.parent = 0
        · exact resolveParent_zero c cmap hz
        · refine resolveParent_notfound c cmap (find?_key_none ?_)
          intro ⟨e, he, hek⟩
          exact hpc ((parentCond_head c rest cmap hhead).mpr ⟨hz, e, he, hek⟩)
    have hupd := commentUpdateOrCreate_update db c.id
      ⟨pk, resolveParent c cmap, c.author_name, c.author_email, c.content,
       commentStatusOf c.status⟩ rc hfound
    dsimp only at hupd
    have hc1 : ({ rc with
        post := pk
        parent := resolveParent c cmap
        author_name := c.author_name
        author_email := c.author_email
        content := c.content
        status := commentStatusOf c.status } : DComment) = rc := by
      rw [hres, ← hpost, ← han, ← hae, ← hct, ← hst]
    rw [hc1] at hupd
    have hmapid : db.comments.map (fun d => if d.pk == rc.pk then rc else d) = db.comments := by
      have hrcmem : rc ∈ db.comments := List.mem_of_find?_eq_some hfound
      exact map_replace_id (fun d => d.pk) db.comments rc
        (fun d hd hdk => hinj d hd rc hrcmem hdk)
    have hstep : commentStep db c pk cmap = (db, rc, false) := by
      unfold commentStep
      rw [hupd]
      dsimp only
      rw [iteFalseBool, hmapid]
    have hunfold : importComments (c :: rest) db pk cmap n =
        importComments rest db pk ((c.id, rc) :: cmap) n := by
      simp [importComments, hstep]
    rw [hunfold]
    refine ih db ((c.id, rc) :: cmap) n pk htail hinj ?_ ?_
    · intro e he
      rcases List.mem_cons.mp he with rfl | he'
      · exact ⟨rc, hfound, rfl⟩
      · exact hmap e he'
    · intro c' hc'
      obtain ⟨rc', h1, h2, h3, h4, h5, h6, h7, h8⟩ := hrows c' (List.mem_cons_of_mem c hc')
      have hiff := parentCond_shift c c' rest cmap rc hhead hc'
      exact ⟨rc', h1, h2, h3, h4, h5, h6,
        fun h => h7 (hiff.mpr h), fun h => h8 (fun h' => h (hiff.mp h'))⟩

/-! ## Post-phase frame and step characterizations (towards C1) -/

theorem postSave_frame (render : String → String) (db : DB) (p : DPost) (isNew : Bool) :
    (postSave render db p isNew).1.users = db.users ∧
    (postSave render db p isNew).1.tags = db.tags ∧
    (postSave render db p isNew).1.comments = db.comments ∧
    (postSave render db p isNew).1.postTags = db.postTags ∧
    (postSave render db p isNew).1.images = db.images ∧
    (postSave render db p isNew).1.nextPk = db.nextPk := by
  unfold postSave
  cases isNew with
  | true => exact ⟨rfl, rfl, rfl, rfl, rfl, rfl⟩
  | false => exact ⟨rfl, rfl, rfl, rfl, rfl, rfl⟩

theorem postUpdateOrCreate_frame (render : String → String) (db : DB) (w : Nat)
    (f : PostFields) :
    (postUpdateOrCreate render db w f).1.users = db.users ∧
    (postUpdateOrCreate render db w f).1.tags = db.tags ∧
    (postUpdateOrCreate render db w f).1.comments = db.comments ∧
    (postUpdateOrCreate render db w f).1.images = db.images ∧
    db.nextPk ≤ (postUpdateOrCreate render db w f).1.nextPk := by
  unfold postUpdateOrCreate
  cases hf : db.posts.find? (fun q => q.wp_post_id == some w) with
  | some q =>
    dsimp only
    obtain ⟨h1, h2, h3, h4, h5, h6⟩ := postSave_frame render db
      { q with title := f.title, slug := f.slug, content_md := f.content_md,
               excerpt := f.excerpt, status := f.status, author := f.author,
               published_at := f.published_at } false
    exact ⟨h1, h2, h3, h5, Nat.le_of_eq h6.symm⟩
  | none =>
    dsimp only
    obtain ⟨h1, h2, h3, h4, h5, h6⟩ := postSave_frame render
      { db with nextPk := db.nextPk + 1 }
      { pk := db.nextPk, title := f.title, slug := f.slug,
        content_md := f.content_md, content_html := "",
        excerpt := f.excerpt, status := f.status, author := f.author,
        published_at := f.published_at, created_at := 0, updated_at := 0,
        wp_post_id := some w } true
    exact ⟨h1, h2, h3, h5, Nat.le_trans (Nat.le_succ _) (Nat.le_of_eq h6.symm)⟩

theorem addPostTag_frame (db : DB) (a b : Nat) :
    (addPostTag db a b).users = db.users ∧
    (addPostTag db a b).tags = db.tags ∧
    (addPostTag db a b).posts = db.posts ∧
    (addPostTag db a b).comments = db.comments ∧
    (addPostTag db a b).images = db.images ∧
    (addPostTag db a b).nextPk = db.nextPk := by
  unfold addPostTag
  by_cases hc : (a, b) ∈ db.postTags
  · rw [if_pos hc]
    exact ⟨rfl, rfl, rfl, rfl, rfl, rfl⟩
  · rw [if_neg hc]
    exact ⟨rfl, rfl, rfl, rfl, rfl, rfl⟩

theorem attachTags_frame (pk : Nat) (tm : List (String × DTag)) :
    ∀ (l : List (Option String)) (db : DB),
    (attachTags pk tm l db).users = db.users ∧
    (attachTags pk tm l db).tags = db.tags ∧
    (attachTags pk tm l db).posts = db.posts ∧
    (attachTags pk tm l db).comments = db.comments ∧
    (attachTags pk tm l db).images = db.images ∧
    (attachTags pk tm l db).nextPk = db.nextPk := by
  intro l
  induction l with
  | nil =>
    intro db
    exact ⟨rfl, rfl, rfl, rfl, rfl, rfl⟩
  | cons o rest ih =>
    intro db
    cases o with
    | none => exact ih db
    | some s =>
      simp only [attachTags]
      cases hget : alGetT tm s with
      | none => exact ih db
      | some tg =>
        obtain ⟨a1, a2, a3, a4, a5, a6⟩ := addPostTag_frame db pk tg.pk
        obtain ⟨i1, i2, i3, i4, i5, i6⟩ := ih (addPostTag db pk tg.pk)
        exact ⟨i1.trans a1, i2.trans a2, i3.trans a3, i4.trans a4, i5.trans a5,
          i6.trans a6⟩

theorem addPostTag_self (db : DB) (a b : Nat) : (a, b) ∈ (addPostTag db a b).postTags := by
  unfold addPostTag
  by_cases hc : (a, b) ∈ db.postTags
  · rw [if_pos hc]
    exact hc
  · rw [if_neg hc]
    exact List.mem_append_right _ (List.mem_singleton.mpr rfl)

theorem attachTags_pairs (pk : Nat) (tm : List (String × DTag)) :
    ∀ (l : List (Option String)) (db : DB) (s : String) (tg : DTag),
      some s ∈ l → alGetT tm s = some tg →
      (pk, tg.pk) ∈ (attachTags pk tm l db).postTags := by
  intro l
  induction l with
  | nil =>
    intro db s tg h _
    exact absurd h (List.not_mem_nil _)
  | cons o rest ih =>
    intro db s tg hmem hget
    rcases List.mem_cons.mp hmem with heq | hmem'
    · rw [← heq]
      show (pk, tg.pk) ∈ (match alGetT tm s with
        | some tg => attachTags pk tm rest (addPostTag db pk tg.pk)
        | none => attachTags pk tm rest db).postTags
      rw [hget]
      exact attachTags_mono pk tm rest _ _ (addPostTag_self db pk tg.pk)
    · cases o with
      | none => exact ih db s tg hmem' hget
      | some s' =>
        show (pk, tg.pk) ∈ (match alGetT tm s' with
          | some tg => attachTags pk tm rest (addPostTag db pk tg.pk)
          | none => attachTags pk tm rest db).postTags
        cases hget' : alGetT tm s' with
        | none => exact ih db s tg hmem' hget
        | some tg' => exact ih _ s tg hmem' hget

theorem attachTags_noop (pk : Nat) (tm : List (String × DTag)) :
    ∀ (l : List (Option String)) (db : DB),
      (∀ s tg, some s ∈ l → alGetT tm s = some tg → (pk, tg.pk) ∈ db.postTags) →
      attachTags pk tm l db = db := by
  intro l
  induction l with
  | nil =>
    intro db _
    rfl
  | cons o rest ih =>
    intro db h
    cases o with
    | none =>
      exact ih db (fun s tg hs => h s tg (List.mem_cons_of_mem none hs))
    | some s =>
      show (match alGetT tm s with
        | some tg => attachTags pk tm rest (addPostTag db pk tg.pk)
        | none => attachTags pk tm rest db) = db
      cases hget : alGetT tm s with
      | none => exact ih db (fun s' tg hs => h s' tg (List.mem_cons_of_mem _ hs))
      | some tg =>
        have hpair : (pk, tg.pk) ∈ db.postTags := h s tg (List.mem_cons_self _ _) hget
        have hadd : addPostTag db pk tg.pk = db := by
          unfold addPostTag
          rw [if_pos hpair]
        dsimp only
        rw [hadd]
        exact ih db (fun s' tg' hs => h s' tg' (List.mem_cons_of_mem _ hs))

theorem postStep_create (render : String → String) (db : DB) (p : WPPost)
    (am : List (String × DUser)) (tm : List (String × DTag)) (da : DUser)
    (hfresh : postIn db.posts p.id = none) (hslug : effSlug p ≠ "")
    (hpub : ¬ (postStatusOf p.status = PStatus.published ∧ p.published_at = none)) :
    postStep render db p am tm da =
      (attachTags db.nextPk tm p.tags
        { db with
            posts := db.posts ++ [newPRow render db p ((alGetU am p.author).getD da).pk]
            nextPk := db.nextPk + 1
            clock := db.clock + 1 },
       newPRow render db p ((alGetU am p.author).getD da).pk, true) := by
  unfold postStep postUpdateOrCreate
  rw [show db.posts.find? (fun q => q.wp_post_id == some p.id) = none from hfresh]
  dsimp only
  rw [postSave_tame render { db with nextPk := db.nextPk + 1 }
    { pk := db.nextPk, title := p.title, slug := effSlug p,
      content_md := html_to_markdown p.content, content_html := "",
      excerpt := p.excerpt, status := postStatusOf p.status,
      author := ((alGetU am p.author).getD da).pk,
      published_at := p.published_at, created_at := 0, updated_at := 0,
      wp_post_id := some p.id } true hslug hpub]
  rfl

theorem newPRow_pk (render : String → String) (db : DB) (p : WPPost) (apk : Nat) :
    (newPRow render db p apk).pk = db.nextPk := rfl

theorem newPRow_wpid (render : String → String) (db : DB) (p : WPPost) (apk : Nat) :
    (newPRow render db p apk).wp_post_id = some p.id := rfl

/-- The post loop on fresh export posts: frame on users/tags/images,
stability of unrelated rows, pk discipline, postTags monotonicity, and a
full per-post characterization (`postOk`). -/
theorem importPosts_run (render : String → String) (am : List (String × DUser))
    (tm : List (String × DTag)) (da : DUser) :
    ∀ (ps : List WPPost) (db : DB) (st : Stats),
    (ps.map (fun p => p.id)).Nodup →
    (ps.flatMap (fun p => p.comments.map (fun c => c.id))).Nodup →
    (∀ p ∈ ps, postIn db.posts p.id = none) →
    (∀ p ∈ ps, ∀ c ∈ p.comments, rowIn db.comments c.id = none) →
    (∀ r ∈ db.posts, r.pk < db.nextPk) →
    (∀ r ∈ db.comments, r.pk < db.nextPk) →
    (db.posts.map (fun r => r.pk)).Nodup →
    (db.comments.map (fun r => r.pk)).Nodup →
    (∀ p ∈ ps, effSlug p ≠ "") →
    (∀ p ∈ ps, ¬ (postStatusOf p.status = PStatus.published ∧ p.published_at = none)) →
    (importPosts render ps db am tm da st).1.users = db.users ∧
    (importPosts render ps db am tm da st).1.tags = db.tags ∧
    (importPosts render ps db am tm da st).1.images = db.images ∧
    (∀ i, (∀ p ∈ ps, p.id ≠ i) →
      postIn (importPosts render ps db am tm da st).1.posts i = postIn db.posts i) ∧
    (∀ j, (∀ p ∈ ps, ∀ c ∈ p.comments, c.id ≠ j) →
      rowIn (importPosts render ps db am tm da st).1.comments j = rowIn db.comments j) ∧
    (∀ r ∈ (importPosts render ps db am tm da st).1.posts,
      r.pk < (importPosts render ps db am tm da st).1.nextPk) ∧
    (∀ r ∈ (importPosts render ps db am tm da st).1.comments,
      r.pk < (importPosts render ps db am tm da st).1.nextPk) ∧
    ((importPosts render ps db am tm da st).1.posts.map (fun r => r.pk)).Nodup ∧
    ((importPosts render ps db am tm da st).1.comments.map (fun r => r.pk)).Nodup ∧
    (∀ x ∈ db.postTags, x ∈ (importPosts render ps db am tm da st).1.postTags) ∧
    (∀ p ∈ ps, postOk render am tm da (importPosts render ps db am tm da st).1 p) := by
  intro ps
  induction ps with
  | nil =>
    intro db st _ _ _ _ hpkP hpkC hndP hndC _ _
    exact ⟨rfl, rfl, rfl, fun i _ => rfl, fun j _ => rfl, hpkP, hpkC, hndP, hndC,
      fun x hx => hx, fun p hp => absurd hp (List.not_mem_nil p)⟩
  | cons p rest ih =>
    intro db st hids hcids hfreshP hfreshC hpkP hpkC hndP hndC hslug hpub
    have hfp : postIn db.posts p.id = none := hfreshP p (List.mem_cons_self p rest)
    have hsl : effSlug p ≠ "" := hslug p (List.mem_cons_self p rest)
    have hpb := hpub p (List.mem_cons_self p rest)
    have hstep := postStep_create render db p am tm da hfp hsl hpb
    -- id freshness bookkeeping
    have hids' := hids
    rw [List.map_cons, List.nodup_cons] at hids'
    have hcids' := hcids
    rw [List.flatMap_cons, List.nodup_append] at hcids'
    obtain ⟨hcnd_p, hcnd_rest, hcdisj⟩ := hcids'
    -- the store after the head post's upsert and tag attachment
    obtain ⟨hA1, hA2, hA3, hA4, hA5, hA6⟩ :=
      attachTags_frame db.nextPk tm p.tags ({ db with posts := db.posts ++ [newPRow render db p ((alGetU am p.author).getD da).pk], nextPk := db.nextPk + 1, clock := db.clock + 1 })
    have hperm := sortComments_perm p.comments
    have hndcid : (p.comments.map (fun c => c.id)).Nodup := hcnd_p
    have hpw := sortComments_pairwise_lt p.comments hndcid
    have hfreshA : ∀ c ∈ sortComments p.comments,
        rowIn (attachTags db.nextPk tm p.tags ({ db with posts := db.posts ++ [newPRow render db p ((alGetU am p.author).getD da).pk], nextPk := db.nextPk + 1, clock := db.clock + 1 })).comments c.id = none := by
      intro c hc
      rw [hA4]
      exact hfreshC p (List.mem_cons_self p rest) c (hperm.mem_iff.mp hc)
    have hpkA : ∀ r ∈ (attachTags db.nextPk tm p.tags ({ db with posts := db.posts ++ [newPRow render db p ((alGetU am p.author).getD da).pk], nextPk := db.nextPk + 1, clock := db.clock + 1 })).comments, r.pk < (attachTags db.nextPk tm p.tags ({ db with posts := db.posts ++ [newPRow render db p ((alGetU am p.author).getD da).pk], nextPk := db.nextPk + 1, clock := db.clock + 1 })).nextPk := by
      intro r hr
      rw [hA4] at hr
      rw [hA6]
      exact Nat.lt_succ_of_lt (hpkC r hr)
    obtain ⟨Cstab, Cpk, Call⟩ :=
      importComments_run (sortComments p.comments) (attachTags db.nextPk tm p.tags ({ db with posts := db.posts ++ [newPRow render db p ((alGetU am p.author).getD da).pk], nextPk := db.nextPk + 1, clock := db.clock + 1 })) [] 0 db.nextPk
        hpw hfreshA hpkA
        (fun e he => absurd he (List.not_mem_nil e))
        (fun e he => absurd he (List.not_mem_nil e))
    obtain ⟨F1, F2, F3, F4, F5, F6⟩ :=
      importComments_frame2 (sortComments p.comments) (attachTags db.nextPk tm p.tags ({ db with posts := db.posts ++ [newPRow render db p ((alGetU am p.author).getD da).pk], nextPk := db.nextPk + 1, clock := db.clock + 1 })) db.nextPk [] 0
    have hCnodup : (((importComments (sortComments p.comments) (attachTags db.nextPk tm p.tags ({ db with posts := db.posts ++ [newPRow render db p ((alGetU am p.author).getD da).pk], nextPk := db.nextPk + 1, clock := db.clock + 1 })) db.nextPk [] 0).1).comments.map (fun r => r.pk)).Nodup := by
      refine importComments_nodup (sortComments p.comments) (attachTags db.nextPk tm p.tags ({ db with posts := db.posts ++ [newPRow render db p ((alGetU am p.author).getD da).pk], nextPk := db.nextPk + 1, clock := db.clock + 1 })) [] 0 db.nextPk
        hpw hfreshA hpkA ?_
      rw [hA4]
      exact hndC
    -- the head row in the intermediate store
    have hCposts : ((importComments (sortComments p.comments) (attachTags db.nextPk tm p.tags ({ db with posts := db.posts ++ [newPRow render db p ((alGetU am p.author).getD da).pk], nextPk := db.nextPk + 1, clock := db.clock + 1 })) db.nextPk [] 0).1).posts = db.posts ++ [newPRow render db p ((alGetU am p.author).getD da).pk] := by
      rw [F3, hA3]
    have hrow0 : postIn (((importComments (sortComments p.comments) (attachTags db.nextPk tm p.tags ({ db with posts := db.posts ++ [newPRow render db p ((alGetU am p.author).getD da).pk], nextPk := db.nextPk + 1, clock := db.clock + 1 })) db.nextPk [] 0).1).posts) p.id = some (newPRow render db p ((alGetU am p.author).getD da).pk) := by
      rw [hCposts, postIn_append, hfp]
      simp [postIn, List.find?, newPRow_wpid]
    have hposts_other : ∀ i, p.id ≠ i →
        postIn (((importComments (sortComments p.comments) (attachTags db.nextPk tm p.tags ({ db with posts := db.posts ++ [newPRow render db p ((alGetU am p.author).getD da).pk], nextPk := db.nextPk + 1, clock := db.clock + 1 })) db.nextPk [] 0).1).posts) i = postIn db.posts i := by
      intro i hi
      rw [hCposts, postIn_append]
      have hs : postIn [newPRow render db p ((alGetU am p.author).getD da).pk] i = none := by
        have hbe : ((newPRow render db p ((alGetU am p.author).getD da).pk).wp_post_id == some i) = false := by
          rw [newPRow_wpid]
          exact beq_eq_false_iff_ne.mpr (fun h => hi (Option.some.inj h))
        simp [postIn, List.find?, hbe]
      cases hr : postIn db.posts i <;> simp [hs]
    -- nextPk growth
    have hnext : db.nextPk + 1 ≤ ((importComments (sortComments p.comments) (attachTags db.nextPk tm p.tags ({ db with posts := db.posts ++ [newPRow render db p ((alGetU am p.author).getD da).pk], nextPk := db.nextPk + 1, clock := db.clock + 1 })) db.nextPk [] 0).1).nextPk := by
      calc db.nextPk + 1 = (attachTags db.nextPk tm p.tags ({ db with posts := db.posts ++ [newPRow render db p ((alGetU am p.author).getD da).pk], nextPk := db.nextPk + 1, clock := db.clock + 1 })).nextPk := hA6.symm
        _ ≤ ((importComments (sortComments p.comments) (attachTags db.nextPk tm p.tags ({ db with posts := db.posts ++ [newPRow render db p ((alGetU am p.author).getD da).pk], nextPk := db.nextPk + 1, clock := db.clock + 1 })) db.nextPk [] 0).1).nextPk := F6
    -- pk discipline in the intermediate store
    have hpkPC : ∀ r ∈ ((importComments (sortComments p.comments) (attachTags db.nextPk tm p.tags ({ db with posts := db.posts ++ [newPRow render db p ((alGetU am p.author).getD da).pk], nextPk := db.nextPk + 1, clock := db.clock + 1 })) db.nextPk [] 0).1).posts, r.pk < ((importComments (sortComments p.comments) (attachTags db.nextPk tm p.tags ({ db with posts := db.posts ++ [newPRow render db p ((alGetU am p.author).getD da).pk], nextPk := db.nextPk + 1, clock := db.clock + 1 })) db.nextPk [] 0).1).nextPk := by
      intro r hr
      rw [hCposts] at hr
      rcases List.mem_append.mp hr with hr | hr
      · exact Nat.lt_of_lt_of_le (Nat.lt_succ_of_lt (hpkP r hr)) hnext
      · rcases List.mem_singleton.mp hr with rfl
        rw [newPRow_pk]
        exact Nat.lt_of_lt_of_le (Nat.lt_succ_self _) hnext
    have hndPC : (((importComments (sortComments p.comments) (attachTags db.nextPk tm p.tags ({ db with posts := db.posts ++ [newPRow render db p ((alGetU am p.author).getD da).pk], nextPk := db.nextPk + 1, clock := db.clock + 1 })) db.nextPk [] 0).1).posts.map (fun r => r.pk)).Nodup := by
      rw [hCposts, List.map_append]
      refine List.Nodup.append hndP (by simp) ?_
      intro x hx hx2
      rcases List.mem_map.mp hx with ⟨r, hr, rfl⟩
      rcases List.mem_map.mp hx2 with ⟨r2, hr2, hx2e⟩
      rcases List.mem_singleton.mp hr2
      rw [newPRow_pk] at hx2e
      exact Nat.ne_of_lt (hpkP r hr) hx2e.symm
    -- one unfolding of the loop
    obtain ⟨st', hunfold⟩ : ∃ st', importPosts render (p :: rest) db am tm da st =
        importPosts render rest ((importComments (sortComments p.comments) (attachTags db.nextPk tm p.tags ({ db with posts := db.posts ++ [newPRow render db p ((alGetU am p.author).getD da).pk], nextPk := db.nextPk + 1, clock := db.clock + 1 })) db.nextPk [] 0).1) am tm da st' := by
      refine ⟨⟨st.tags_created, st.posts_created + 1, st.comments_created + (importComments (sortComments p.comments) (attachTags db.nextPk tm p.tags ({ db with posts := db.posts ++ [newPRow render db p ((alGetU am p.author).getD da).pk], nextPk := db.nextPk + 1, clock := db.clock + 1 })) db.nextPk [] 0).2.2⟩, ?_⟩
      simp only [importPosts]
      rw [hstep]
      rfl
    rw [hunfold]
    -- recursive call
    obtain ⟨R1, R2, R3, R4, R5, R6, R7, R8, R9, R10, R11⟩ :=
      ih ((importComments (sortComments p.comments) (attachTags db.nextPk tm p.tags ({ db with posts := db.posts ++ [newPRow render db p ((alGetU am p.author).getD da).pk], nextPk := db.nextPk + 1, clock := db.clock + 1 })) db.nextPk [] 0).1) st'
        hids'.2
        hcnd_rest
        (fun q hq => by
          have h1 : p.id ≠ q.id := fun h => hids'.1 (by rw [h]; exact List.mem_map.mpr ⟨q, hq, rfl⟩)
          rw [hposts_other q.id h1]
          exact hfreshP q (List.mem_cons_of_mem p hq))
        (fun q hq c hc => by
          rw [Cstab c.id (fun d hd => ?_)]
          · rw [hA4]
            exact hfreshC q (List.mem_cons_of_mem p hq) c hc
          · intro hdc
            refine hcdisj (List.mem_map.mpr ⟨d, hperm.mem_iff.mp hd, rfl⟩) ?_
            rw [hdc]
            exact List.mem_flatMap.mpr ⟨q, hq, List.mem_map.mpr ⟨c, hc, rfl⟩⟩)
        hpkPC
        Cpk
        hndPC
        hCnodup
        (fun q hq => hslug q (List.mem_cons_of_mem p hq))
        (fun q hq => hpub q (List.mem_cons_of_mem p hq))
    -- stability of the head data through the tail of the loop
    have hheadid : ∀ q ∈ rest, q.id ≠ p.id := by
      intro q hq h
      exact hids'.1 (List.mem_map.mpr ⟨q, hq, h⟩)
    have hheadcid : ∀ j, j ∈ p.comments.map (fun c => c.id) →
        ∀ q ∈ rest, ∀ c ∈ q.comments, c.id ≠ j := by
      intro j hj q hq c hc h
      refine hcdisj hj (List.mem_flatMap.mpr ⟨q, hq, List.mem_map.mpr ⟨c, hc, ?_⟩⟩)
      exact h
    refine ⟨?_, ?_, ?_, ?_, ?_, R6, R7, R8, R9, ?_, ?_⟩
    · rw [R1, F1, hA1]
    · rw [R2, F2, hA2]
    · rw [R3, F5, hA5]
    · intro i hi
      rw [R4 i (fun q hq => hi q (List.mem_cons_of_mem p hq))]
      exact hposts_other i (hi p (List.mem_cons_self p rest))
    · intro j hj
      rw [R5 j (fun q hq c hc => hj q (List.mem_cons_of_mem p hq) c hc)]
      rw [Cstab j (fun d hd => hj p (List.mem_cons_self p rest) d (hperm.mem_iff.mp hd))]
      rw [hA4]
    · intro x hx
      refine R10 x ?_
      have hx2 : x ∈ (attachTags db.nextPk tm p.tags ({ db with posts := db.posts ++ [newPRow render db p ((alGetU am p.author).getD da).pk], nextPk := db.nextPk + 1, clock := db.clock + 1 })).postTags :=
        attachTags_mono db.nextPk tm p.tags _ x hx
      rw [F4]
      exact hx2
    · intro q hq
      rcases List.mem_cons.mp hq with rfl | hq'
      · -- the head post itself
        refine ⟨newPRow render db q ((alGetU am q.author).getD da).pk, ?_, ⟨rfl, rfl, rfl, rfl, rfl, rfl, rfl, rfl, rfl⟩, ?_, ?_⟩
        · rw [R4 q.id (fun q' hq' => hheadid q' hq')]
          exact hrow0
        · intro c hc
          obtain ⟨rc, hrc, hrcpost, h3, h4, h5, h6, hcondi, hncondi⟩ := Call c hc
          have hcidstab : rowIn (importPosts render rest ((importComments (sortComments q.comments) (attachTags db.nextPk tm q.tags ({ db with posts := db.posts ++ [newPRow render db q ((alGetU am q.author).getD da).pk], nextPk := db.nextPk + 1, clock := db.clock + 1 })) db.nextPk [] 0).1) am tm da st').1.comments c.id =
              rowIn ((importComments (sortComments q.comments) (attachTags db.nextPk tm q.tags ({ db with posts := db.posts ++ [newPRow render db q ((alGetU am q.author).getD da).pk], nextPk := db.nextPk + 1, clock := db.clock + 1 })) db.nextPk [] 0).1).comments c.id :=
            R5 c.id (hheadcid c.id (List.mem_map.mpr ⟨c, hperm.mem_iff.mp hc, rfl⟩))
          refine ⟨rc, by rw [hcidstab]; exact hrc, hrcpost, h3, h4, h5, h6, ?_, ?_⟩
          · intro hcond
            obtain ⟨rp, hrp, hrppar⟩ := hcondi hcond
            have hparmem : c.parent ∈ q.comments.map (fun d => d.id) := by
              rcases hcond.2 with hK | ⟨d, hd, hdid, _⟩
              · obtain ⟨e, he, _⟩ := hK
                exact absurd he (List.not_mem_nil e)
              · exact List.mem_map.mpr ⟨d, hperm.mem_iff.mp hd, hdid⟩
            have hparstab : rowIn (importPosts render rest ((importComments (sortComments q.comments) (attachTags db.nextPk tm q.tags ({ db with posts := db.posts ++ [newPRow render db q ((alGetU am q.author).getD da).pk], nextPk := db.nextPk + 1, clock := db.clock + 1 })) db.nextPk [] 0).1) am tm da st').1.comments c.parent =
                rowIn ((importComments (sortComments q.comments) (attachTags db.nextPk tm q.tags ({ db with posts := db.posts ++ [newPRow render db q ((alGetU am q.author).getD da).pk], nextPk := db.nextPk + 1, clock := db.clock + 1 })) db.nextPk [] 0).1).comments c.parent :=
              R5 c.parent (hheadcid c.parent hparmem)
            exact ⟨rp, by rw [hparstab]; exact hrp, hrppar⟩
          · exact hncondi
        · intro s tg hs hget
          refine R10 _ ?_
          rw [F4]
          exact attachTags_pairs db.nextPk tm q.tags _ s tg hs hget
      · exact R11 q hq'

/-- `postStep` on a post whose stored row already carries exactly the
incoming field values: the row is rewritten in place, changing only
`updated_at`. -/
theorem postStep_update (render : String → String) (db : DB) (p : WPPost)
    (am : List (String × DUser)) (tm : List (String × DTag)) (da : DUser) (row : DPost)
    (hfound : postIn db.posts p.id = some row)
    (ht : row.title = p.title) (hsl2 : row.slug = effSlug p)
    (hmd : row.content_md = html_to_markdown p.content)
    (hht : row.content_html = render (html_to_markdown p.content))
    (hex : row.excerpt = p.excerpt) (hstt : row.status = postStatusOf p.status)
    (hau : row.author = ((alGetU am p.author).getD da).pk)
    (hpa : row.published_at = p.published_at)
    (hslug : effSlug p ≠ "")
    (hpub : ¬ (postStatusOf p.status = PStatus.published ∧ p.published_at = none)) :
    postStep render db p am tm da =
      (attachTags row.pk tm p.tags
        { db with
            posts := db.posts.map (fun q =>
              if q.pk == row.pk then { row with updated_at := db.clock } else q)
            clock := db.clock + 1 },
       { row with updated_at := db.clock }, false) := by
  have hs2 : ¬ row.slug = "" := by
    rw [hsl2]
    exact hslug
  have hp2 : ¬ (row.status = PStatus.published ∧ row.published_at = none) := by
    rw [hstt, hpa]
    exact hpub
  unfold postStep postUpdateOrCreate
  rw [show db.posts.find? (fun q => q.wp_post_id == some p.id) = some row from hfound]
  dsimp only
  have hq1 : ({ row with
      title := p.title, slug := effSlug p,
      content_md := html_to_markdown p.content, excerpt := p.excerpt,
      status := postStatusOf p.status, author := ((alGetU am p.author).getD da).pk,
      published_at := p.published_at } : DPost) = row := by
    rw [← ht, ← hsl2, ← hmd, ← hex, ← hstt, ← hau, ← hpa]
  rw [hq1]
  rw [postSave_tame render db row false hs2 hp2]
  have h2 : ({ row with
      content_html := render row.content_md,
      updated_at := db.clock } : DPost) = { row with updated_at := db.clock } := by
    rw [hmd, ← hht]
  rw [h2]
  rfl

/-- Re-running the post loop when every export post already has a fully
matching row: nothing but the rows' `updated_at` changes, and the stats
are untouched. -/
theorem importPosts_rerun (render : String → String) (am : List (String × DUser))
    (tm : List (String × DTag)) (da : DUser) :
    ∀ (ps : List WPPost) (S : DB) (st : Stats),
    (S.posts.map (fun r => r.pk)).Nodup →
    (S.comments.map (fun r => r.pk)).Nodup →
    (∀ p ∈ ps, (p.comments.map (fun c => c.id)).Nodup) →
    (∀ p ∈ ps, effSlug p ≠ "") →
    (∀ p ∈ ps, ¬ (postStatusOf p.status = PStatus.published ∧ p.published_at = none)) →
    (∀ p ∈ ps, postOk render am tm da S p) →
    (importPosts render ps S am tm da st).1.users = S.users ∧
    (importPosts render ps S am tm da st).1.tags = S.tags ∧
    (importPosts render ps S am tm da st).1.images = S.images ∧
    (importPosts render ps S am tm da st).1.comments = S.comments ∧
    (importPosts render ps S am tm da st).1.postTags = S.postTags ∧
    (importPosts render ps S am tm da st).1.nextPk = S.nextPk ∧
    (importPosts render ps S am tm da st).1.posts.map eraseUpd = S.posts.map eraseUpd ∧
    (importPosts render ps S am tm da st).2 = st := by
  intro ps
  induction ps with
  | nil =>
    intro S st _ _ _ _ _ _
    exact ⟨rfl, rfl, rfl, rfl, rfl, rfl, rfl, rfl⟩
  | cons p rest ih =>
    intro S st hndP hndC hcnd hslug hpub hok
    have hinjP := List.inj_on_of_nodup_map hndP
    obtain ⟨row, hfound, hfields, hcomm, hpairs⟩ := hok p (List.mem_cons_self p rest)
    obtain ⟨ht, hsl2, hmd, hht, hex, hstt, hau, hpa, hwp⟩ := hfields
    have hrowmem : row ∈ S.posts := List.mem_of_find?_eq_some hfound
    have hsl : effSlug p ≠ "" := hslug p (List.mem_cons_self p rest)
    have hpb := hpub p (List.mem_cons_self p rest)
    have hstep := postStep_update render S p am tm da row hfound ht hsl2 hmd hht hex
      hstt hau hpa hsl hpb
    have hnoop : attachTags row.pk tm p.tags
        ({ S with
            posts := S.posts.map (fun q =>
              if q.pk == row.pk then { row with updated_at := S.clock } else q)
            clock := S.clock + 1 }) =
        ({ S with
            posts := S.posts.map (fun q =>
              if q.pk == row.pk then { row with updated_at := S.clock } else q)
            clock := S.clock + 1 }) :=
      attachTags_noop row.pk tm p.tags _ (fun s tg hs hget => hpairs s tg hs hget)
    have hpw := sortComments_pairwise_lt p.comments (hcnd p (List.mem_cons_self p rest))
    obtain ⟨hCR1, hCR2⟩ := importComments_rerun (sortComments p.comments)
      ({ S with
          posts := S.posts.map (fun q =>
            if q.pk == row.pk then { row with updated_at := S.clock } else q)
          clock := S.clock + 1 }) [] 0 row.pk hpw
      (fun d hd d' hd' => List.inj_on_of_nodup_map hndC hd hd')
      (fun e he => absurd he (List.not_mem_nil e))
      (fun c hc => hcomm c hc)
    have hunfold : importPosts render (p :: rest) S am tm da st =
        importPosts render rest
          ({ S with
              posts := S.posts.map (fun q =>
                if q.pk == row.pk then { row with updated_at := S.clock } else q)
              clock := S.clock + 1 }) am tm da st := by
      simp only [importPosts]
      rw [hstep]
      dsimp only
      rw [hnoop, hCR1, hCR2, iteFalseBool]
      rfl
    rw [hunfold]
    have hgpres : ∀ x ∈ S.posts,
        ((if x.pk == row.pk then { row with updated_at := S.clock } else x) : DPost).pk
          = x.pk := by
      intro x hx
      by_cases hc : (x.pk == row.pk) = true
      · rw [if_pos hc]
        exact (eq_of_beq hc).symm
      · rw [if_neg hc]
    obtain ⟨I1, I2, I3, I4, I5, I6, I7, I8⟩ := ih
      ({ S with
          posts := S.posts.map (fun q =>
            if q.pk == row.pk then { row with updated_at := S.clock } else q)
          clock := S.clock + 1 }) st
      (by
        show ((S.posts.map (fun q =>
          if q.pk == row.pk then { row with updated_at := S.clock } else q)).map
            (fun r => r.pk)).Nodup
        rw [map_pk_pres (fun r => r.pk) _ S.posts hgpres]
        exact hndP)
      hndC
      (fun q hq => hcnd q (List.mem_cons_of_mem p hq))
      (fun q hq => hslug q (List.mem_cons_of_mem p hq))
      (fun q hq => hpub q (List.mem_cons_of_mem p hq))
      (by
        intro q hq
        obtain ⟨rowq, hfq, hfieldsq, hcommq, hpairsq⟩ := hok q (List.mem_cons_of_mem p hq)
        have hrowqmem : rowq ∈ S.posts := List.mem_of_find?_eq_some hfq
        have hpres : ∀ x ∈ S.posts,
            (((if x.pk == row.pk then { row with updated_at := S.clock } else x) : DPost).wp_post_id
              == some q.id) = (x.wp_post_id == some q.id) := by
          intro x hx
          by_cases hc : (x.pk == row.pk) = true
          · rw [if_pos hc]
            have : x = row := hinjP hx hrowmem (eq_of_beq hc)
            rw [this]
          · rw [if_neg hc]
        have hfq' : postIn
            ({ S with
                posts := S.posts.map (fun q =>
                  if q.pk == row.pk then { row with updated_at := S.clock } else q)
                clock := S.clock + 1 } : DB).posts q.id =
            some (if rowq.pk == row.pk then { row with updated_at := S.clock } else rowq) := by
          show (S.posts.map _).find? _ = _
          rw [find?_map_pres _ _ S.posts hpres]
          rw [show S.posts.find? (fun r => r.wp_post_id == some q.id) = some rowq from hfq]
          rfl
        have hg : ((if rowq.pk == row.pk then { row with updated_at := S.clock } else rowq) : DPost).pk = rowq.pk ∧
            ((if rowq.pk == row.pk then { row with updated_at := S.clock } else rowq) : DPost).title = rowq.title ∧
            ((if rowq.pk == row.pk then { row with updated_at := S.clock } else rowq) : DPost).slug = rowq.slug ∧
            ((if rowq.pk == row.pk then { row with updated_at := S.clock } else rowq) : DPost).content_md = rowq.content_md ∧
            ((if rowq.pk == row.pk then { row with updated_at := S.clock } else rowq) : DPost).content_html = rowq.content_html ∧
            ((if rowq.pk == row.pk then { row with updated_at := S.clock } else rowq) : DPost).excerpt = rowq.excerpt ∧
            ((if rowq.pk == row.pk then { row with updated_at := S.clock } else rowq) : DPost).status = rowq.status ∧
            ((if rowq.pk == row.pk then { row with updated_at := S.clock } else rowq) : DPost).author = rowq.author ∧
            ((if rowq.pk == row.pk then { row with updated_at := S.clock } else rowq) : DPost).published_at = rowq.published_at ∧
            ((if rowq.pk == row.pk then { row with updated_at := S.clock } else rowq) : DPost).wp_post_id = rowq.wp_post_id := by
          by_cases hc : (rowq.pk == row.pk) = true
          · have hre : rowq = row := hinjP hrowqmem hrowmem (eq_of_beq hc)
            rw [if_pos hc, hre]
            exact ⟨rfl, rfl, rfl, rfl, rfl, rfl, rfl, rfl, rfl, rfl⟩
          · rw [if_neg hc]
            exact ⟨rfl, rfl, rfl, rfl, rfl, rfl, rfl, rfl, rfl, rfl⟩
        obtain ⟨hg0, hg1, hg2, hg3, hg4, hg5, hg6, hg7, hg8, hg9⟩ := hg
        obtain ⟨k1, k2, k3, k4, k5, k6, k7, k8, k9⟩ := hfieldsq
        refine ⟨(if rowq.pk == row.pk then { row with updated_at := S.clock } else rowq),
          hfq', ⟨hg1.trans k1, hg2.trans k2, hg3.trans k3, hg4.trans k4, hg5.trans k5,
            hg6.trans k6, hg7.trans k7, hg8.trans k8, hg9.trans k9⟩, ?_, ?_⟩
        · intro c hc
          rw [hg0]
          exact hcommq c hc
        · intro s tg hs hget
          rw [hg0]
          exact hpairsq s tg hs hget)
    refine ⟨I1, I2, I3, I4, I5, I6, ?_, I8⟩
    rw [I7]
    show (S.posts.map (fun q =>
        if q.pk == row.pk then { row with updated_at := S.clock } else q)).map eraseUpd
      = S.posts.map eraseUpd
    exact map_replace_eraseUpd S.posts row { row with updated_at := S.clock } rfl rfl
      (fun d hd hdk => by rw [hinjP hd hrowmem hdk])

theorem nodup_of_flatMap {α β : Type} (f : α → List β) :
    ∀ (l : List α), (l.flatMap f).Nodup → ∀ x ∈ l, (f x).Nodup := by
  intro l
  induction l with
  | nil =>
    intro _ x hx
    exact absurd hx (List.not_mem_nil x)
  | cons a rest ih =>
    intro h x hx
    rw [List.flatMap_cons] at h
    rcases List.mem_cons.mp hx with rfl | hx'
    · exact h.of_append_left
    · exact ih h.of_append_right x hx'

/-- C1, amended: re-importing the same parsed export into the store it
produced changes nothing except each post's `updated_at` timestamp
(`auto_now`): the second run reports zero created tags, posts and
comments, and users, tags, comments, tag attachments, images and the
key allocator are all identical; the posts are identical up to
`updated_at`.  Hypotheses: the first import starts from a store without
posts or comments, export tag slugs are nonempty, post and comment
source ids are unduplicated, every post has a nonempty effective slug
and no published post lacks a source publication date. -/
theorem claim_C1_amended (render : String → String) (data : WPData) (da : DUser)
    (db0 : DB)
    (hp0 : db0.posts = []) (hc0 : db0.comments = [])
    (hts : ∀ t ∈ data.tags, t.slug ≠ "")
    (hids : (data.posts.map (fun p => p.id)).Nodup)
    (hcids : (data.posts.flatMap (fun p => p.comments.map (fun c => c.id))).Nodup)
    (hslug : ∀ p ∈ data.posts, effSlug p ≠ "")
    (hpub : ∀ p ∈ data.posts,
      ¬ (postStatusOf p.status = PStatus.published ∧ p.published_at = none)) :
    (import_data render data da (import_data render data da db0).1).2 =
      ({ tags_created := 0, posts_created := 0, comments_created := 0 } : Stats) ∧
    (import_data render data da (import_data render data da db0).1).1.users =
      (import_data render data da db0).1.users ∧
    (import_data render data da (import_data render data da db0).1).1.tags =
      (import_data render data da db0).1.tags ∧
    (import_data render data da (import_data render data da db0).1).1.comments =
      (import_data render data da db0).1.comments ∧
    (import_data render data da (import_data render data da db0).1).1.postTags =
      (import_data render data da db0).1.postTags ∧
    (import_data render data da (import_data render data da db0).1).1.images =
      (import_data render data da db0).1.images ∧
    (import_data render data da (import_data render data da db0).1).1.nextPk =
      (import_data render data da db0).1.nextPk ∧
    (import_data render data da (import_data render data da db0).1).1.posts.map eraseUpd =
      (import_data render data da db0).1.posts.map eraseUpd := by
  rcases h1 : importAuthors data.authors db0 [] with ⟨db1, m1⟩
  rcases h2 : importTags data.tags db1 [] 0 with ⟨db2, m2, n2⟩
  have hI1 : import_data render data da db0 =
      importPosts render data.posts db2 m1 m2 da ⟨n2, 0, 0⟩ := by
    unfold import_data
    dsimp only
    rw [h1]
    dsimp only
    rw [h2]
  -- frame facts through the author and tag phases of the first run
  obtain ⟨-, hT1, hP1, hC1, -, -, -, -⟩ := importAuthors_frame data.authors db0 []
  rw [h1] at hT1 hP1 hC1
  dsimp only at hT1 hP1 hC1
  obtain ⟨-, hU2, hP2, hC2, -, -, -, -⟩ := importTags_frame data.tags db1 [] 0
  rw [h2] at hU2 hP2 hC2
  dsimp only at hU2 hP2 hC2
  have hposts2 : db2.posts = [] := by rw [hP2, hP1, hp0]
  have hcomments2 : db2.comments = [] := by rw [hC2, hC1, hc0]
  -- the first post loop
  obtain ⟨RF1, RF2, RF3, RF4, RF5, RF6, RF7, RF8, RF9, RF10, RF11⟩ :=
    importPosts_run render m1 m2 da data.posts db2 ⟨n2, 0, 0⟩ hids hcids
      (fun p _ => by rw [hposts2]; rfl)
      (fun p _ c _ => by rw [hcomments2]; rfl)
      (fun r hr => by rw [hposts2] at hr; exact absurd hr (List.not_mem_nil r))
      (fun r hr => by rw [hcomments2] at hr; exact absurd hr (List.not_mem_nil r))
      (by rw [hposts2]; exact List.nodup_nil)
      (by rw [hcomments2]; exact List.nodup_nil)
      hslug hpub
  -- the second run's author and tag phases are no-ops
  have hA2 : importAuthors data.authors
      (importPosts render data.posts db2 m1 m2 da ⟨n2, 0, 0⟩).1 [] =
      ((importPosts render data.posts db2 m1 m2 da ⟨n2, 0, 0⟩).1, m1) := by
    refine importAuthors_idem data.authors db0 [] db1 m1 h1 _ ?_
    rw [RF1, hU2]
  have hT2 : importTags data.tags
      (importPosts render data.posts db2 m1 m2 da ⟨n2, 0, 0⟩).1 [] 0 =
      ((importPosts render data.posts db2 m1 m2 da ⟨n2, 0, 0⟩).1, m2, 0) := by
    refine importTags_idem data.tags db1 [] 0 db2 m2 n2 h2 hts _ 0 ?_
    rw [RF2]
  have hI2 : import_data render data da
      (importPosts render data.posts db2 m1 m2 da ⟨n2, 0, 0⟩).1 =
      importPosts render data.posts
        (importPosts render data.posts db2 m1 m2 da ⟨n2, 0, 0⟩).1 m1 m2 da ⟨0, 0, 0⟩ := by
    unfold import_data
    dsimp only
    rw [hA2]
    dsimp only
    rw [hT2]
  -- the second post loop
  obtain ⟨I1, I2, I3, I4, I5, I6, I7, I8⟩ :=
    importPosts_rerun render m1 m2 da data.posts
      (importPosts render data.posts db2 m1 m2 da ⟨n2, 0, 0⟩).1 ⟨0, 0, 0⟩
      RF8 RF9
      (fun p hp => nodup_of_flatMap _ data.posts hcids p hp)
      hslug hpub RF11
  rw [hI1, hI2]
  exact ⟨I8, I1, I2, I4, I5, I3, I6, I7⟩

/-- Witness for C1 (amended) at the concrete C2 export: the second import
run creates nothing and only `updated_at` differs. -/
theorem claim_C1_witness :
    (import_data id (parseChannel chC2) adminU
        (import_data id (parseChannel chC2) adminU dbEmpty).1).2 =
      ({ tags_created := 0, posts_created := 0, comments_created := 0 } : Stats) ∧
    (import_data id (parseChannel chC2) adminU
        (import_data id (parseChannel chC2) adminU dbEmpty).1).1.users =
      (import_data id (parseChannel chC2) adminU dbEmpty).1.users ∧
    (import_data id (parseChannel chC2) adminU
        (import_data id (parseChannel chC2) adminU dbEmpty).1).1.tags =
      (import_data id (parseChannel chC2) adminU dbEmpty).1.tags ∧
    (import_data id (parseChannel chC2) adminU
        (import_data id (parseChannel chC2) adminU dbEmpty).1).1.comments =
      (import_data id (parseChannel chC2) adminU dbEmpty).1.comments ∧
    (import_data id (parseChannel chC2) adminU
        (import_data id (parseChannel chC2) adminU dbEmpty).1).1.postTags =
      (import_data id (parseChannel chC2) adminU dbEmpty).1.postTags ∧
    (import_data id (parseChannel chC2) adminU
        (import_data id (parseChannel chC2) adminU dbEmpty).1).1.images =
      (import_data id (parseChannel chC2) adminU dbEmpty).1.images ∧
    (import_data id (parseChannel chC2) adminU
        (import_data id (parseChannel chC2) adminU dbEmpty).1).1.nextPk =
      (import_data id (parseChannel chC2) adminU dbEmpty).1.nextPk ∧
    (import_data id (parseChannel chC2) adminU
        (import_data id (parseChannel chC2) adminU dbEmpty).1).1.posts.map eraseUpd =
      (import_data id (parseChannel chC2) adminU dbEmpty).1.posts.map eraseUpd :=
  claim_C1_amended id (parseChannel chC2) adminU dbEmpty rfl rfl (by decide) (by decide)
    (by decide) (by decide) (by decide)

/-- C9, counterexample: the import binds the post to the default author
(pk 0, login `admin`) and creates no `alice` user, so the stored
author's login does not equal the post's declared author login —
`authors.get(login, default_author)` falls back instead of creating. -/
theorem claim_C9_counterexample :
    (import_data id (parseChannel chC9) adminU dbEmpty).1.posts.map (fun r => r.author)
      = [0] ∧
    (import_data id (parseChannel chC9) adminU dbEmpty).1.users.map (fun u => u.username)
      = ["admin"] ∧
    (∀ p ∈ (parseChannel chC9).posts, p.author = "alice") := by
  decide

/-- C9, amended: author resolution is get-or-create keyed by login *for
logins listed among the export's authors* (each resolves to a stored
user with that login, and no duplicate logins are created); tag
resolution is get-or-create keyed by slug; and each imported post's
stored author is the mapped user when the post's login is listed, and
the default author otherwise. -/
theorem claim_C9_amended (render : String → String) (data : WPData) (da : DUser)
    (db0 : DB)
    (hp0 : db0.posts = []) (hc0 : db0.comments = [])
    (hts : ∀ t ∈ data.tags, t.slug ≠ "")
    (hids : (data.posts.map (fun p => p.id)).Nodup)
    (hcids : (data.posts.flatMap (fun p => p.comments.map (fun c => c.id))).Nodup)
    (hslug : ∀ p ∈ data.posts, effSlug p ≠ "")
    (hpub : ∀ p ∈ data.posts,
      ¬ (postStatusOf p.status = PStatus.published ∧ p.published_at = none)) :
    (∀ a ∈ data.authors, ∃ u,
      alGetU (importAuthors data.authors db0 []).2 a.login = some u ∧
      u.username = a.login ∧ u ∈ (importAuthors data.authors db0 []).1.users) ∧
    ((db0.users.map (fun u => u.username)).Nodup →
      ((import_data render data da db0).1.users.map (fun u => u.username)).Nodup) ∧
    (∀ t ∈ data.tags, ∃ tg,
      alGetT (importTags data.tags (importAuthors data.authors db0 []).1 [] 0).2.1 t.slug
        = some tg ∧
      tg.slug = t.slug ∧
      tg ∈ (import_data render data da db0).1.tags) ∧
    ((db0.tags.map (fun t => t.slug)).Nodup →
      ((import_data render data da db0).1.tags.map (fun t => t.slug)).Nodup) ∧
    (∀ p ∈ data.posts, ∃ row,
      postIn (import_data render data da db0).1.posts p.id = some row ∧
      ((∃ a ∈ data.authors, a.login = p.author) →
        ∃ u, u ∈ (import_data render data da db0).1.users ∧ u.username = p.author ∧
          row.author = u.pk) ∧
      (¬ (∃ a ∈ data.authors, a.login = p.author) → row.author = da.pk)) := by
  rcases h1 : importAuthors data.authors db0 [] with ⟨db1, m1⟩
  rcases h2 : importTags data.tags db1 [] 0 with ⟨db2, m2, n2⟩
  have hI1 : import_data render data da db0 =
      importPosts render data.posts db2 m1 m2 da ⟨n2, 0, 0⟩ := by
    unfold import_data
    dsimp only
    rw [h1]
    dsimp only
    rw [h2]
  obtain ⟨-, hT1, hP1, hC1, -, -, -, -⟩ := importAuthors_frame data.authors db0 []
  rw [h1] at hT1 hP1 hC1
  dsimp only at hT1 hP1 hC1
  obtain ⟨-, hU2, hP2, hC2, -, -, -, -⟩ := importTags_frame data.tags db1 [] 0
  rw [h2] at hU2 hP2 hC2
  dsimp only at hU2 hP2 hC2
  have hposts2 : db2.posts = [] := by rw [hP2, hP1, hp0]
  have hcomments2 : db2.comments = [] := by rw [hC2, hC1, hc0]
  obtain ⟨A1, A2, A3⟩ := importAuthors_char data.authors db0 []
  rw [h1] at A1 A2 A3
  dsimp only at A1 A2 A3
  obtain ⟨T1, T2, T3⟩ := importTags_char data.tags db1 [] 0 hts
  rw [h2] at T1 T2 T3
  dsimp only at T1 T2 T3
  obtain ⟨RF1, RF2, RF3, RF4, RF5, RF6, RF7, RF8, RF9, RF10, RF11⟩ :=
    importPosts_run render m1 m2 da data.posts db2 ⟨n2, 0, 0⟩ hids hcids
      (fun p _ => by rw [hposts2]; rfl)
      (fun p _ c _ => by rw [hcomments2]; rfl)
      (fun r hr => by rw [hposts2] at hr; exact absurd hr (List.not_mem_nil r))
      (fun r hr => by rw [hcomments2] at hr; exact absurd hr (List.not_mem_nil r))
      (by rw [hposts2]; exact List.nodup_nil)
      (by rw [hcomments2]; exact List.nodup_nil)
      hslug hpub
  rw [hI1]
  dsimp only
  refine ⟨A1, ?_, ?_, ?_, ?_⟩
  · intro h0
    rw [RF1, hU2]
    exact A3 h0
  · intro t ht
    obtain ⟨tg, k1, k2, k3⟩ := T1 t ht
    refine ⟨tg, k1, k2, ?_⟩
    rw [RF2]
    exact k3
  · intro h0
    rw [RF2]
    refine T3 ?_
    rw [hT1]
    exact h0
  · intro p hp
    obtain ⟨row, hfound, hrowok, hcomm, hpairs⟩ := RF11 p hp
    obtain ⟨k1, k2, k3, k4, k5, k6, k7, k8, k9⟩ := hrowok
    refine ⟨row, hfound, ?_, ?_⟩
    · intro ⟨a, ha, halogin⟩
      obtain ⟨u, hu1, hu2, hu3⟩ := A1 a ha
      have hgu : alGetU m1 p.author = some u := by
        rw [← halogin]
        exact hu1
      refine ⟨u, ?_, halogin ▸ hu2, ?_⟩
      · rw [RF1, hU2]
        exact hu3
      · rw [k7, hgu]
        rfl
    · intro hno
      rcases A2 p.author with heq | ⟨a, ha, halogin⟩
      · rw [k7, heq]
        rfl
      · exact absurd ⟨a, ha, halogin⟩ hno

/-- Witness for C9 (amended) at the concrete export `chC9w`. -/
theorem claim_C9_witness :
    (∀ a ∈ (parseChannel chC9w).authors, ∃ u,
      alGetU (importAuthors (parseChannel chC9w).authors dbEmpty []).2 a.login = some u ∧
      u.username = a.login ∧
      u ∈ (importAuthors (parseChannel chC9w).authors dbEmpty []).1.users) ∧
    ((dbEmpty.users.map (fun u => u.username)).Nodup →
      ((import_data id (parseChannel chC9w) adminU dbEmpty).1.users.map
        (fun u => u.username)).Nodup) ∧
    (∀ t ∈ (parseChannel chC9w).tags, ∃ tg,
      alGetT (importTags (parseChannel chC9w).tags
          (importAuthors (parseChannel chC9w).authors dbEmpty []).1 [] 0).2.1 t.slug
        = some tg ∧
      tg.slug = t.slug ∧
      tg ∈ (import_data id (parseChannel chC9w) adminU dbEmpty).1.tags) ∧
    ((dbEmpty.tags.map (fun t => t.slug)).Nodup →
      ((import_data id (parseChannel chC9w) adminU dbEmpty).1.tags.map
        (fun t => t.slug)).Nodup) ∧
    (∀ p ∈ (parseChannel chC9w).posts, ∃ row,
      postIn (import_data id (parseChannel chC9w) adminU dbEmpty).1.posts p.id = some row ∧
      ((∃ a ∈ (parseChannel chC9w).authors, a.login = p.author) →
        ∃ u, u ∈ (import_data id (parseChannel chC9w) adminU dbEmpty).1.users ∧
          u.username = p.author ∧ row.author = u.pk) ∧
      (¬ (∃ a ∈ (parseChannel chC9w).authors, a.login = p.author) →
        row.author = adminU.pk)) :=
  claim_C9_amended id (parseChannel chC9w) adminU dbEmpty rfl rfl (by decide) (by decide)
    (by decide) (by decide) (by decide)

theorem pySetAdd_mem (s : List (List Char)) (x y : List Char) :
    y ∈ pySetAdd s x ↔ (y ∈ s ∨ y = x) := by
  unfold pySetAdd
  by_cases h : x ∈ s
  · rw [if_pos h]
    constructor
    · exact Or.inl
    · rintro (hy | rfl)
      · exact hy
      · exact h
  · rw [if_neg h]
    simp [List.mem_append]

theorem pySetAdd_nodup (s : List (List Char)) (x : List Char) (h : s.Nodup) :
    (pySetAdd s x).Nodup := by
  unfold pySetAdd
  by_cases hx : x ∈ s
  · rw [if_pos hx]
    exact h
  · rw [if_neg hx]
    refine List.Nodup.append h (by simp) ?_
    intro a ha ha2
    rcases List.mem_singleton.mp ha2
    exact hx ha

theorem foldl_pySetAdd_mem : ∀ (l acc : List (List Char)) (y : List Char),
    y ∈ l.foldl pySetAdd acc ↔ (y ∈ acc ∨ y ∈ l) := by
  intro l
  induction l with
  | nil =>
    intro acc y
    simp
  | cons a l ih =>
    intro acc y
    rw [List.foldl_cons, ih, pySetAdd_mem]
    constructor
    · rintro ((hy | rfl) | hy)
      · exact Or.inl hy
      · exact Or.inr (List.mem_cons_self _ _)
      · exact Or.inr (List.mem_cons_of_mem _ hy)
    · rintro (hy | hy)
      · exact Or.inl (Or.inl hy)
      · rcases List.mem_cons.mp hy with rfl | hy'
        · exact Or.inl (Or.inr rfl)
        · exact Or.inr hy'

theorem foldl_pySetAdd_nodup : ∀ (l acc : List (List Char)), acc.Nodup →
    (l.foldl pySetAdd acc).Nodup := by
  intro l
  induction l with
  | nil =>
    intro acc h
    exact h
  | cons a l ih =>
    intro acc h
    rw [List.foldl_cons]
    exact ih _ (pySetAdd_nodup acc a h)

/-- C8, amended: the extraction returns each matching URL exactly once
(no duplicates), and a URL is returned iff one of the two patterns
captures it and it passes the domain filter; the order is the markdown
matches (in occurrence order) followed by the HTML matches — not the
order of first occurrence in the content. -/
theorem claim_C8_amended (content domain : String) :
    (extract_image_urls content domain).Nodup ∧
    (∀ u : String, u ∈ extract_image_urls content domain ↔
      ∃ l, u = String.mk l ∧ urlKeep domain.data l = true ∧
        (l ∈ pyFindAll1 mdImgPat content.data ∨ l ∈ pyFindAll1 htmlImgPat content.data)) := by
  have hinj : Function.Injective String.mk := by
    intro a b h
    injection h
  constructor
  · refine List.Nodup.map hinj ?_
    exact foldl_pySetAdd_nodup _ _ (foldl_pySetAdd_nodup _ _ List.nodup_nil)
  · intro u
    unfold extract_image_urls
    dsimp only
    rw [List.mem_map]
    constructor
    · rintro ⟨l, hl, rfl⟩
      rw [foldl_pySetAdd_mem, foldl_pySetAdd_mem] at hl
      rcases hl with (h0 | hmd) | hht
      · exact absurd h0 (List.not_mem_nil l)
      · obtain ⟨h1, h2⟩ := List.mem_filter.mp hmd
        exact ⟨l, rfl, h2, Or.inl h1⟩
      · obtain ⟨h1, h2⟩ := List.mem_filter.mp hht
        exact ⟨l, rfl, h2, Or.inr h1⟩
    · rintro ⟨l, rfl, hk, hmem⟩
      refine ⟨l, ?_, rfl⟩
      rw [foldl_pySetAdd_mem, foldl_pySetAdd_mem]
      rcases hmem with h | h
      · exact Or.inl (Or.inr (List.mem_filter.mpr ⟨h, hk⟩))
      · exact Or.inr (List.mem_filter.mpr ⟨h, hk⟩)

/-- C8, counterexample: with an HTML image occurring *before* a
markdown image in the content, the extraction returns the markdown URL
first — the result is not ordered by first occurrence (the markdown
pass runs to completion before the HTML pass; `set()` is unordered in
CPython to begin with). -/
theorem claim_C8_counterexample :
    extract_image_urls "<img src=\"/a.png\"> ![x](/b.png)" "example.com"
      = ["/b.png", "/a.png"] ∧
    extract_image_urls "<img src=\"/a.png\"> ![x](/b.png)" "example.com"
      ≠ ["/a.png", "/b.png"] := by
  decide

/-- C7, counterexample: running the downloader over two posts that
reference the identical URL stores *two* image records (one per
occurrence) — `process_post_images` never consults existing records;
the filename dedup helper lives only in the featured-image script. -/
theorem claim_C7_counterexample :
    ((download_images_run id (fun _ => some "bytes") (fun _ => "h") "images/" "d.com"
        "https://d.com" [p7a, p7b] db7).1.images.map (fun im => im.original_name))
      = ["a.png", "a.png"] ∧
    p7a.content_md = "![x](/i/a.png)" ∧ p7b.content_md = "![x](/i/a.png)" := by
  decide

theorem processUrls_images (fetch : String → Option String) (hashName : String → String)
    (updir base_url title : String) :
    ∀ (urls : List String) (db : DB) (content : String) (n : Nat),
    (processUrls fetch hashName updir base_url title urls db content n).1.images.length + n
      = db.images.length +
        (processUrls fetch hashName updir base_url title urls db content n).2.2 := by
  intro urls
  induction urls with
  | nil =>
    intro db content n
    rfl
  | cons url rest ih =>
    intro db content n
    simp only [processUrls]
    cases hd : download_image fetch hashName base_url url with
    | none => exact ih db content n
    | some r =>
      dsimp only
      have h := ih (imageSave updir db r.2 ("Image from " ++ title)).1
        (String.mk (pyReplace content.data url.data
          (fileUrl (imageSave updir db r.2 ("Image from " ++ title)).2).data)) (n + 1)
      have hlen : (imageSave updir db r.2 ("Image from " ++ title)).1.images.length
          = db.images.length + 1 := by
        unfold imageSave
        dsimp only
        rw [List.length_append]
        rfl
      rw [hlen] at h
      omega

theorem process_post_images_images (render : String → String)
    (fetch : String → Option String) (hashName : String → String)
    (updir domain base_url : String) (db : DB) (p : DPost) :
    (process_post_images render fetch hashName updir domain base_url db p).1.images.length
      = db.images.length +
        (process_post_images render fetch hashName updir domain base_url db p).2 := by
  have h := processUrls_images fetch hashName updir base_url p.title
    (extract_image_urls p.content_md domain) db p.content_md 0
  unfold process_post_images
  dsimp only
  rcases hr : processUrls fetch hashName updir base_url p.title
      (extract_image_urls p.content_md domain) db p.content_md 0 with ⟨db1, content1, n1⟩
  rw [hr] at h
  dsimp only at h
  dsimp only
  by_cases hc : content1 ≠ p.content_md
  · rw [if_pos hc]
    obtain ⟨-, -, -, -, h5, -⟩ := postSave_frame render db1
      { p with content_md := content1 } false
    dsimp only
    rw [h5]
    omega
  · rw [if_neg hc]
    dsimp only
    omega

/-- C7, amended: the featured-image helper `find_existing_image` does
implement the filename dedup policy (it returns only stored records
whose original filename equals, or whose path case-insensitively
contains, the URL's derived filename); the body-image downloader has no
dedup at all — it appends exactly one *new* image record per downloaded
reference occurrence, across all posts. -/
theorem claim_C7_amended (render : String → String) (fetch : String → Option String)
    (hashName : String → String) (updir domain base_url : String) :
    (∀ (db : DB) (url : String) (im : DImage), find_existing_image db url = some im →
      im ∈ db.images ∧
      (im.original_name = String.mk (basenameOf url.data) ∨
       isInfixCh ((String.mk (basenameOf url.data)).data.map Char.toLower)
         (im.name.data.map Char.toLower) = true)) ∧
    (∀ (ps : List DPost) (db : DB),
      (download_images_run render fetch hashName updir domain base_url ps db).1.images.length
        = db.images.length +
          (download_images_run render fetch hashName updir domain base_url ps db).2) := by
  constructor
  · intro db url im h
    unfold find_existing_image at h
    dsimp only at h
    by_cases hf : String.mk (basenameOf url.data) = ""
    · rw [if_pos hf] at h
      exact Option.noConfusion h
    · rw [if_neg hf] at h
      cases h1 : db.images.find?
          (fun im => im.original_name == String.mk (basenameOf url.data)) with
      | some im2 =>
        rw [h1] at h
        dsimp only at h
        rcases Option.some.inj h
        refine ⟨List.mem_of_find?_eq_some h1, Or.inl ?_⟩
        have := List.find?_some h1
        exact eq_of_beq this
      | none =>
        rw [h1] at h
        dsimp only at h
        cases h2 : db.images.find? (fun im =>
            isInfixCh ((String.mk (basenameOf url.data)).data.map Char.toLower)
              (im.name.data.map Char.toLower)) with
        | some im2 =>
          rw [h2] at h
          dsimp only at h
          rcases Option.some.inj h
          refine ⟨List.mem_of_find?_eq_some h2, Or.inr ?_⟩
          have h3 := List.find?_some h2
          simpa using h3
        | none =>
          rw [h2] at h
          exact Option.noConfusion h
  · intro ps
    induction ps with
    | nil =>
      intro db
      rfl
    | cons p rest ih =>
      intro db
      simp only [download_images_run]
      have h1 := process_post_images_images render fetch hashName updir domain base_url db p
      have h2 := ih (process_post_images render fetch hashName updir domain base_url db p).1
      omega

end Mig

